import Mathlib

/-!
Verification of the event-history propagation and move engine of the model
core (src/src/Model.cpp).  The tree topology, branch histories, events, the
event registry and the random-number stream are embedded shallowly; the
functions `forwardSetBranchHistories`, `forwardSetHistoriesRecursive`,
`addEventToTree`, `chooseEventAtRandom`, `eventMove`,
`revertMovedEventToPrevious` and the per-record body of the event-data
initializer are translated from the source.  Collaborator operations that
live outside the given source file (BranchHistory insertion and rootward
lookup, Event position moves and rollback) are modelled from the
specification and are marked as such in their doc comments.
-/

namespace BammModel

/-- A fixed binary phylogenetic tree topology: every vertex carries a node id,
and an inner vertex has exactly a left and a right descendant (the source
treats a node as a tip exactly when both descendant pointers are null). -/
inductive PTree where
  | tip : Nat → PTree
  | node : Nat → PTree → PTree → PTree
deriving DecidableEq

namespace PTree

/-- The id of the vertex at the root of this (sub)tree. -/
def rootId : PTree → Nat
  | tip i => i
  | node i _ _ => i

/-- All node ids of the tree, in preorder. -/
def ids : PTree → List Nat
  | tip i => [i]
  | node i l r => i :: (l.ids ++ r.ids)

/-- Locate the subtree rooted at the vertex with id `w` (navigation along the
parent/child pointers of the source's `Node` arena). -/
def findSub (w : Nat) : PTree → Option PTree
  | tip i => if i = w then some (tip i) else none
  | node i l r =>
      if i = w then some (node i l r)
      else
        match findSub w l with
        | some t => some t
        | none => findSub w r

end PTree

/-- The per-branch data of the source's `BranchHistory` collaborator: the
ordered list of event ids on the node's incoming branch (rootward end first),
the cached effective event at the node (`nodeEvent`) and the cached effective
event at the branch's proximal end (`ancestralNodeEvent`). -/
structure BranchHist where
  events : List Nat
  nodeEvent : Nat
  ancestralNodeEvent : Nat
deriving DecidableEq

/-- The mutable model state: branch histories indexed by node id, the
per-event attributes (owning node, map time, saved previous position,
model-specific parameter token), the event registry in its stable iteration
order, the id allocator for freshly constructed events, the last-modified
event used for rollback and the derived per-branch mean parameters. -/
structure MState where
  bh : Nat → BranchHist
  evNode : Nat → Nat
  evMap : Nat → ℚ
  evPrevNode : Nat → Nat
  evPrevMap : Nat → ℚ
  evParams : Nat → Nat
  registry : List Nat
  nextId : Nat
  lastEventModified : Option Nat
  means : Nat

/-- The immutable environment of a `Model`: the tree, the distinguished root
event, the coordinate map's position-to-node resolution, the total map
length, the pre-scaled local move scale, the per-node times and map start
offsets, and the model-specific derived-mean computation. -/
structure ModelEnv where
  tree : PTree
  rootEvent : Nat
  locate : ℚ → Nat
  totalMapLength : ℚ
  scale : ℚ
  nodeTime : Nat → ℚ
  nodeMapStart : Nat → ℚ
  computeMeans : (Nat → BranchHist) → Nat

/-- Pointwise update of a function at one point. -/
def upd {α : Type} (f : Nat → α) (i : Nat) (v : α) : Nat → α :=
  fun j => if j = i then v else f j

/-- Replace the branch history stored at node `i`. -/
def setBH (st : MState) (i : Nat) (b : BranchHist) : MState :=
  { st with bh := upd st.bh i b }

/-- BranchHistory::setNodeEvent on node `i`. -/
def setNodeEvent (st : MState) (i : Nat) (e : Nat) : MState :=
  setBH st i { st.bh i with nodeEvent := e }

/-- BranchHistory::setAncestralNodeEvent on node `i`. -/
def setAncestralNodeEvent (st : MState) (i : Nat) (e : Nat) : MState :=
  setBH st i { st.bh i with ancestralNodeEvent := e }

/-- Modelled from the spec: `BranchHistory::addEventToBranchHistory` keeps the
branch's events ordered by map position, ties broken by insertion order (a
newly inserted event goes after existing events at the same position). -/
def insertByMapTime (m : Nat → ℚ) (e : Nat) : List Nat → List Nat
  | [] => [e]
  | f :: rest => if m e < m f then e :: f :: rest else f :: insertByMapTime m e rest

/-- Scan helper for `lastEventBefore`: walk the ordered branch list keeping
the element seen immediately before `e`. -/
def lastBeforeAux (e : Nat) : List Nat → Nat → Nat
  | [], acc => acc
  | f :: rest, acc => if f = e then acc else lastBeforeAux e rest f

/-- Modelled from the spec: `BranchHistory::getLastEvent(before)` returns the
event immediately rootward of `before` on this branch, or the branch's
`ancestralNodeEvent` when no event on this branch lies rootward of it. -/
def lastEventBefore (b : BranchHist) (e : Nat) : Nat :=
  lastBeforeAux e b.events b.ancestralNodeEvent

/-- Model::forwardSetHistoriesRecursive (Model.cpp:159-180), specialized to a
subtree: `a` is the id of the ancestor of the subtree's root vertex.  The
parent's current `nodeEvent` is read, stored as this vertex's
`ancestralNodeEvent`, and when this branch carries no event of its own the
vertex inherits it as `nodeEvent` and the recursion continues into both
descendants; a non-empty branch stops the recursion. -/
def forwardSetHistoriesRecursive (st : MState) (a : Nat) : PTree → MState
  | PTree.tip i =>
      let lastEvent := (st.bh a).nodeEvent
      let st1 := setAncestralNodeEvent st i lastEvent
      if (st1.bh i).events = [] then setNodeEvent st1 i lastEvent else st1
  | PTree.node i l r =>
      let lastEvent := (st.bh a).nodeEvent
      let st1 := setAncestralNodeEvent st i lastEvent
      if (st1.bh i).events = [] then
        let st2 := setNodeEvent st1 i lastEvent
        forwardSetHistoriesRecursive (forwardSetHistoriesRecursive st2 i l) i r
      else st1

/-- Model::forwardSetBranchHistories (Model.cpp:119-147).  For the root event
the recursion enters both root descendants.  Otherwise, when the event is the
last (most tipward) event of its owning node's branch history, that node's
`nodeEvent` is set to the event and, when the node is not a tip, the
recursion enters both descendants; when another more tipward event sits on
the same branch nothing happens. -/
def forwardSetBranchHistories (env : ModelEnv) (st : MState) (x : Nat) : MState :=
  let myNode := st.evNode x
  if x = env.rootEvent then
    match PTree.findSub myNode env.tree with
    | some (PTree.node i l r) =>
        forwardSetHistoriesRecursive (forwardSetHistoriesRecursive st i l) i r
    | _ => st
  else if (st.bh myNode).events.getLast? = some x then
    let st1 := setNodeEvent st myNode x
    match PTree.findSub myNode env.tree with
    | some (PTree.node i l r) =>
        forwardSetHistoriesRecursive (forwardSetHistoriesRecursive st1 i l) i r
    | _ => st1
  else st

/-- A deterministic stand-in for the external RNG stream: the underlying
sequence of `uniformRv()` draws in `[0,1)` together with the cursor of the
next unconsumed draw. -/
def RngS : Type := (Nat → ℚ) × Nat

/-- MbRandom::uniformRv(): consume one draw in `[0,1)`. -/
def rngDraw (r : RngS) : ℚ × RngS :=
  (r.1 r.2, (r.1, r.2 + 1))

/-- MbRandom::uniformRv(lo, hi): one draw scaled onto `[lo, hi)`. -/
def rngDrawRange (lo hi : ℚ) (r : RngS) : ℚ × RngS :=
  let (u, r1) := rngDraw r
  (lo + (hi - lo) * u, r1)

/-- Model::chooseEventAtRandom (Model.cpp:215-236) given the value `u` of the
single `uniformRv()` draw it makes: `none` models the fatal exit taken when
the registry is empty; otherwise the draw is scaled by the population size,
truncated to an index, and the registry element at that index (in stable
iteration order) is returned.  An out-of-range index yields `none` as well,
standing for the out-of-range iterator dereference. -/
def chooseEventAtRandom (st : MState) (u : ℚ) : Option Nat :=
  let numEvents := st.registry.length
  if numEvents = 0 then none
  else st.registry.get? (Int.toNat ⌊u * (numEvents : ℚ)⌋)

/-- The scale computed by the Model constructor (Model.cpp:27-29): the
configured event-location update scale times the tree's maximum root-to-tip
length. -/
def modelScale (updateEventLocationScale maxRootToTipLength : ℚ) : ℚ :=
  updateEventLocationScale * maxRootToTipLength

/-- The common core of Model::addEventToTree(double) (Model.cpp:197-211) and
of the non-root branch of the event-data initializer: construct a fresh event
with the given owning node, map time and parameter token, add it to that
node's branch history, insert it into the registry, and forward set branch
histories from it.  The saved previous position of a freshly constructed
event is its current position. -/
def insertNewEvent (env : ModelEnv) (st : MState) (n : Nat) (t : ℚ) (params : Nat) : MState :=
  let newId := st.nextId
  let st1 : MState :=
    { st with
      evNode := upd st.evNode newId n
      evMap := upd st.evMap newId t
      evPrevNode := upd st.evPrevNode newId n
      evPrevMap := upd st.evPrevMap newId t
      evParams := upd st.evParams newId params
      nextId := st.nextId + 1 }
  let st2 := setBH st1 n { st1.bh n with events := insertByMapTime st1.evMap newId (st1.bh n).events }
  let st3 : MState := { st2 with registry := st2.registry ++ [newId] }
  forwardSetBranchHistories env st3 newId

/-- Model::addEventToTree(double x) (Model.cpp:197-211): the owning node is
resolved from the map position `x` by the coordinate map, the event is
inserted and propagated, derived means are recomputed, and the new event is
recorded as the last-modified event. -/
def addEventToTreeAt (env : ModelEnv) (st : MState) (x : ℚ) (params : Nat) : MState :=
  let st4 := insertNewEvent env st (env.locate x) x params
  let st5 : MState := { st4 with means := env.computeMeans st4.bh }
  { st5 with lastEventModified := some st.nextId }

/-- Model::addEventToTree() (Model.cpp:183-190): the map position is drawn
uniformly over `[mapStart(root), totalMapLength)` and the parameter token is
drawn next. -/
def addEventToTree (env : ModelEnv) (st : MState) (r : RngS) : MState × RngS :=
  let aa := env.nodeMapStart env.tree.rootId
  let bb := env.totalMapLength
  let (x, r1) := rngDrawRange aa bb r
  let (p, r2) := rngDraw r1
  (addEventToTreeAt env st x (Int.toNat ⌊p * 1000⌋), r2)

/-- Modelled from the spec: `BranchEvent::moveEventLocal` and
`BranchEvent::moveEventGlobal` save the current owning node and map time for
rollback, then install the new map time and re-resolve the owning node
through the coordinate map. -/
def eventSetPosition (env : ModelEnv) (st : MState) (e : Nat) (newMap : ℚ) : MState :=
  { st with
    evPrevNode := upd st.evPrevNode e (st.evNode e)
    evPrevMap := upd st.evPrevMap e (st.evMap e)
    evNode := upd st.evNode e (env.locate newMap)
    evMap := upd st.evMap e newMap }

/-- Modelled from the spec: `BranchEvent::revertOldMapPosition` restores the
owning node and map time saved before the move. -/
def revertOldMapPosition (st : MState) (e : Nat) : MState :=
  { st with
    evNode := upd st.evNode e (st.evPrevNode e)
    evMap := upd st.evMap e (st.evPrevMap e) }

/-- `BranchHistory::popEventOffBranchHistory`: remove the event from its
owning node's branch event list (the multiset erases one copy). -/
def popEvent (st : MState) (e : Nat) : MState :=
  setBH st (st.evNode e) { st.bh (st.evNode e) with events := ((st.bh (st.evNode e)).events).erase e }

/-- The shared relocation core of `eventMove` and
`revertMovedEventToPrevious`: record the event immediately rootward of `e`,
pop `e` off its branch history, install `e`'s new position via `reposition`,
re-insert `e` into its (possibly different) owning node's branch history, and
forward set branch histories from the recorded rootward event and from `e`. -/
def relocateEvent (env : ModelEnv) (st : MState) (e : Nat) (reposition : MState → MState) : MState :=
  let previousEvent := lastEventBefore (st.bh (st.evNode e)) e
  let st2 := reposition (popEvent st e)
  let st3 := setBH st2 (st2.evNode e) { st2.bh (st2.evNode e) with events := insertByMapTime st2.evMap e ((st2.bh (st2.evNode e)).events) }
  let st4 := forwardSetBranchHistories env st3 previousEvent
  forwardSetBranchHistories env st4 e

/-- Model::eventMove (Model.cpp:258-294).  With at least one registry event:
choose an event at random, record it as the last-modified event, and relocate
it; a local move jitters the old position by `uniformRv(0, scale) - scale/2`,
a global move resamples the position uniformly over the whole map.  The
derived means are recomputed in every case. -/
def eventMove (env : ModelEnv) (st : MState) (isLocalMove : Bool) (r : RngS) : MState × RngS :=
  if st.registry.length > 0 then
    let (u1, r1) := rngDraw r
    match chooseEventAtRandom st u1 with
    | some chosenEvent =>
        let st1 : MState := { st with lastEventModified := some chosenEvent }
        let (newMap, r2) :=
          if isLocalMove then
            let (s, r2) := rngDrawRange 0 env.scale r1
            (st1.evMap chosenEvent + (s - env.scale / 2), r2)
          else
            let (u, r2) := rngDraw r1
            (env.totalMapLength * u, r2)
        let st6 := relocateEvent env st1 chosenEvent (fun s => eventSetPosition env s chosenEvent newMap)
        ({ st6 with means := env.computeMeans st6.bh }, r2)
    | none => (st, r1)
  else ({ st with means := env.computeMeans st.bh }, r)

/-- Model::eventLocalMove (Model.cpp:239-242). -/
def eventLocalMove (env : ModelEnv) (st : MState) (r : RngS) : MState × RngS :=
  eventMove env st true r

/-- Model::eventGlobalMove (Model.cpp:245-248). -/
def eventGlobalMove (env : ModelEnv) (st : MState) (r : RngS) : MState × RngS :=
  eventMove env st false r

/-- Model::revertMovedEventToPrevious (Model.cpp:299-330): relocate the
last-modified event back to its saved previous node and map time, clear the
last-modified event, and recompute derived means.  Calling it with no
uncommitted move is undefined in the source (a null dereference); the model
leaves the state unchanged in that case. -/
def revertMovedEventToPrevious (env : ModelEnv) (st : MState) : MState :=
  match st.lastEventModified with
  | none => st
  | some le =>
      let st5 := relocateEvent env st le (fun s => revertOldMapPosition s le)
      let st6 : MState := { st5 with lastEventModified := none }
      { st6 with means := env.computeMeans st6.bh }

/-- The outcome of resolving one event-data record's tree position
(Model.cpp:79-89): look up the most-recent-common-ancestor of the two named
species, look up the single named species, or exit fatally. -/
inductive ResolveOutcome where
  | mrca : String → String → ResolveOutcome
  | byName : String → ResolveOutcome
  | fatal : ResolveOutcome
deriving DecidableEq

/-- The species-pair branching of the event-data initializer
(Model.cpp:79-89). -/
def resolveEventNode (species1 species2 : String) : ResolveOutcome :=
  if species1 ≠ "NA" ∧ species2 ≠ "NA" then ResolveOutcome.mrca species1 species2
  else if species1 ≠ "NA" ∧ species2 = "NA" then ResolveOutcome.byName species1
  else ResolveOutcome.fatal

/-- The per-record body of the event-data initializer (Model.cpp:91-106),
after the record's node `x` has been resolved: a record resolving to the root
installs its parameters onto the root event directly; any other record makes
a new event at map time `mapStart(x) + (time(x) - eventTime)`, inserts it
into `x`'s branch history and the registry, forward sets branch histories
from it and recomputes derived means. -/
def processEventRecord (env : ModelEnv) (st : MState) (x : Nat) (eTime : ℚ) (params : Nat) : MState :=
  if x = env.tree.rootId then
    { st with evParams := upd st.evParams env.rootEvent params }
  else
    let deltaT := env.nodeTime x - eTime
    let newMapTime := env.nodeMapStart x + deltaT
    let st4 := insertNewEvent env st x newMapTime params
    { st4 with means := env.computeMeans st4.bh }

/-- The model state right after construction: the root event exists, every
branch history is empty with both cached events equal to the root event, and
the registry is empty. -/
def initialModelState (env : ModelEnv) : MState where
  bh := fun _ => ⟨[], env.rootEvent, env.rootEvent⟩
  evNode := fun _ => env.tree.rootId
  evMap := fun _ => 0
  evPrevNode := fun _ => env.tree.rootId
  evPrevMap := fun _ => 0
  evParams := fun _ => 0
  registry := []
  nextId := env.rootEvent + 1
  lastEventModified := none
  means := 0

/-- The most tipward event of a branch list according to the spec's words:
an event with the largest map position, later insertions winning ties. -/
def mostTipward (m : Nat → ℚ) : List Nat → Option Nat
  | [] => none
  | f :: rest =>
      match mostTipward m rest with
      | none => some f
      | some g => if m g < m f then some f else some g

/-- Spec-side restatement of `forwardSetBranchHistories`, following the
specification's words: the root event propagates into both root children;
any other event propagates exactly when it is the most tipward event of its
owning node's branch history, setting that node's `nodeEvent` and descending
into the node's children when it has any. -/
def forwardSetBranchHistoriesSpec (env : ModelEnv) (st : MState) (x : Nat) : MState :=
  if x = env.rootEvent then
    match env.tree with
    | PTree.node i l r =>
        forwardSetHistoriesRecursive (forwardSetHistoriesRecursive st i l) i r
    | PTree.tip _ => st
  else
    let myNode := st.evNode x
    if mostTipward st.evMap (st.bh myNode).events = some x then
      let st1 := setNodeEvent st myNode x
      match PTree.findSub myNode env.tree with
      | some (PTree.node i l r) =>
          forwardSetHistoriesRecursive (forwardSetHistoriesRecursive st1 i l) i r
      | _ => st1
    else st

/-- Remove every occurrence of `w` from a dirt list. -/
def dremove (D : List Nat) (w : Nat) : List Nat :=
  D.filter (fun z => z != w)

/-- The central correctness predicate for the propagation invariant over a
subtree, relative to the effective event `A` governing the subtree's proximal
end.  `strict = true` demands the full invariant: the root vertex's
`ancestralNodeEvent` is `A`, a vertex with a non-empty branch carries its
last event as `nodeEvent`, and a vertex with an empty branch inherits the
governing event as `nodeEvent`.  `strict = false` (a settled subtree) drops
the requirements along empty-branch spines and only pins vertices with
non-empty branches and everything below them.  Vertices listed in the dirt
list `D` whose branch is non-empty are exempt: nothing is required of their
`nodeEvent`, and their subtrees are only required to be settled. -/
def Good (bhf : Nat → BranchHist) (strict : Bool) (A : Nat) (D : List Nat) : PTree → Prop
  | PTree.tip i =>
      (strict = true → (bhf i).ancestralNodeEvent = A) ∧
      (if i ∈ D ∧ (bhf i).events ≠ [] then True
       else
        match (bhf i).events.getLast? with
        | none => strict = true → (bhf i).nodeEvent = A
        | some L => (bhf i).nodeEvent = L)
  | PTree.node i l r =>
      (strict = true → (bhf i).ancestralNodeEvent = A) ∧
      (if i ∈ D ∧ (bhf i).events ≠ [] then
        Good bhf false 0 D l ∧ Good bhf false 0 D r
       else
        match (bhf i).events.getLast? with
        | none =>
            (strict = true → (bhf i).nodeEvent = A) ∧
            Good bhf strict A D l ∧ Good bhf strict A D r
        | some L =>
            (bhf i).nodeEvent = L ∧
            Good bhf true L D l ∧ Good bhf true L D r)

/-- The whole-tree version of `Good`: both subtrees hanging off the root are
governed by the root vertex's `nodeEvent`. -/
def GoodTree (bhf : Nat → BranchHist) (D : List Nat) : PTree → Prop
  | PTree.tip _ => True
  | PTree.node i l r =>
      Good bhf true ((bhf i).nodeEvent) D l ∧ Good bhf true ((bhf i).nodeEvent) D r

/-- Well-formedness of the environment: the coordinate map resolves every
position to a non-root tree node, and the node ids of the tree are
distinct. -/
structure EnvWF (env : ModelEnv) : Prop where
  locateMem : ∀ q, env.locate q ∈ env.tree.ids
  locateNonRoot : ∀ q, env.locate q ≠ env.tree.rootId
  idsNodup : env.tree.ids.Nodup

/-- The consistency invariant of a model state: the root's branch history is
empty and governed by the root event, the root event is owned by the root
node and never registered, registry entries are distinct live events whose
owning (and saved previous) nodes are non-root tree nodes, every branch
history holds exactly its owner's registered events in map-time order
without duplicates, the last-modified event (when set) is registered, and
the propagation invariant `GoodTree` holds with no dirt. -/
structure WF (env : ModelEnv) (st : MState) : Prop where
  rootEmpty : (st.bh env.tree.rootId).events = []
  rootNe : (st.bh env.tree.rootId).nodeEvent = env.rootEvent
  rootEvNode : st.evNode env.rootEvent = env.tree.rootId
  rootLt : env.rootEvent < st.nextId
  rootNotReg : env.rootEvent ∉ st.registry
  regNodup : st.registry.Nodup
  regLt : ∀ f ∈ st.registry, f < st.nextId
  regNode : ∀ f ∈ st.registry, st.evNode f ∈ env.tree.ids ∧ st.evNode f ≠ env.tree.rootId
  regPrevNode : ∀ f ∈ st.registry, st.evPrevNode f ∈ env.tree.ids ∧ st.evPrevNode f ≠ env.tree.rootId
  regMem : ∀ f ∈ st.registry, f ∈ (st.bh (st.evNode f)).events
  histMem : ∀ q, ∀ f ∈ (st.bh q).events, st.evNode f = q ∧ f ∈ st.registry
  histSorted : ∀ q, (st.bh q).events.Pairwise (fun a b => st.evMap a ≤ st.evMap b)
  histNodup : ∀ q, (st.bh q).events.Nodup
  lemReg : ∀ le, st.lastEventModified = some le → le ∈ st.registry
  good : GoodTree st.bh [] env.tree

/-- The model states reachable by the operations named in the specification:
the freshly constructed model, random event insertion, local or global event
moves, rollback of the last move, and initializer records resolved to a tree
node. -/
inductive Reachable (env : ModelEnv) : MState → Prop where
  | init : Reachable env (initialModelState env)
  | add (st : MState) (r : RngS) (h : Reachable env st) :
      Reachable env (addEventToTree env st r).1
  | move (st : MState) (isLocalMove : Bool) (r : RngS) (h : Reachable env st) :
      Reachable env (eventMove env st isLocalMove r).1
  | revert (st : MState) (h : Reachable env st) :
      Reachable env (revertMovedEventToPrevious env st)
  | record (st : MState) (x : Nat) (eTime : ℚ) (params : Nat)
      (hx : x ∈ env.tree.ids) (h : Reachable env st) :
      Reachable env (processEventRecord env st x eTime params)

/-- The (parent id, child id) pairs of a tree: one pair per non-root
vertex. -/
def childPairs : PTree → List (Nat × Nat)
  | PTree.tip _ => []
  | PTree.node i l r =>
      (i, l.rootId) :: (i, r.rootId) :: (childPairs l ++ childPairs r)

/-- The per-node effective-event invariant in the claim's own words: every
non-root node's `nodeEvent` is the most tipward event of its own branch
history when that history is non-empty, and its ancestor's `nodeEvent`
otherwise. -/
def NodeEventInvariant (st : MState) (t : PTree) : Prop :=
  ∀ pc ∈ childPairs t,
    match mostTipward st.evMap (st.bh pc.2).events with
    | some L => (st.bh pc.2).nodeEvent = L
    | none => (st.bh pc.2).nodeEvent = (st.bh pc.1).nodeEvent

/-- The body of `forwardSetBranchHistories` in its firing (non-root,
most-tipward) case, parameterized by the tree being searched: install `x` as
`w`'s `nodeEvent` and recurse into `w`'s children when it has any. -/
def repairApply (st : MState) (w x : Nat) (p : PTree) : MState :=
  match PTree.findSub w p with
  | some (PTree.node i l r) =>
      forwardSetHistoriesRecursive
        (forwardSetHistoriesRecursive (setNodeEvent st w x) i l) i r
  | some (PTree.tip _) => setNodeEvent st w x
  | none => st

/-- The weakened whole-tree predicate: both root subtrees are merely
settled. -/
def GoodTreeW (bhf : Nat → BranchHist) (D : List Nat) : PTree → Prop
  | PTree.tip _ => True
  | PTree.node _ l r => Good bhf false 0 D l ∧ Good bhf false 0 D r

/-- Every vertex strictly above `q` in this subtree, the subtree's root
included, carries no event of its own (so `q`'s governing event comes from
above the subtree). -/
def SpinePathTo (bhf : Nat → BranchHist) (q : Nat) : PTree → Prop
  | PTree.tip _ => True
  | PTree.node j l r =>
      j = q ∨ ((bhf j).events = [] ∧
        (if q ∈ l.ids then SpinePathTo bhf q l else SpinePathTo bhf q r))

/-- Like `SpinePathTo`, but the subtree's own root vertex is exempt: every
vertex strictly between the root and `q` carries no event. -/
def SpineStrict (bhf : Nat → BranchHist) (q : Nat) : PTree → Prop
  | PTree.tip _ => True
  | PTree.node j l r =>
      j = q ∨ (if q ∈ l.ids then SpinePathTo bhf q l else SpinePathTo bhf q r)

/-- A four-leaf test tree: root 0 with inner vertices 1 and 2, and leaves 3,
4 below 1 and 5, 6 below 2. -/
def cT4 : PTree :=
  PTree.node 0 (PTree.node 1 (PTree.tip 3) (PTree.tip 4))
               (PTree.node 2 (PTree.tip 5) (PTree.tip 6))

/-- Test environment on `cT4`: branch 1 owns map positions below 10, branch
2 the rest; the root event is 100. -/
def cEnv : ModelEnv where
  tree := cT4
  rootEvent := 100
  locate := fun q => if q < 10 then 1 else 2
  totalMapLength := 20
  scale := 4
  nodeTime := fun _ => 1
  nodeMapStart := fun i => if i = 1 then 0 else 10
  computeMeans := fun _ => 0

/-- A deterministic draw stream from a finite list (0 past its end). -/
def constStream (l : List ℚ) : RngS :=
  (fun n => l.getD n 0, 0)

/-- Two events inserted at map positions 3 and 7 on branch 1 of `cT4`:
event 101 at 3 and event 102 at 7. -/
def cSt2 : MState :=
  addEventToTreeAt cEnv (addEventToTreeAt cEnv (initialModelState cEnv) 3 0) 7 0

/-- Two events inserted at the same map position 5 on branch 1 of `cT4`:
event 101 first, then event 102 (which therefore sits after 101 and is the
branch's last event). -/
def cSt2tie : MState :=
  addEventToTreeAt cEnv (addEventToTreeAt cEnv (initialModelState cEnv) 5 0) 5 0

/-- A handcrafted state for the frame-effect counterexample: branch 1 of
`cT4` holds event 10 at map position 1 and event 11 at map position 2, while
the cached `nodeEvent` of vertex 1 is still 10 (the state reached right
after inserting 11 and before forward setting from it). -/
def cFrameSt : MState where
  bh := fun i =>
    if i = 1 then ⟨[10, 11], 10, 100⟩ else ⟨[], 100, 100⟩
  evNode := fun e => if e = 10 ∨ e = 11 then 1 else 0
  evMap := fun e => if e = 10 then 1 else if e = 11 then 2 else 0
  evPrevNode := fun _ => 0
  evPrevMap := fun _ => 0
  evParams := fun _ => 0
  registry := [10, 11]
  nextId := 101
  lastEventModified := none
  means := 0

/-! ## Basic lemmas about state updates and frame conditions -/

theorem upd_same {α : Type} (f : Nat → α) (i : Nat) (v : α) : upd f i v i = v := by
  simp [upd]

theorem upd_other {α : Type} (f : Nat → α) (i j : Nat) (v : α) (h : j ≠ i) :
    upd f i v j = f j := by
  simp [upd, h]

theorem setBH_bh (st : MState) (i j : Nat) (b : BranchHist) :
    (setBH st i b).bh j = if j = i then b else st.bh j := by
  simp [setBH, upd]

theorem setNodeEvent_events (st : MState) (i j : Nat) (e : Nat) :
    ((setNodeEvent st i e).bh j).events = (st.bh j).events := by
  simp [setNodeEvent, setBH_bh]
  split <;> simp_all

theorem setAncestralNodeEvent_events (st : MState) (i j : Nat) (e : Nat) :
    ((setAncestralNodeEvent st i e).bh j).events = (st.bh j).events := by
  simp [setAncestralNodeEvent, setBH_bh]
  split <;> simp_all

/-- `forwardSetHistoriesRecursive` touches only the `bh` component. -/
theorem fshr_nonbh (p : PTree) (st : MState) (a : Nat) :
    (forwardSetHistoriesRecursive st a p).evNode = st.evNode ∧
    (forwardSetHistoriesRecursive st a p).evMap = st.evMap ∧
    (forwardSetHistoriesRecursive st a p).evPrevNode = st.evPrevNode ∧
    (forwardSetHistoriesRecursive st a p).evPrevMap = st.evPrevMap ∧
    (forwardSetHistoriesRecursive st a p).evParams = st.evParams ∧
    (forwardSetHistoriesRecursive st a p).registry = st.registry ∧
    (forwardSetHistoriesRecursive st a p).nextId = st.nextId ∧
    (forwardSetHistoriesRecursive st a p).lastEventModified = st.lastEventModified ∧
    (forwardSetHistoriesRecursive st a p).means = st.means := by
  induction p generalizing st a with
  | tip i =>
      unfold forwardSetHistoriesRecursive
      dsimp only
      split <;> simp [setNodeEvent, setAncestralNodeEvent, setBH]
  | node i l r ihl ihr =>
      unfold forwardSetHistoriesRecursive
      dsimp only
      split
      · obtain ⟨h1, h2, h3, h4, h5, h6, h7, h8, h9⟩ :=
          ihr (forwardSetHistoriesRecursive
            (setNodeEvent (setAncestralNodeEvent st i ((st.bh a).nodeEvent)) i
              ((st.bh a).nodeEvent)) i l) i
        obtain ⟨g1, g2, g3, g4, g5, g6, g7, g8, g9⟩ :=
          ihl (setNodeEvent (setAncestralNodeEvent st i ((st.bh a).nodeEvent)) i
              ((st.bh a).nodeEvent)) i
        simp_all [setNodeEvent, setAncestralNodeEvent, setBH]
      · simp [setAncestralNodeEvent, setBH]

/-- `forwardSetHistoriesRecursive` never changes any branch's event list. -/
theorem fshr_events (p : PTree) (st : MState) (a : Nat) (q : Nat) :
    ((forwardSetHistoriesRecursive st a p).bh q).events = (st.bh q).events := by
  induction p generalizing st a with
  | tip i =>
      unfold forwardSetHistoriesRecursive
      dsimp only
      split <;> simp [setNodeEvent_events, setAncestralNodeEvent_events]
  | node i l r ihl ihr =>
      unfold forwardSetHistoriesRecursive
      dsimp only
      split
      · rw [ihr, ihl]
        simp [setNodeEvent_events, setAncestralNodeEvent_events]
      · simp [setAncestralNodeEvent_events]

/-- `forwardSetHistoriesRecursive` changes branch data only inside the
subtree it is called on. -/
theorem fshr_bh_frame (p : PTree) (st : MState) (a : Nat) (q : Nat) (hq : q ∉ p.ids) :
    (forwardSetHistoriesRecursive st a p).bh q = st.bh q := by
  induction p generalizing st a with
  | tip i =>
      have hqi : q ≠ i := by simpa [PTree.ids] using hq
      unfold forwardSetHistoriesRecursive
      dsimp only
      split <;> simp [setNodeEvent, setAncestralNodeEvent, setBH_bh, setBH, upd, hqi]
  | node i l r ihl ihr =>
      have hqi : q ≠ i ∧ q ∉ l.ids ∧ q ∉ r.ids := by
        simp [PTree.ids] at hq
        tauto
      unfold forwardSetHistoriesRecursive
      dsimp only
      split
      · rw [ihr _ _ hqi.2.2, ihl _ _ hqi.2.1]
        simp [setNodeEvent, setAncestralNodeEvent, setBH, upd, hqi.1]
      · simp [setAncestralNodeEvent, setBH, upd, hqi.1]

/-- `forwardSetBranchHistories` touches only the `bh` component. -/
theorem fsbh_nonbh (env : ModelEnv) (st : MState) (x : Nat) :
    (forwardSetBranchHistories env st x).evNode = st.evNode ∧
    (forwardSetBranchHistories env st x).evMap = st.evMap ∧
    (forwardSetBranchHistories env st x).evPrevNode = st.evPrevNode ∧
    (forwardSetBranchHistories env st x).evPrevMap = st.evPrevMap ∧
    (forwardSetBranchHistories env st x).evParams = st.evParams ∧
    (forwardSetBranchHistories env st x).registry = st.registry ∧
    (forwardSetBranchHistories env st x).nextId = st.nextId ∧
    (forwardSetBranchHistories env st x).lastEventModified = st.lastEventModified ∧
    (forwardSetBranchHistories env st x).means = st.means := by
  unfold forwardSetBranchHistories
  dsimp only
  split
  · split
    · rename_i i l r heq
      have h1 := fshr_nonbh r (forwardSetHistoriesRecursive st i l) i
      have h2 := fshr_nonbh l st i
      simp_all
    · simp
  · split
    · split
      · rename_i i l r heq
        have h1 := fshr_nonbh r
          (forwardSetHistoriesRecursive (setNodeEvent st (st.evNode x) x) i l) i
        have h2 := fshr_nonbh l (setNodeEvent st (st.evNode x) x) i
        simp_all [setNodeEvent, setBH]
      · simp [setNodeEvent, setBH]
    · simp

/-- `forwardSetBranchHistories` never changes any branch's event list. -/
theorem fsbh_events (env : ModelEnv) (st : MState) (x : Nat) (q : Nat) :
    ((forwardSetBranchHistories env st x).bh q).events = ((st.bh q).events) := by
  unfold forwardSetBranchHistories
  dsimp only
  split
  · split
    · rw [fshr_events, fshr_events]
    · rfl
  · split
    · split
      · rw [fshr_events, fshr_events, setNodeEvent_events]
      · rw [setNodeEvent_events]
    · rfl

/-! ## Lemmas about ordered branch lists -/

/-- Every member of a branch list sorted by map time is at most the last
element. -/
theorem pairwise_le_getLast {m : Nat → ℚ} :
    ∀ (l : List Nat), l.Pairwise (fun a b => m a ≤ m b) →
      ∀ a ∈ l, ∀ L, l.getLast? = some L → m a ≤ m L := by
  intro l
  induction l with
  | nil => intro _ a ha; simp at ha
  | cons f rest ih =>
      intro hp a ha L hL
      rcases List.pairwise_cons.mp hp with ⟨hf, hrest⟩
      cases rest with
      | nil =>
          simp at hL ha
          subst hL; subst ha; exact le_refl _
      | cons g t =>
          rw [List.getLast?_cons_cons] at hL
          have hLmem : L ∈ g :: t := List.mem_of_getLast?_eq_some hL
          rcases List.mem_cons.mp ha with rfl | hmem
          · exact hf L hLmem
          · exact ih hrest a hmem L hL

/-- Under the sortedness maintained by `insertByMapTime`, the spec's "most
tipward event" of a branch is exactly the source's `getLastEvent`. -/
theorem mostTipward_eq_getLast {m : Nat → ℚ} :
    ∀ (l : List Nat), l.Pairwise (fun a b => m a ≤ m b) →
      mostTipward m l = l.getLast? := by
  intro l
  induction l with
  | nil => intro _; rfl
  | cons f rest ih =>
      intro hp
      rcases List.pairwise_cons.mp hp with ⟨hf, hrest⟩
      cases rest with
      | nil => rfl
      | cons g t =>
          have hih := ih hrest
          rw [List.getLast?_cons_cons]
          have hne : (g :: t).getLast? = some ((g :: t).getLast (by simp)) :=
            List.getLast?_eq_getLast _ (by simp)
          have hmem : (g :: t).getLast (by simp) ∈ g :: t := List.getLast_mem _
          have hle : m f ≤ m ((g :: t).getLast (by simp)) := hf _ hmem
          unfold mostTipward
          rw [hih, hne]
          dsimp only
          rw [if_neg (not_lt.mpr hle)]

/-! ## C5 and C10: chooseEventAtRandom -/

/-- The truncated scaled draw is a valid index when the draw lies in
`[0, 1)`. -/
theorem floorIndexLt (n : Nat) (hn : 0 < n) {u : ℚ} (h0 : 0 ≤ u) (h1 : u < 1) :
    Int.toNat ⌊u * (n : ℚ)⌋ < n := by
  have hn' : (0 : ℚ) < n := by exact_mod_cast hn
  have hmul : u * n < n := by nlinarith
  have hfl : ⌊u * (n : ℚ)⌋ < (n : ℤ) := Int.floor_lt.mpr (by push_cast; linarith)
  omega

/-- C5: `chooseEventAtRandom` fails fatally exactly when the registry is
empty; with `n ≥ 1` events and a draw `u` in `[0,1)` it returns the registry
element at index `floor(u * n)` in the registry's stable iteration order. -/
theorem C5_chooseEventAtRandom_spec (st : MState) (u : ℚ) (h0 : 0 ≤ u) (h1 : u < 1) :
    (chooseEventAtRandom st u = none ↔ st.registry.length = 0) ∧
    (st.registry.length ≠ 0 →
      ∃ hlt : Int.toNat ⌊u * (st.registry.length : ℚ)⌋ < st.registry.length,
        chooseEventAtRandom st u =
          some (st.registry.get ⟨Int.toNat ⌊u * (st.registry.length : ℚ)⌋, hlt⟩)) := by
  constructor
  · unfold chooseEventAtRandom
    dsimp only
    split
    · simp_all
    · rename_i hne
      have hlt := floorIndexLt st.registry.length (Nat.pos_of_ne_zero hne) h0 h1
      rw [List.get?_eq_get hlt]
      simp_all
  · intro hne
    have hlt := floorIndexLt st.registry.length (Nat.pos_of_ne_zero hne) h0 h1
    refine ⟨hlt, ?_⟩
    unfold chooseEventAtRandom
    dsimp only
    rw [if_neg hne, List.get?_eq_get hlt]

/-- C5 witness: on a two-event registry the draw 1/2 does not take the fatal
exit. -/
theorem C5_witness : chooseEventAtRandom cSt2 (1/2) ≠ none := by
  have h := (C5_chooseEventAtRandom_spec cSt2 (1/2) (by norm_num) (by norm_num)).1
  intro hc
  exact absurd (h.mp hc) (by decide)

/-- C10: with `n ≥ 1` registry events and a draw in `[0,1)`, the computed
index is at most `n - 1`, so the final dereference always yields a registry
element. -/
theorem C10_chooseEventAtRandom_index_safe (st : MState) (u : ℚ)
    (hn : 0 < st.registry.length) (h0 : 0 ≤ u) (h1 : u < 1) :
    Int.toNat ⌊u * (st.registry.length : ℚ)⌋ ≤ st.registry.length - 1 ∧
    (chooseEventAtRandom st u).isSome = true := by
  have hlt := floorIndexLt st.registry.length hn h0 h1
  refine ⟨by omega, ?_⟩
  unfold chooseEventAtRandom
  dsimp only
  rw [if_neg (by omega), List.get?_eq_get hlt]
  rfl

/-- C10 witness: the dereference succeeds on a two-event registry with draw
1/2. -/
theorem C10_witness : (chooseEventAtRandom cSt2 (1/2)).isSome = true :=
  (C10_chooseEventAtRandom_index_safe cSt2 (1/2) (by decide) (by norm_num) (by norm_num)).2

/-! ## C6: species-pair resolution of the initializer -/

/-- C6 counterexample: a record with `species1 = "NA"` and a real second
species is rejected fatally by the source, although the claim says a fatal
exit happens only when both names are `"NA"`. -/
theorem C6_cex :
    resolveEventNode "NA" "B" = ResolveOutcome.fatal ∧ ("B" : String) ≠ "NA" := by
  exact ⟨rfl, by decide⟩

/-- C6 amended: both species given resolve to their MRCA; a first species
with `species2 = "NA"` resolves by name; the initializer fails fatally
exactly when the first species is `"NA"` (whatever the second is). -/
theorem C6_resolveEventNode_spec (s1 s2 : String) :
    (s1 ≠ "NA" ∧ s2 ≠ "NA" → resolveEventNode s1 s2 = ResolveOutcome.mrca s1 s2) ∧
    (s1 ≠ "NA" ∧ s2 = "NA" → resolveEventNode s1 s2 = ResolveOutcome.byName s1) ∧
    (resolveEventNode s1 s2 = ResolveOutcome.fatal ↔ s1 = "NA") := by
  by_cases h1 : s1 = "NA" <;> by_cases h2 : s2 = "NA" <;>
    simp [resolveEventNode, h1, h2]

/-- C6 witness: a fully specified pair resolves to the MRCA branch. -/
theorem C6_witness : resolveEventNode "ta" "tb" = ResolveOutcome.mrca "ta" "tb" :=
  (C6_resolveEventNode_spec "ta" "tb").1 ⟨by decide, by decide⟩

/-! ## C8: eventMove with an empty registry -/

/-- C8: with an empty registry, `eventMove` (local or global) changes
nothing and consumes no random draws; the unconditional recomputation of the
derived means is the identity on a state whose means are consistent. -/
theorem C8_eventMove_empty_noop (env : ModelEnv) (st : MState) (isLocalMove : Bool) (r : RngS)
    (hreg : st.registry = []) (hmeans : st.means = env.computeMeans st.bh) :
    eventMove env st isLocalMove r = (st, r) := by
  unfold eventMove
  rw [if_neg (by simp [hreg])]
  rw [← hmeans]

/-- C8 witness: the freshly constructed model is left untouched by a local
move proposal. -/
theorem C8_witness :
    eventMove cEnv (initialModelState cEnv) true (constStream []) =
      (initialModelState cEnv, constStream []) :=
  C8_eventMove_empty_noop cEnv (initialModelState cEnv) true (constStream []) rfl rfl

/-! ## C3 and C4: the propagation engine against its specification -/

theorem findSub_rootId (t : PTree) : PTree.findSub t.rootId t = some t := by
  cases t <;> simp [PTree.findSub, PTree.rootId]

/-- C3: `forwardSetBranchHistories` behaves exactly as the specification
describes it, where "the most tipward event of the branch" is read off the
map positions: for a root event it recurses into both root children, for a
most tipward event it installs the event at its node and recurses into the
node's children when there are any, and otherwise it changes nothing.  The
hypotheses say that the root event is owned by the root node and that the
event's branch list is ordered by map position, both maintained by the
model's operations. -/
theorem C3_forwardSet_matches_spec (env : ModelEnv) (st : MState) (x : Nat)
    (hroot : st.evNode env.rootEvent = env.tree.rootId)
    (hsort : ((st.bh (st.evNode x)).events).Pairwise (fun a b => st.evMap a ≤ st.evMap b)) :
    forwardSetBranchHistories env st x = forwardSetBranchHistoriesSpec env st x := by
  unfold forwardSetBranchHistories forwardSetBranchHistoriesSpec
  by_cases hx : x = env.rootEvent
  · rw [if_pos hx, if_pos hx, hx, hroot, findSub_rootId]
    cases env.tree <;> rfl
  · rw [if_neg hx, if_neg hx]
    dsimp only
    rw [mostTipward_eq_getLast _ hsort]

/-- C3 witness: source and specification agree on a concrete two-event
state. -/
theorem C3_witness :
    forwardSetBranchHistories cEnv cSt2 102 = forwardSetBranchHistoriesSpec cEnv cSt2 102 :=
  C3_forwardSet_matches_spec cEnv cSt2 102 rfl (by decide)

/-- C4 counterexample: event 11 sits at map position 2 on branch 1, which
also carries event 10 at position 1, an event closer to the root than 11's
position; still `forwardSetBranchHistories(11)` changes vertex 1's
`nodeEvent` (from the stale 10 to 11), contradicting the claim that the
subtree of a node whose branch carries an event closer to the root than the
modified point keeps both caches unchanged. -/
theorem C4_cex :
    cFrameSt.evNode 11 = 1 ∧
    10 ∈ (cFrameSt.bh 1).events ∧
    cFrameSt.evMap 10 < cFrameSt.evMap 11 ∧
    ((forwardSetBranchHistories cEnv cFrameSt 11).bh 1).nodeEvent ≠
      (cFrameSt.bh 1).nodeEvent := by
  exact ⟨rfl, by decide, by decide, by decide⟩

/-- C4 amended: the harmless direction is tipward, not rootward: when the
owning branch of `x` carries an event farther from the root than `x`'s
position (so `x` is not the branch's last event), `forwardSetBranchHistories(x)`
changes nothing at all — in particular every node's `nodeEvent` and
`ancestralNodeEvent` are unchanged. -/
theorem C4_forwardSet_tipward_shield_noop (env : ModelEnv) (st : MState) (x y : Nat)
    (hx : x ≠ env.rootEvent)
    (hsort : ((st.bh (st.evNode x)).events).Pairwise (fun a b => st.evMap a ≤ st.evMap b))
    (hym : y ∈ (st.bh (st.evNode x)).events)
    (hlt : st.evMap x < st.evMap y) :
    forwardSetBranchHistories env st x = st := by
  have hxlast : ((st.bh (st.evNode x)).events).getLast? ≠ some x := by
    intro hL
    exact absurd (pairwise_le_getLast _ hsort y hym x hL) (not_le.mpr hlt)
  unfold forwardSetBranchHistories
  dsimp only
  rw [if_neg hx, if_neg hxlast]

/-- C4 witness: forward setting from event 101, shielded by the more tipward
event 102 on the same branch, is a no-op. -/
theorem C4_witness : forwardSetBranchHistories cEnv cSt2 101 = cSt2 :=
  C4_forwardSet_tipward_shield_noop cEnv cSt2 101 102 (by decide) (by decide)
    (by decide) (by decide)

/-! ## C7: the per-record initializer body -/

/-- C7: a record resolving to the root installs its parameters onto the root
event with no branch-history insertion, no registry insertion and no
propagation; a record resolving elsewhere creates the fresh event at map
position `mapStart(x) + (time(x) - eventTime)`, owned by `x`, inserts it
into `x`'s branch history, appends it to the registry, forward sets branch
histories from it and recomputes the derived means. -/
theorem C7_processEventRecord_spec (env : ModelEnv) (st : MState) (x : Nat)
    (eTime : ℚ) (params : Nat) :
    (x = env.tree.rootId →
      processEventRecord env st x eTime params =
        { st with evParams := upd st.evParams env.rootEvent params }) ∧
    (x ≠ env.tree.rootId →
      processEventRecord env st x eTime params =
        { insertNewEvent env st x (env.nodeMapStart x + (env.nodeTime x - eTime)) params with
          means := env.computeMeans
            (insertNewEvent env st x (env.nodeMapStart x + (env.nodeTime x - eTime)) params).bh } ∧
      (processEventRecord env st x eTime params).evMap st.nextId =
        env.nodeMapStart x + (env.nodeTime x - eTime) ∧
      (processEventRecord env st x eTime params).evNode st.nextId = x ∧
      (processEventRecord env st x eTime params).registry = st.registry ++ [st.nextId] ∧
      ((processEventRecord env st x eTime params).bh x).events =
        insertByMapTime (upd st.evMap st.nextId (env.nodeMapStart x + (env.nodeTime x - eTime)))
          st.nextId ((st.bh x).events)) := by
  constructor
  · intro h
    simp [processEventRecord, h]
  · intro h
    have hmain : processEventRecord env st x eTime params =
        { insertNewEvent env st x (env.nodeMapStart x + (env.nodeTime x - eTime)) params with
          means := env.computeMeans
            (insertNewEvent env st x (env.nodeMapStart x + (env.nodeTime x - eTime)) params).bh } := by
      simp [processEventRecord, h]
    refine ⟨hmain, ?_, ?_, ?_, ?_⟩ <;> rw [hmain]
    · show (insertNewEvent env st x _ params).evMap st.nextId = _
      unfold insertNewEvent
      rw [(fsbh_nonbh _ _ _).2.1]
      simp [setBH, upd_same]
    · show (insertNewEvent env st x _ params).evNode st.nextId = x
      unfold insertNewEvent
      rw [(fsbh_nonbh _ _ _).1]
      simp [setBH, upd_same]
    · show (insertNewEvent env st x _ params).registry = _
      unfold insertNewEvent
      rw [(fsbh_nonbh _ _ _).2.2.2.2.2.1]
      simp [setBH]
    · show ((insertNewEvent env st x _ params).bh x).events = _
      unfold insertNewEvent
      rw [fsbh_events]
      simp [setBH_bh]

/-- C7 witness: a record resolving to the root of the test tree only
installs its parameter token on the root event. -/
theorem C7_witness :
    processEventRecord cEnv (initialModelState cEnv) 0 1 7 =
      { initialModelState cEnv with
        evParams := upd (initialModelState cEnv).evParams cEnv.rootEvent 7 } :=
  (C7_processEventRecord_spec cEnv (initialModelState cEnv) 0 1 7).1 rfl

/-! ## C9: the local move proposal -/

/-- After relocation, an event's map time is whatever the repositioning step
installed: the later re-insertion and the two forward-propagations do not
touch the event attributes. -/
theorem relocate_evMap (env : ModelEnv) (st : MState) (e : Nat) (repos : MState → MState) :
    (relocateEvent env st e repos).evMap = (repos (popEvent st e)).evMap := by
  unfold relocateEvent
  rw [(fsbh_nonbh _ _ _).2.1, (fsbh_nonbh _ _ _).2.1]
  simp [setBH]

/-- C9: a local move proposes `newPos = oldPos + U(0, scale) - scale/2`,
where `U(0, scale)` is the single uniform draw consumed after the event
choice and `scale` is the configured jitter factor times the tree's maximum
root-to-tip length, fixed at model construction. -/
theorem C9_eventMove_local_step (env : ModelEnv) (st : MState) (r : RngS) (e : Nat)
    (jitterFactor maxRootToTip : ℚ)
    (hreg : 0 < st.registry.length)
    (hchoose : chooseEventAtRandom st (r.1 r.2) = some e)
    (hscale : env.scale = modelScale jitterFactor maxRootToTip) :
    ((eventMove env st true r).1).evMap e =
      st.evMap e + modelScale jitterFactor maxRootToTip * r.1 (r.2 + 1)
        - modelScale jitterFactor maxRootToTip / 2 := by
  unfold eventMove
  rw [if_pos hreg]
  dsimp only [rngDraw]
  rw [hchoose]
  dsimp only [rngDrawRange, rngDraw]
  rw [relocate_evMap]
  unfold eventSetPosition
  dsimp only
  rw [upd_same]
  rw [hscale]
  ring_nf
  simp

/-- C9 witness: on the two-event state, with draws 0 (choose event 101) and
0 (jitter step), the proposed position follows the claimed formula with the
scale 4 = 2 * 2. -/
theorem C9_witness :
    ((eventMove cEnv cSt2 true (constStream [0, 0])).1).evMap 101 =
      cSt2.evMap 101 + modelScale 2 2 * (constStream [0, 0]).1 ((constStream [0, 0]).2 + 1)
        - modelScale 2 2 / 2 :=
  C9_eventMove_local_step cEnv cSt2 (constStream [0, 0]) 101 2 2 (by decide)
    (by norm_num [chooseEventAtRandom, constStream]; exact ⟨by decide, by decide⟩)
    (by norm_num [cEnv, modelScale])

/-! ## Tree navigation lemmas -/

theorem rootId_mem_ids (t : PTree) : t.rootId ∈ t.ids := by
  cases t <;> simp [PTree.ids, PTree.rootId]

theorem mem_of_findSub {w : Nat} : ∀ {p : PTree} {sub : PTree},
    PTree.findSub w p = some sub → w ∈ p.ids := by
  intro p
  induction p with
  | tip i =>
      intro sub h
      simp only [PTree.findSub] at h
      split at h
      · simp_all [PTree.ids]
      · exact absurd h (by simp)
  | node i l r ihl ihr =>
      intro sub h
      simp only [PTree.findSub] at h
      split at h
      · simp_all [PTree.ids]
      · simp only [PTree.ids, List.mem_cons, List.mem_append]
        cases hl : PTree.findSub w l with
        | some t => exact Or.inr (Or.inl (ihl hl))
        | none => rw [hl] at h; exact Or.inr (Or.inr (ihr h))

theorem rootId_of_findSub {w : Nat} : ∀ {p : PTree} {sub : PTree},
    PTree.findSub w p = some sub → sub.rootId = w := by
  intro p
  induction p with
  | tip i =>
      intro sub h
      simp only [PTree.findSub] at h
      split at h
      · rename_i hi; cases h; simp [PTree.rootId, hi]
      · exact absurd h (by simp)
  | node i l r ihl ihr =>
      intro sub h
      simp only [PTree.findSub] at h
      split at h
      · rename_i hi; cases h; simp [PTree.rootId, hi]
      · cases hl : PTree.findSub w l with
        | some t => rw [hl] at h; cases h; exact ihl hl
        | none => rw [hl] at h; exact ihr h

theorem findSub_none_of_not_mem {w : Nat} {p : PTree} (h : w ∉ p.ids) :
    PTree.findSub w p = none := by
  cases hf : PTree.findSub w p with
  | none => rfl
  | some sub => exact absurd (mem_of_findSub hf) h

theorem findSub_isSome_of_mem {w : Nat} : ∀ {p : PTree}, w ∈ p.ids →
    ∃ sub, PTree.findSub w p = some sub := by
  intro p
  induction p with
  | tip i =>
      intro h
      simp only [PTree.ids, List.mem_singleton] at h
      exact ⟨PTree.tip i, by simp [PTree.findSub, h]⟩
  | node i l r ihl ihr =>
      intro h
      by_cases hi : i = w
      · exact ⟨PTree.node i l r, by simp [PTree.findSub, hi]⟩
      · simp only [PTree.ids, List.mem_cons, List.mem_append] at h
        rcases h with h | h | h
        · exact absurd h.symm hi
        · obtain ⟨sub, hsub⟩ := ihl h
          exact ⟨sub, by simp [PTree.findSub, hi, hsub]⟩
        · cases hl : PTree.findSub w l with
          | some t => exact ⟨t, by simp [PTree.findSub, hi, hl]⟩
          | none =>
              obtain ⟨sub, hsub⟩ := ihr h
              exact ⟨sub, by simp [PTree.findSub, hi, hl, hsub]⟩

theorem ids_subset_of_findSub {w : Nat} : ∀ {p : PTree} {sub : PTree},
    PTree.findSub w p = some sub → ∀ q ∈ sub.ids, q ∈ p.ids := by
  intro p
  induction p with
  | tip i =>
      intro sub h q hq
      simp only [PTree.findSub] at h
      split at h
      · cases h; exact hq
      · exact absurd h (by simp)
  | node i l r ihl ihr =>
      intro sub h q hq
      simp only [PTree.findSub] at h
      split at h
      · cases h; exact hq
      · simp only [PTree.ids, List.mem_cons, List.mem_append]
        cases hl : PTree.findSub w l with
        | some t =>
            rw [hl] at h; cases h
            exact Or.inr (Or.inl (ihl hl q hq))
        | none => rw [hl] at h; exact Or.inr (Or.inr (ihr h q hq))

/-- The pieces of distinctness at an inner vertex. -/
theorem nodup_node {i : Nat} {l r : PTree} (h : (PTree.node i l r).ids.Nodup) :
    i ∉ l.ids ∧ i ∉ r.ids ∧ l.ids.Nodup ∧ r.ids.Nodup ∧ ∀ q ∈ l.ids, q ∉ r.ids := by
  simp only [PTree.ids, List.nodup_cons, List.mem_append, List.nodup_append] at h
  refine ⟨fun hm => h.1 (Or.inl hm), fun hm => h.1 (Or.inr hm), h.2.1, h.2.2.1, ?_⟩
  intro q hq
  exact h.2.2.2 hq

theorem nodup_of_findSub {w : Nat} : ∀ {p : PTree} {sub : PTree},
    p.ids.Nodup → PTree.findSub w p = some sub → sub.ids.Nodup := by
  intro p
  induction p with
  | tip i =>
      intro sub hnd h
      simp only [PTree.findSub] at h
      split at h
      · cases h; exact hnd
      · exact absurd h (by simp)
  | node i l r ihl ihr =>
      intro sub hnd h
      obtain ⟨_, _, hndl, hndr, _⟩ := nodup_node hnd
      simp only [PTree.findSub] at h
      split at h
      · cases h; exact hnd
      · cases hl : PTree.findSub w l with
        | some t => rw [hl] at h; cases h; exact ihl hndl hl
        | none => rw [hl] at h; exact ihr hndr h

theorem findSub_node_left {w i : Nat} {l r : PTree} (hi : i ≠ w) (hw : w ∈ l.ids) :
    PTree.findSub w (PTree.node i l r) = PTree.findSub w l := by
  obtain ⟨sub, hsub⟩ := findSub_isSome_of_mem hw
  simp [PTree.findSub, fun h => hi h, hsub]

theorem findSub_node_right {w i : Nat} {l r : PTree} (hi : i ≠ w) (hw : w ∉ l.ids) :
    PTree.findSub w (PTree.node i l r) = PTree.findSub w r := by
  simp [PTree.findSub, fun h => hi h, findSub_none_of_not_mem hw]

/-! ## Structural lemmas about the Good predicate -/

/-- `Good` only reads the branch data of the subtree it talks about. -/
theorem good_congr : ∀ (p : PTree) (bhf bhf2 : Nat → BranchHist) (mo : Bool) (A : Nat)
    (D : List Nat), (∀ j ∈ p.ids, bhf2 j = bhf j) → Good bhf mo A D p → Good bhf2 mo A D p := by
  intro p
  induction p with
  | tip i =>
      intro bhf bhf2 mo A D h hG
      have hi : bhf2 i = bhf i := h i (by simp [PTree.ids])
      simp only [Good] at hG ⊢
      rw [hi]
      exact hG
  | node i l r ihl ihr =>
      intro bhf bhf2 mo A D h hG
      have hi : bhf2 i = bhf i := h i (by simp [PTree.ids])
      have hl : ∀ j ∈ l.ids, bhf2 j = bhf j := fun j hj =>
        h j (by simp [PTree.ids, List.mem_append]; tauto)
      have hr : ∀ j ∈ r.ids, bhf2 j = bhf j := fun j hj =>
        h j (by simp [PTree.ids, List.mem_append]; tauto)
      simp only [Good] at hG ⊢
      rw [hi]
      obtain ⟨h1, h2⟩ := hG
      refine ⟨h1, ?_⟩
      by_cases hC : i ∈ D ∧ (bhf i).events ≠ []
      · rw [if_pos hC] at h2 ⊢
        exact ⟨ihl _ _ _ _ _ hl h2.1, ihr _ _ _ _ _ hr h2.2⟩
      · rw [if_neg hC] at h2 ⊢
        cases hgl : (bhf i).events.getLast? with
        | none =>
            simp only [hgl] at h2 ⊢
            exact ⟨h2.1, ihl _ _ _ _ _ hl h2.2.1, ihr _ _ _ _ _ hr h2.2.2⟩
        | some L =>
            simp only [hgl] at h2 ⊢
            exact ⟨h2.1, ihl _ _ _ _ _ hl h2.2.1, ihr _ _ _ _ _ hr h2.2.2⟩

/-- Any mode of `Good` implies the settled (non-strict) mode, for any
boundary value. -/
theorem good_weaken : ∀ (p : PTree) (bhf : Nat → BranchHist) (mo : Bool) (A A2 : Nat)
    (D : List Nat), Good bhf mo A D p → Good bhf false A2 D p := by
  intro p
  induction p with
  | tip i =>
      intro bhf mo A A2 D hG
      simp only [Good] at hG ⊢
      obtain ⟨_, h2⟩ := hG
      refine ⟨by simp, ?_⟩
      by_cases hC : i ∈ D ∧ (bhf i).events ≠ []
      · rw [if_pos hC]
        trivial
      · rw [if_neg hC] at h2 ⊢
        cases hgl : (bhf i).events.getLast? with
        | none => simp only [hgl]; simp
        | some L => simp only [hgl] at h2 ⊢; exact h2
  | node i l r ihl ihr =>
      intro bhf mo A A2 D hG
      simp only [Good] at hG ⊢
      obtain ⟨_, h2⟩ := hG
      refine ⟨by simp, ?_⟩
      by_cases hC : i ∈ D ∧ (bhf i).events ≠ []
      · rw [if_pos hC] at h2 ⊢
        exact h2
      · rw [if_neg hC] at h2 ⊢
        cases hgl : (bhf i).events.getLast? with
        | none =>
            simp only [hgl] at h2 ⊢
            exact ⟨by simp, ihl _ _ _ _ _ h2.2.1, ihr _ _ _ _ _ h2.2.2⟩
        | some L =>
            simp only [hgl] at h2 ⊢
            exact h2

/-- Enlarging the dirt list preserves `Good`. -/
theorem good_mono_dirt : ∀ (p : PTree) (bhf : Nat → BranchHist) (mo : Bool) (A : Nat)
    (D D2 : List Nat), (∀ z ∈ D, z ∈ D2) → Good bhf mo A D p → Good bhf mo A D2 p := by
  intro p
  induction p with
  | tip i =>
      intro bhf mo A D D2 hsub hG
      simp only [Good] at hG ⊢
      obtain ⟨h1, h2⟩ := hG
      refine ⟨h1, ?_⟩
      by_cases hC2 : i ∈ D2 ∧ (bhf i).events ≠ []
      · rw [if_pos hC2]
        trivial
      · rw [if_neg hC2]
        have hC : ¬(i ∈ D ∧ (bhf i).events ≠ []) := fun hc => hC2 ⟨hsub i hc.1, hc.2⟩
        rw [if_neg hC] at h2
        exact h2
  | node i l r ihl ihr =>
      intro bhf mo A D D2 hsub hG
      simp only [Good] at hG ⊢
      obtain ⟨h1, h2⟩ := hG
      refine ⟨h1, ?_⟩
      by_cases hC : i ∈ D ∧ (bhf i).events ≠ []
      · rw [if_pos hC] at h2
        rw [if_pos ⟨hsub i hC.1, hC.2⟩]
        exact ⟨ihl _ _ _ _ _ hsub h2.1, ihr _ _ _ _ _ hsub h2.2⟩
      · rw [if_neg hC] at h2
        by_cases hC2 : i ∈ D2 ∧ (bhf i).events ≠ []
        · rw [if_pos hC2]
          cases hgl : (bhf i).events.getLast? with
          | none =>
              exact absurd (List.getLast?_eq_none_iff.mp hgl) hC2.2
          | some L =>
              simp only [hgl] at h2
              exact ⟨good_weaken _ _ _ _ _ _ (ihl _ _ _ _ _ hsub h2.2.1),
                good_weaken _ _ _ _ _ _ (ihr _ _ _ _ _ hsub h2.2.2)⟩
        · rw [if_neg hC2]
          cases hgl : (bhf i).events.getLast? with
          | none =>
              simp only [hgl] at h2 ⊢
              exact ⟨h2.1, ihl _ _ _ _ _ hsub h2.2.1, ihr _ _ _ _ _ hsub h2.2.2⟩
          | some L =>
              simp only [hgl] at h2 ⊢
              exact ⟨h2.1, ihl _ _ _ _ _ hsub h2.2.1, ihr _ _ _ _ _ hsub h2.2.2⟩

/-- `Good` only sees the dirt list through the effective exemptions it
induces on the subtree's vertices. -/
theorem good_dirt_congr : ∀ (p : PTree) (bhf : Nat → BranchHist) (mo : Bool) (A : Nat)
    (D D2 : List Nat),
    (∀ z ∈ p.ids, (z ∈ D ∧ (bhf z).events ≠ []) ↔ (z ∈ D2 ∧ (bhf z).events ≠ [])) →
    Good bhf mo A D p → Good bhf mo A D2 p := by
  intro p
  induction p with
  | tip i =>
      intro bhf mo A D D2 hiff hG
      simp only [Good] at hG ⊢
      obtain ⟨h1, h2⟩ := hG
      refine ⟨h1, ?_⟩
      have hi := hiff i (by simp [PTree.ids])
      by_cases hC : i ∈ D ∧ (bhf i).events ≠ []
      · rw [if_pos hC] at h2
        rw [if_pos (hi.mp hC)]
        trivial
      · rw [if_neg hC] at h2
        rw [if_neg (fun hc => hC (hi.mpr hc))]
        exact h2
  | node i l r ihl ihr =>
      intro bhf mo A D D2 hiff hG
      have hil : ∀ z ∈ l.ids, (z ∈ D ∧ (bhf z).events ≠ []) ↔ (z ∈ D2 ∧ (bhf z).events ≠ []) :=
        fun z hz => hiff z (by simp [PTree.ids, List.mem_append]; tauto)
      have hir : ∀ z ∈ r.ids, (z ∈ D ∧ (bhf z).events ≠ []) ↔ (z ∈ D2 ∧ (bhf z).events ≠ []) :=
        fun z hz => hiff z (by simp [PTree.ids, List.mem_append]; tauto)
      simp only [Good] at hG ⊢
      obtain ⟨h1, h2⟩ := hG
      refine ⟨h1, ?_⟩
      have hi := hiff i (by simp [PTree.ids])
      by_cases hC : i ∈ D ∧ (bhf i).events ≠ []
      · rw [if_pos hC] at h2
        rw [if_pos (hi.mp hC)]
        exact ⟨ihl _ _ _ _ _ hil h2.1, ihr _ _ _ _ _ hir h2.2⟩
      · rw [if_neg hC] at h2
        rw [if_neg (fun hc => hC (hi.mpr hc))]
        cases hgl : (bhf i).events.getLast? with
        | none =>
            simp only [hgl] at h2 ⊢
            exact ⟨h2.1, ihl _ _ _ _ _ hil h2.2.1, ihr _ _ _ _ _ hir h2.2.2⟩
        | some L =>
            simp only [hgl] at h2 ⊢
            exact ⟨h2.1, ihl _ _ _ _ _ hil h2.2.1, ihr _ _ _ _ _ hir h2.2.2⟩

theorem setAnc_bh_same (st : MState) (i : Nat) (e : Nat) :
    (setAncestralNodeEvent st i e).bh i = { st.bh i with ancestralNodeEvent := e } := by
  simp [setAncestralNodeEvent, setBH, upd]

theorem setAnc_bh_other (st : MState) (i j : Nat) (e : Nat) (h : j ≠ i) :
    (setAncestralNodeEvent st i e).bh j = st.bh j := by
  simp [setAncestralNodeEvent, setBH, upd, h]

theorem setNe_bh_same (st : MState) (i : Nat) (e : Nat) :
    (setNodeEvent st i e).bh i = { st.bh i with nodeEvent := e } := by
  simp [setNodeEvent, setBH, upd]

theorem setNe_bh_other (st : MState) (i j : Nat) (e : Nat) (h : j ≠ i) :
    (setNodeEvent st i e).bh j = st.bh j := by
  simp [setNodeEvent, setBH, upd, h]

/-- The heart of the propagation proof: running
`forwardSetHistoriesRecursive` over a settled subtree (dirt allowed)
establishes the strict invariant there, relative to the parent's current
`nodeEvent`.  Dirty vertices keep their exemption: only their
`ancestralNodeEvent` is refreshed. -/
theorem good_fshr : ∀ (p : PTree) (st : MState) (a : Nat) (D : List Nat),
    Good st.bh false 0 D p → p.ids.Nodup →
    Good (forwardSetHistoriesRecursive st a p).bh true ((st.bh a).nodeEvent) D p := by
  intro p
  induction p with
  | tip i =>
      intro st a D hG _
      simp only [Good] at hG
      obtain ⟨_, h2⟩ := hG
      unfold forwardSetHistoriesRecursive
      dsimp only
      rw [setAncestralNodeEvent_events]
      by_cases hev : (st.bh i).events = []
      · rw [if_pos hev]
        simp only [Good]
        constructor
        · intro _
          rw [setNe_bh_same, setAnc_bh_same]
        · rw [if_neg (by rw [setNe_bh_same, setAnc_bh_same]; simp [hev])]
          rw [setNe_bh_same, setAnc_bh_same]
          simp [hev]
      · rw [if_neg hev]
        simp only [Good]
        constructor
        · intro _
          rw [setAnc_bh_same]
        · rw [setAnc_bh_same]
          by_cases hC : i ∈ D ∧ (st.bh i).events ≠ []
          · rw [if_pos (by simpa using hC)]
            trivial
          · rw [if_neg (by simpa using hC)]
            rw [if_neg hC] at h2
            cases hgl : (st.bh i).events.getLast? with
            | none => exact absurd (List.getLast?_eq_none_iff.mp hgl) hev
            | some L => simp only [hgl] at h2 ⊢; simpa using h2
  | node i l r ihl ihr =>
      intro st a D hG hnd
      obtain ⟨hil, hir, hndl, hndr, hdisj⟩ := nodup_node hnd
      simp only [Good] at hG
      obtain ⟨_, h2⟩ := hG
      unfold forwardSetHistoriesRecursive
      dsimp only
      rw [setAncestralNodeEvent_events]
      by_cases hev : (st.bh i).events = []
      · -- the empty-branch spine: inherit and descend into both children
        rw [if_pos hev]
        have hC : ¬(i ∈ D ∧ (st.bh i).events ≠ []) := by simp [hev]
        rw [if_neg hC] at h2
        rw [List.getLast?_eq_none_iff.mpr hev] at h2
        obtain ⟨_, hgl, hgr⟩ := h2
        set A := (st.bh a).nodeEvent with hA
        set st2 := setNodeEvent (setAncestralNodeEvent st i A) i A with hst2
        have hst2_same : st2.bh i = { st.bh i with nodeEvent := A, ancestralNodeEvent := A } := by
          rw [hst2, setNe_bh_same, setAnc_bh_same]
        have hst2_other : ∀ j, j ≠ i → st2.bh j = st.bh j := by
          intro j hj
          rw [hst2, setNe_bh_other _ _ _ _ hj, setAnc_bh_other _ _ _ _ hj]
        -- left child
        have hgl2 : Good st2.bh false 0 D l :=
          good_congr l st.bh st2.bh false 0 D
            (fun j hj => hst2_other j (fun h => hil (h ▸ hj))) hgl
        have hL := ihl st2 i D hgl2 hndl
        set stA := forwardSetHistoriesRecursive st2 i l with hstA
        have hAi : (st2.bh i).nodeEvent = A := by rw [hst2_same]
        rw [hAi] at hL
        -- right child
        have hfrA : ∀ j, j ∉ l.ids → stA.bh j = st2.bh j := fun j hj =>
          fshr_bh_frame l st2 i j hj
        have hgr2 : Good stA.bh false 0 D r :=
          good_congr r st.bh stA.bh false 0 D
            (fun j hj => by
              rw [hfrA j (fun h => hdisj j h hj), hst2_other j (fun h => hir (h ▸ hj))]) hgr
        have hR := ihr stA i D hgr2 hndr
        set stB := forwardSetHistoriesRecursive stA i r with hstB
        have hAi2 : (stA.bh i).nodeEvent = A := by rw [hfrA i hil, hst2_same]
        rw [hAi2] at hR
        have hfrB : ∀ j, j ∉ r.ids → stB.bh j = stA.bh j := fun j hj =>
          fshr_bh_frame r stA i j hj
        have hLB : Good stB.bh true A D l :=
          good_congr l stA.bh stB.bh true A D
            (fun j hj => hfrB j (fun h => hdisj j hj h)) hL
        have hBi : stB.bh i = { st.bh i with nodeEvent := A, ancestralNodeEvent := A } := by
          rw [hfrB i hir, hfrA i hil, hst2_same]
        simp only [Good]
        constructor
        · intro _
          rw [hBi]
        · rw [if_neg (by rw [hBi]; simp [hev])]
          rw [hBi]
          simp only [hev, List.getLast?_nil]
          exact ⟨by simp, hLB, hR⟩
      · -- a non-empty branch stops the recursion
        rw [if_neg hev]
        set A := (st.bh a).nodeEvent with hA
        have hsame : (setAncestralNodeEvent st i A).bh i =
            { st.bh i with ancestralNodeEvent := A } := setAnc_bh_same st i A
        have hother : ∀ j, j ≠ i → (setAncestralNodeEvent st i A).bh j = st.bh j :=
          fun j hj => setAnc_bh_other st i j A hj
        simp only [Good]
        constructor
        · intro _
          rw [hsame]
        · by_cases hC : i ∈ D ∧ (st.bh i).events ≠ []
          · rw [if_pos (by rw [hsame]; simpa using hC)]
            rw [if_pos hC] at h2
            exact ⟨good_congr l st.bh _ false 0 D
                (fun j hj => hother j (fun h => hil (h ▸ hj))) h2.1,
              good_congr r st.bh _ false 0 D
                (fun j hj => hother j (fun h => hir (h ▸ hj))) h2.2⟩
          · rw [if_neg (by rw [hsame]; simpa using hC)]
            rw [if_neg hC] at h2
            cases hgl : (st.bh i).events.getLast? with
            | none => exact absurd (List.getLast?_eq_none_iff.mp hgl) hev
            | some L =>
                simp only [hgl] at h2
                rw [hsame]
                simp only [hgl]
                exact ⟨h2.1, good_congr l st.bh _ true L D
                    (fun j hj => hother j (fun h => hil (h ▸ hj))) h2.2.1,
                  good_congr r st.bh _ true L D
                    (fun j hj => hother j (fun h => hir (h ▸ hj))) h2.2.2⟩

/-! ## The repair step of forwardSetBranchHistories -/

theorem mem_dremove {z w : Nat} {D : List Nat} : z ∈ dremove D w ↔ z ∈ D ∧ z ≠ w := by
  simp [dremove, List.mem_filter, bne_iff_ne]

theorem repairApply_events (st : MState) (w x : Nat) (p : PTree) (q : Nat) :
    ((repairApply st w x p).bh q).events = (st.bh q).events := by
  unfold repairApply
  cases hf : PTree.findSub w p with
  | none => rfl
  | some sub =>
      cases sub with
      | tip j => rw [setNodeEvent_events]
      | node i l r => rw [fshr_events, fshr_events, setNodeEvent_events]

theorem repairApply_bh_outside (st : MState) (w x : Nat) (p : PTree) {sub : PTree}
    (hf : PTree.findSub w p = some sub) (q : Nat) (hq : q ∉ sub.ids) :
    (repairApply st w x p).bh q = st.bh q := by
  have hroot := rootId_of_findSub hf
  have hqw : q ≠ w := fun h => hq (h ▸ hroot ▸ rootId_mem_ids sub)
  unfold repairApply
  rw [hf]
  cases sub with
  | tip j => exact setNe_bh_other st w q x hqw
  | node i l r =>
      have hql : q ∉ l.ids := fun h => hq (by simp [PTree.ids, List.mem_append]; tauto)
      have hqr : q ∉ r.ids := fun h => hq (by simp [PTree.ids, List.mem_append]; tauto)
      rw [fshr_bh_frame r _ i q hqr, fshr_bh_frame l _ i q hql,
        setNe_bh_other st w q x hqw]

theorem repairApply_dispatch_left (st : MState) (w x i : Nat) (l r : PTree)
    (hi : i ≠ w) (hw : w ∈ l.ids) :
    repairApply st w x (PTree.node i l r) = repairApply st w x l := by
  unfold repairApply
  rw [findSub_node_left hi hw]

theorem repairApply_dispatch_right (st : MState) (w x i : Nat) (l r : PTree)
    (hi : i ≠ w) (hw : w ∉ l.ids) :
    repairApply st w x (PTree.node i l r) = repairApply st w x r := by
  unfold repairApply
  rw [findSub_node_right hi hw]

/-- Repairing at a vertex `w` whose branch's last event is `x` restores the
invariant below `w` and discharges `w`'s dirt. -/
theorem good_repairApply : ∀ (p : PTree) (st : MState) (mo : Bool) (A x w : Nat)
    (D : List Nat), Good st.bh mo A D p → w ∈ p.ids → p.ids.Nodup →
    (st.bh w).events.getLast? = some x →
    Good (repairApply st w x p).bh mo A (dremove D w) p := by
  intro p
  induction p with
  | tip i =>
      intro st mo A x w D hG hw _ hx
      have hiw : i = w := by
        have := hw
        simp [PTree.ids] at this
        exact this.symm
      subst hiw
      obtain ⟨h1, _⟩ := hG
      have happ : repairApply st i x (PTree.tip i) = setNodeEvent st i x := by
        unfold repairApply
        simp [PTree.findSub]
      rw [happ]
      simp only [Good]
      constructor
      · intro hmo
        rw [setNe_bh_same]
        exact h1 hmo
      · rw [if_neg (fun hc => (mem_dremove.mp hc.1).2 rfl)]
        rw [setNe_bh_same]
        simp only [hx]
  | node i l r ihl ihr =>
      intro st mo A x w D hG hw hnd hx
      obtain ⟨hil, hir, hndl, hndr, hdisj⟩ := nodup_node hnd
      simp only [Good] at hG
      obtain ⟨h1, h2⟩ := hG
      by_cases hiw : i = w
      · -- repairing at this very vertex
        subst hiw
        have happ : repairApply st i x (PTree.node i l r) =
            forwardSetHistoriesRecursive
              (forwardSetHistoriesRecursive (setNodeEvent st i x) i l) i r := by
          unfold repairApply
          simp [PTree.findSub]
        rw [happ]
        have hev : (st.bh i).events ≠ [] := by
          intro h
          rw [List.getLast?_eq_none_iff.mpr h] at hx
          cases hx
        -- the children are settled whichever branch the hypothesis is in
        have hch : Good st.bh false 0 D l ∧ Good st.bh false 0 D r := by
          by_cases hC : i ∈ D ∧ (st.bh i).events ≠ []
          · rw [if_pos hC] at h2
            exact h2
          · rw [if_neg hC] at h2
            rw [hx] at h2
            exact ⟨good_weaken _ _ _ _ _ _ h2.2.1, good_weaken _ _ _ _ _ _ h2.2.2⟩
        set st1 := setNodeEvent st i x with hst1
        have hst1_same : st1.bh i = { st.bh i with nodeEvent := x } := setNe_bh_same st i x
        have hst1_other : ∀ j, j ≠ i → st1.bh j = st.bh j :=
          fun j hj => setNe_bh_other st i j x hj
        have hchl1 : Good st1.bh false 0 D l :=
          good_congr l st.bh st1.bh false 0 D
            (fun j hj => hst1_other j (fun h => hil (h ▸ hj))) hch.1
        have hL := good_fshr l st1 i D hchl1 hndl
        set stA := forwardSetHistoriesRecursive st1 i l with hstA
        rw [show (st1.bh i).nodeEvent = x by rw [hst1_same]] at hL
        have hfrA : ∀ j, j ∉ l.ids → stA.bh j = st1.bh j := fun j hj =>
          fshr_bh_frame l st1 i j hj
        have hchr1 : Good stA.bh false 0 D r :=
          good_congr r st.bh stA.bh false 0 D
            (fun j hj => by
              rw [hfrA j (fun h => hdisj j h hj), hst1_other j (fun h => hir (h ▸ hj))]) hch.2
        have hR := good_fshr r stA i D hchr1 hndr
        set stB := forwardSetHistoriesRecursive stA i r with hstB
        rw [show (stA.bh i).nodeEvent = x by rw [hfrA i hil, hst1_same]] at hR
        have hfrB : ∀ j, j ∉ r.ids → stB.bh j = stA.bh j := fun j hj =>
          fshr_bh_frame r stA i j hj
        have hLB : Good stB.bh true x D l :=
          good_congr l stA.bh stB.bh true x D
            (fun j hj => hfrB j (fun h => hdisj j hj h)) hL
        have hBi : stB.bh i = { st.bh i with nodeEvent := x } := by
          rw [hfrB i hir, hfrA i hil, hst1_same]
        have hdl : ∀ z ∈ l.ids, (z ∈ D ∧ (stB.bh z).events ≠ []) ↔
            (z ∈ dremove D i ∧ (stB.bh z).events ≠ []) := by
          intro z hz
          have : z ≠ i := fun h => hil (h ▸ hz)
          simp [mem_dremove, this]
        have hdr : ∀ z ∈ r.ids, (z ∈ D ∧ (stB.bh z).events ≠ []) ↔
            (z ∈ dremove D i ∧ (stB.bh z).events ≠ []) := by
          intro z hz
          have : z ≠ i := fun h => hir (h ▸ hz)
          simp [mem_dremove, this]
        simp only [Good]
        constructor
        · intro hmo
          rw [hBi]
          exact h1 hmo
        · rw [if_neg (fun hc => (mem_dremove.mp hc.1).2 rfl)]
          rw [hBi]
          simp only []
          rw [show ({ st.bh i with nodeEvent := x } : BranchHist).events.getLast? = some x
            from hx]
          exact ⟨rfl, good_dirt_congr l stB.bh true x D (dremove D i) hdl hLB,
            good_dirt_congr r stB.bh true x D (dremove D i) hdr hR⟩
      · -- the repair happens inside one of the child subtrees
        have hwlr : w ∈ l.ids ∨ w ∈ r.ids := by
          simp only [PTree.ids, List.mem_cons, List.mem_append] at hw
          rcases hw with h | h | h
          · exact absurd h.symm hiw
          · exact Or.inl h
          · exact Or.inr h
        -- facts shared by both sides
        rcases hwlr with hwl | hwr
        · -- left side
          rw [repairApply_dispatch_left st w x i l r hiw hwl]
          obtain ⟨sub, hsub⟩ := findSub_isSome_of_mem hwl
          have hsubids : ∀ q ∈ sub.ids, q ∈ l.ids := ids_subset_of_findSub hsub
          have hfr : ∀ q, q ∉ sub.ids → (repairApply st w x l).bh q = st.bh q :=
            fun q hq => repairApply_bh_outside st w x l hsub q hq
          have hfri : (repairApply st w x l).bh i = st.bh i :=
            hfr i (fun h => hil (hsubids i h))
          have hRr : ∀ (mo2 : Bool) (A2 : Nat), Good st.bh mo2 A2 D r →
              Good (repairApply st w x l).bh mo2 A2 (dremove D w) r := by
            intro mo2 A2 hGr
            refine good_dirt_congr r _ mo2 A2 D (dremove D w) ?_
              (good_congr r st.bh _ mo2 A2 D
                (fun j hj => hfr j (fun h => hdisj j (hsubids j h) hj)) hGr)
            intro z hz
            have : z ≠ w := fun h => hdisj w hwl (h ▸ hz)
            simp [mem_dremove, this]
          simp only [Good]
          refine ⟨fun hmo => by rw [hfri]; exact h1 hmo, ?_⟩
          by_cases hC : i ∈ D ∧ (st.bh i).events ≠ []
          · rw [if_pos hC] at h2
            rw [if_pos (by rw [hfri]; exact ⟨mem_dremove.mpr ⟨hC.1, hiw⟩, hC.2⟩)]
            exact ⟨ihl st false 0 x w D h2.1 hwl hndl hx, hRr false 0 h2.2⟩
          · rw [if_neg hC] at h2
            rw [if_neg (by
              rw [hfri]
              exact fun hc => hC ⟨(mem_dremove.mp hc.1).1, hc.2⟩)]
            rw [hfri]
            cases hgl : (st.bh i).events.getLast? with
            | none =>
                simp only [hgl] at h2 ⊢
                exact ⟨h2.1, ihl st mo A x w D h2.2.1 hwl hndl hx, hRr mo A h2.2.2⟩
            | some L =>
                simp only [hgl] at h2 ⊢
                exact ⟨h2.1, ihl st true L x w D h2.2.1 hwl hndl hx, hRr true L h2.2.2⟩
        · -- right side
          have hwnl : w ∉ l.ids := fun h => hdisj w h hwr
          rw [repairApply_dispatch_right st w x i l r hiw hwnl]
          obtain ⟨sub, hsub⟩ := findSub_isSome_of_mem hwr
          have hsubids : ∀ q ∈ sub.ids, q ∈ r.ids := ids_subset_of_findSub hsub
          have hfr : ∀ q, q ∉ sub.ids → (repairApply st w x r).bh q = st.bh q :=
            fun q hq => repairApply_bh_outside st w x r hsub q hq
          have hfri : (repairApply st w x r).bh i = st.bh i :=
            hfr i (fun h => hir (hsubids i h))
          have hLl : ∀ (mo2 : Bool) (A2 : Nat), Good st.bh mo2 A2 D l →
              Good (repairApply st w x r).bh mo2 A2 (dremove D w) l := by
            intro mo2 A2 hGl
            refine good_dirt_congr l _ mo2 A2 D (dremove D w) ?_
              (good_congr l st.bh _ mo2 A2 D
                (fun j hj => hfr j (fun h => hdisj j hj (hsubids j h))) hGl)
            intro z hz
            have : z ≠ w := fun h => hdisj z hz (h ▸ hwr)
            simp [mem_dremove, this]
          simp only [Good]
          refine ⟨fun hmo => by rw [hfri]; exact h1 hmo, ?_⟩
          by_cases hC : i ∈ D ∧ (st.bh i).events ≠ []
          · rw [if_pos hC] at h2
            rw [if_pos (by rw [hfri]; exact ⟨mem_dremove.mpr ⟨hC.1, hiw⟩, hC.2⟩)]
            exact ⟨hLl false 0 h2.1, ihr st false 0 x w D h2.2 hwr hndr hx⟩
          · rw [if_neg hC] at h2
            rw [if_neg (by
              rw [hfri]
              exact fun hc => hC ⟨(mem_dremove.mp hc.1).1, hc.2⟩)]
            rw [hfri]
            cases hgl : (st.bh i).events.getLast? with
            | none =>
                simp only [hgl] at h2 ⊢
                exact ⟨h2.1, hLl mo A h2.2.1, ihr st mo A x w D h2.2.2 hwr hndr hx⟩
            | some L =>
                simp only [hgl] at h2 ⊢
                exact ⟨h2.1, hLl true L h2.2.1, ihr st true L x w D h2.2.2 hwr hndr hx⟩

/-! ## forwardSetBranchHistories in terms of the repair step -/

theorem fsbh_noop (env : ModelEnv) (st : MState) (x : Nat)
    (hxr : x ≠ env.rootEvent)
    (hnl : (st.bh (st.evNode x)).events.getLast? ≠ some x) :
    forwardSetBranchHistories env st x = st := by
  unfold forwardSetBranchHistories
  dsimp only
  rw [if_neg hxr, if_neg hnl]

theorem fsbh_fire_eq (env : ModelEnv) (st : MState) (x : Nat)
    (hxr : x ≠ env.rootEvent)
    (hmem : st.evNode x ∈ env.tree.ids)
    (hl : (st.bh (st.evNode x)).events.getLast? = some x) :
    forwardSetBranchHistories env st x = repairApply st (st.evNode x) x env.tree := by
  obtain ⟨sub, hsub⟩ := findSub_isSome_of_mem hmem
  unfold forwardSetBranchHistories repairApply
  dsimp only
  rw [if_neg hxr, if_pos hl, hsub]
  cases sub <;> rfl

theorem fsbh_root_node (env : ModelEnv) (st : MState) {i : Nat} {l r : PTree}
    (htree : env.tree = PTree.node i l r)
    (hn : st.evNode env.rootEvent = env.tree.rootId) :
    forwardSetBranchHistories env st env.rootEvent =
      forwardSetHistoriesRecursive (forwardSetHistoriesRecursive st i l) i r := by
  unfold forwardSetBranchHistories
  dsimp only
  rw [if_pos rfl, hn, findSub_rootId, htree]

theorem fsbh_root_tip (env : ModelEnv) (st : MState) {i : Nat}
    (htree : env.tree = PTree.tip i)
    (hn : st.evNode env.rootEvent = env.tree.rootId) :
    forwardSetBranchHistories env st env.rootEvent = st := by
  unfold forwardSetBranchHistories
  dsimp only
  rw [if_pos rfl, hn, findSub_rootId, htree]

/-! ## Whole-tree wrappers -/

theorem goodTreeW_of_goodTree {bhf : Nat → BranchHist} {D : List Nat} {t : PTree}
    (h : GoodTree bhf D t) : GoodTreeW bhf D t := by
  cases t with
  | tip i => trivial
  | node i l r =>
      exact ⟨good_weaken _ _ _ _ _ _ h.1, good_weaken _ _ _ _ _ _ h.2⟩

theorem goodTree_mono_dirt {bhf : Nat → BranchHist} {D D2 : List Nat} {t : PTree}
    (hsub : ∀ z ∈ D, z ∈ D2) (h : GoodTree bhf D t) : GoodTree bhf D2 t := by
  cases t with
  | tip i => trivial
  | node i l r =>
      exact ⟨good_mono_dirt _ _ _ _ _ _ hsub h.1, good_mono_dirt _ _ _ _ _ _ hsub h.2⟩

theorem goodTreeW_mono_dirt {bhf : Nat → BranchHist} {D D2 : List Nat} {t : PTree}
    (hsub : ∀ z ∈ D, z ∈ D2) (h : GoodTreeW bhf D t) : GoodTreeW bhf D2 t := by
  cases t with
  | tip i => trivial
  | node i l r =>
      exact ⟨good_mono_dirt _ _ _ _ _ _ hsub h.1, good_mono_dirt _ _ _ _ _ _ hsub h.2⟩

/-- Dirt entries whose branch is empty can be dropped from the whole-tree
predicate. -/
theorem goodTree_dirt_reduce {bhf : Nat → BranchHist} {D D2 : List Nat} {t : PTree}
    (hiff : ∀ z ∈ t.ids, (z ∈ D ∧ (bhf z).events ≠ []) ↔ (z ∈ D2 ∧ (bhf z).events ≠ []))
    (h : GoodTree bhf D t) : GoodTree bhf D2 t := by
  cases t with
  | tip i => trivial
  | node i l r =>
      have hil : ∀ z ∈ l.ids, (z ∈ D ∧ (bhf z).events ≠ []) ↔ (z ∈ D2 ∧ (bhf z).events ≠ []) :=
        fun z hz => hiff z (by simp [PTree.ids, List.mem_append]; tauto)
      have hir : ∀ z ∈ r.ids, (z ∈ D ∧ (bhf z).events ≠ []) ↔ (z ∈ D2 ∧ (bhf z).events ≠ []) :=
        fun z hz => hiff z (by simp [PTree.ids, List.mem_append]; tauto)
      exact ⟨good_dirt_congr _ _ _ _ _ _ hil h.1, good_dirt_congr _ _ _ _ _ _ hir h.2⟩

/-- Repairing at a non-root vertex whose branch's last event is `x` repairs
the whole tree and discharges that vertex's dirt. -/
theorem goodTree_repairApply (st : MState) (x w : Nat) (D : List Nat) (t : PTree)
    (hG : GoodTree st.bh D t) (hnd : t.ids.Nodup) (hw : w ∈ t.ids) (hwr : w ≠ t.rootId)
    (hx : (st.bh w).events.getLast? = some x) :
    GoodTree (repairApply st w x t).bh (dremove D w) t := by
  cases t with
  | tip i =>
      trivial
  | node i l r =>
      obtain ⟨hil, hir, hndl, hndr, hdisj⟩ := nodup_node hnd
      have hiw : i ≠ w := fun h => hwr (by rw [h]; rfl)
      have hwlr : w ∈ l.ids ∨ w ∈ r.ids := by
        simp only [PTree.ids, List.mem_cons, List.mem_append] at hw
        rcases hw with h | h | h
        · exact absurd h.symm hiw
        · exact Or.inl h
        · exact Or.inr h
      rcases hwlr with hwl | hwr2
      · rw [repairApply_dispatch_left st w x i l r hiw hwl]
        obtain ⟨sub, hsub⟩ := findSub_isSome_of_mem hwl
        have hsubids := ids_subset_of_findSub hsub
        have hfr : ∀ q, q ∉ sub.ids → (repairApply st w x l).bh q = st.bh q :=
          fun q hq => repairApply_bh_outside st w x l hsub q hq
        have hfri : (repairApply st w x l).bh i = st.bh i :=
          hfr i (fun h => hil (hsubids i h))
        refine ⟨?_, ?_⟩
        · rw [hfri]
          exact good_repairApply l st true ((st.bh i).nodeEvent) x w D hG.1 hwl hndl hx
        · rw [hfri]
          refine good_dirt_congr r _ true ((st.bh i).nodeEvent) D (dremove D w) ?_
            (good_congr r st.bh _ true ((st.bh i).nodeEvent) D
              (fun j hj => hfr j (fun h => hdisj j (hsubids j h) hj)) hG.2)
          intro z hz
          have : z ≠ w := fun h => hdisj w hwl (h ▸ hz)
          simp [mem_dremove, this]
      · have hwnl : w ∉ l.ids := fun h => hdisj w h hwr2
        rw [repairApply_dispatch_right st w x i l r hiw hwnl]
        obtain ⟨sub, hsub⟩ := findSub_isSome_of_mem hwr2
        have hsubids := ids_subset_of_findSub hsub
        have hfr : ∀ q, q ∉ sub.ids → (repairApply st w x r).bh q = st.bh q :=
          fun q hq => repairApply_bh_outside st w x r hsub q hq
        have hfri : (repairApply st w x r).bh i = st.bh i :=
          hfr i (fun h => hir (hsubids i h))
        refine ⟨?_, ?_⟩
        · rw [hfri]
          refine good_dirt_congr l _ true ((st.bh i).nodeEvent) D (dremove D w) ?_
            (good_congr l st.bh _ true ((st.bh i).nodeEvent) D
              (fun j hj => hfr j (fun h => hdisj j hj (hsubids j h))) hG.1)
          intro z hz
          have : z ≠ w := fun h => hdisj z hz (h ▸ hwr2)
          simp [mem_dremove, this]
        · rw [hfri]
          exact good_repairApply r st true ((st.bh i).nodeEvent) x w D hG.2 hwr2 hndr hx

/-- Forward setting from a firing non-root event restores the whole-tree
invariant and discharges that node's dirt. -/
theorem goodTree_fsbh_fire (env : ModelEnv) (st : MState) (x : Nat) (D : List Nat)
    (hnd : env.tree.ids.Nodup) (hxr : x ≠ env.rootEvent)
    (hw : st.evNode x ∈ env.tree.ids) (hwr : st.evNode x ≠ env.tree.rootId)
    (hfire : (st.bh (st.evNode x)).events.getLast? = some x)
    (hG : GoodTree st.bh D env.tree) :
    GoodTree (forwardSetBranchHistories env st x).bh (dremove D (st.evNode x)) env.tree := by
  rw [fsbh_fire_eq env st x hxr hw hfire]
  exact goodTree_repairApply st x (st.evNode x) D env.tree hG hnd hw hwr hfire

/-- Forward setting from the root event restores the whole-tree invariant
from a merely settled state, keeping the dirt list. -/
theorem goodTree_fsbh_root (env : ModelEnv) (st : MState) (D : List Nat)
    (hnd : env.tree.ids.Nodup)
    (hn : st.evNode env.rootEvent = env.tree.rootId)
    (hG : GoodTreeW st.bh D env.tree) :
    GoodTree (forwardSetBranchHistories env st env.rootEvent).bh D env.tree := by
  cases htree : env.tree with
  | tip i =>
      rw [fsbh_root_tip env st htree hn]
      trivial
  | node i l r =>
      rw [fsbh_root_node env st htree hn]
      rw [htree] at hnd hG
      obtain ⟨hil, hir, hndl, hndr, hdisj⟩ := nodup_node hnd
      obtain ⟨hgl, hgr⟩ := hG
      have hL := good_fshr l st i D hgl hndl
      set stA := forwardSetHistoriesRecursive st i l with hstA
      have hfrA : ∀ j, j ∉ l.ids → stA.bh j = st.bh j := fun j hj =>
        fshr_bh_frame l st i j hj
      have hgr2 : Good stA.bh false 0 D r :=
        good_congr r st.bh stA.bh false 0 D
          (fun j hj => hfrA j (fun h => hdisj j h hj)) hgr
      have hR := good_fshr r stA i D hgr2 hndr
      set stB := forwardSetHistoriesRecursive stA i r with hstB
      have hfrB : ∀ j, j ∉ r.ids → stB.bh j = stA.bh j := fun j hj =>
        fshr_bh_frame r stA i j hj
      have hBi : stB.bh i = st.bh i := by rw [hfrB i hir, hfrA i hil]
      have hLB : Good stB.bh true ((st.bh i).nodeEvent) D l :=
        good_congr l stA.bh stB.bh true ((st.bh i).nodeEvent) D
          (fun j hj => hfrB j (fun h => hdisj j hj h))
          (by rw [show (st.bh i).nodeEvent = (st.bh i).nodeEvent from rfl]; exact hL)
      constructor
      · rw [hBi]
        exact hLB
      · rw [hBi, show (st.bh i).nodeEvent = (stA.bh i).nodeEvent from (by rw [hfrA i hil])]
        exact hR

/-! ## Preservation of Good under single-branch modifications -/

/-- Replacing the branch data at a dirty vertex with non-empty data that
keeps the `ancestralNodeEvent` preserves `Good`. -/
theorem good_upd_dirty : ∀ (p : PTree) (bhf : Nat → BranchHist) (mo : Bool) (A : Nat)
    (D : List Nat) (i : Nat) (b : BranchHist),
    Good bhf mo A D p → p.ids.Nodup → i ∈ D → b.events ≠ [] →
    b.ancestralNodeEvent = (bhf i).ancestralNodeEvent →
    Good (upd bhf i b) mo A D p := by
  intro p
  induction p with
  | tip j =>
      intro bhf mo A D i b hG _ hD hne hanc
      simp only [Good] at hG ⊢
      by_cases hj : j = i
      · subst hj
        rw [upd_same]
        exact ⟨fun hmo => by rw [hanc]; exact hG.1 hmo, by rw [if_pos ⟨hD, hne⟩]; trivial⟩
      · rw [upd_other bhf i j b hj]
        exact hG
  | node j l r ihl ihr =>
      intro bhf mo A D i b hG hnd hD hne hanc
      obtain ⟨hjl, hjr, hndl, hndr, hdisj⟩ := nodup_node hnd
      simp only [Good] at hG ⊢
      obtain ⟨h1, h2⟩ := hG
      by_cases hj : j = i
      · subst hj
        rw [upd_same]
        refine ⟨fun hmo => by rw [hanc]; exact h1 hmo, ?_⟩
        rw [if_pos ⟨hD, hne⟩]
        have hch : Good bhf false 0 D l ∧ Good bhf false 0 D r := by
          by_cases hC : j ∈ D ∧ (bhf j).events ≠ []
          · rw [if_pos hC] at h2
            exact h2
          · rw [if_neg hC] at h2
            cases hgl : (bhf j).events.getLast? with
            | none =>
                simp only [hgl] at h2
                exact ⟨good_weaken _ _ _ _ _ _ h2.2.1, good_weaken _ _ _ _ _ _ h2.2.2⟩
            | some L =>
                simp only [hgl] at h2
                exact ⟨good_weaken _ _ _ _ _ _ h2.2.1, good_weaken _ _ _ _ _ _ h2.2.2⟩
        exact ⟨good_congr l bhf _ false 0 D
            (fun q hq => upd_other bhf j q b (fun h => hjl (h ▸ hq))) hch.1,
          good_congr r bhf _ false 0 D
            (fun q hq => upd_other bhf j q b (fun h => hjr (h ▸ hq))) hch.2⟩
      · rw [upd_other bhf i j b hj]
        refine ⟨h1, ?_⟩
        by_cases hC : j ∈ D ∧ (bhf j).events ≠ []
        · rw [if_pos hC] at h2 ⊢
          exact ⟨ihl bhf false 0 D i b h2.1 hndl hD hne hanc,
            ihr bhf false 0 D i b h2.2 hndr hD hne hanc⟩
        · rw [if_neg hC] at h2 ⊢
          cases hgl : (bhf j).events.getLast? with
          | none =>
              simp only [hgl] at h2 ⊢
              exact ⟨h2.1, ihl bhf mo A D i b h2.2.1 hndl hD hne hanc,
                ihr bhf mo A D i b h2.2.2 hndr hD hne hanc⟩
          | some L =>
              simp only [hgl] at h2 ⊢
              exact ⟨h2.1, ihl bhf true L D i b h2.2.1 hndl hD hne hanc,
                ihr bhf true L D i b h2.2.2 hndr hD hne hanc⟩

/-- Replacing the branch data at a vertex with data that keeps the last
event, the `nodeEvent` and the `ancestralNodeEvent` preserves `Good`. -/
theorem good_upd_safe : ∀ (p : PTree) (bhf : Nat → BranchHist) (mo : Bool) (A : Nat)
    (D : List Nat) (i : Nat) (b : BranchHist),
    Good bhf mo A D p → p.ids.Nodup →
    b.events.getLast? = (bhf i).events.getLast? →
    b.nodeEvent = (bhf i).nodeEvent →
    b.ancestralNodeEvent = (bhf i).ancestralNodeEvent →
    Good (upd bhf i b) mo A D p := by
  intro p
  induction p with
  | tip j =>
      intro bhf mo A D i b hG _ hgl hne hanc
      simp only [Good] at hG ⊢
      by_cases hj : j = i
      · subst hj
        rw [upd_same]
        have hempty : b.events = [] ↔ (bhf j).events = [] := by
          constructor
          · intro h
            exact List.getLast?_eq_none_iff.mp (by rw [← hgl, h]; rfl)
          · intro h
            exact List.getLast?_eq_none_iff.mp (by rw [hgl, h]; rfl)
        obtain ⟨h1, h2⟩ := hG
        refine ⟨fun hmo => by rw [hanc]; exact h1 hmo, ?_⟩
        by_cases hC : j ∈ D ∧ (bhf j).events ≠ []
        · rw [if_pos ⟨hC.1, fun h => hC.2 (hempty.mp h)⟩]
          trivial
        · rw [if_neg (fun hc => hC ⟨hc.1, fun h => hc.2 (hempty.mpr h)⟩)]
          rw [if_neg hC] at h2
          rw [hgl]
          cases hglv : (bhf j).events.getLast? with
          | none => simp only [hglv] at h2 ⊢; exact fun hmo => by rw [hne]; exact h2 hmo
          | some L => simp only [hglv] at h2 ⊢; rw [hne]; exact h2
      · rw [upd_other bhf i j b hj]
        exact hG
  | node j l r ihl ihr =>
      intro bhf mo A D i b hG hnd hgl hne hanc
      obtain ⟨hjl, hjr, hndl, hndr, hdisj⟩ := nodup_node hnd
      simp only [Good] at hG ⊢
      obtain ⟨h1, h2⟩ := hG
      by_cases hj : j = i
      · subst hj
        rw [upd_same]
        have hempty : b.events = [] ↔ (bhf j).events = [] := by
          constructor
          · intro h
            exact List.getLast?_eq_none_iff.mp (by rw [← hgl, h]; rfl)
          · intro h
            exact List.getLast?_eq_none_iff.mp (by rw [hgl, h]; rfl)
        have hcl : ∀ mo2 A2, Good bhf mo2 A2 D l → Good (upd bhf j b) mo2 A2 D l :=
          fun mo2 A2 hGl => good_congr l bhf _ mo2 A2 D
            (fun q hq => upd_other bhf j q b (fun h => hjl (h ▸ hq))) hGl
        have hcr : ∀ mo2 A2, Good bhf mo2 A2 D r → Good (upd bhf j b) mo2 A2 D r :=
          fun mo2 A2 hGr => good_congr r bhf _ mo2 A2 D
            (fun q hq => upd_other bhf j q b (fun h => hjr (h ▸ hq))) hGr
        refine ⟨fun hmo => by rw [hanc]; exact h1 hmo, ?_⟩
        by_cases hC : j ∈ D ∧ (bhf j).events ≠ []
        · rw [if_pos ⟨hC.1, fun h => hC.2 (hempty.mp h)⟩]
          rw [if_pos hC] at h2
          exact ⟨hcl _ _ h2.1, hcr _ _ h2.2⟩
        · rw [if_neg (fun hc => hC ⟨hc.1, fun h => hc.2 (hempty.mpr h)⟩)]
          rw [if_neg hC] at h2
          rw [hgl]
          cases hglv : (bhf j).events.getLast? with
          | none =>
              simp only [hglv] at h2 ⊢
              exact ⟨fun hmo => by rw [hne]; exact h2.1 hmo, hcl _ _ h2.2.1, hcr _ _ h2.2.2⟩
          | some L =>
              simp only [hglv] at h2 ⊢
              exact ⟨by rw [hne]; exact h2.1, hcl _ _ h2.2.1, hcr _ _ h2.2.2⟩
      · rw [upd_other bhf i j b hj]
        refine ⟨h1, ?_⟩
        by_cases hC : j ∈ D ∧ (bhf j).events ≠ []
        · rw [if_pos hC] at h2 ⊢
          exact ⟨ihl bhf false 0 D i b h2.1 hndl hgl hne hanc,
            ihr bhf false 0 D i b h2.2 hndr hgl hne hanc⟩
        · rw [if_neg hC] at h2 ⊢
          cases hglv : (bhf j).events.getLast? with
          | none =>
              simp only [hglv] at h2 ⊢
              exact ⟨h2.1, ihl bhf mo A D i b h2.2.1 hndl hgl hne hanc,
                ihr bhf mo A D i b h2.2.2 hndr hgl hne hanc⟩
          | some L =>
              simp only [hglv] at h2 ⊢
              exact ⟨h2.1, ihl bhf true L D i b h2.2.1 hndl hgl hne hanc,
                ihr bhf true L D i b h2.2.2 hndr hgl hne hanc⟩

/-- Emptying the branch at a vertex preserves `Good` when the vertex sits in
a non-strict region: either the whole subtree is only settled and every
vertex above `i` is an empty spine, or some dirty non-empty vertex `m` above
`i` shields it. -/
theorem good_upd_empty : ∀ (p : PTree) (bhf : Nat → BranchHist) (mo : Bool) (A : Nat)
    (D : List Nat) (i : Nat) (b : BranchHist),
    Good bhf mo A D p → p.ids.Nodup → b.events = [] →
    ((mo = false ∧ SpinePathTo bhf i p) ∨
      (∃ m sub, m ∈ D ∧ m ≠ i ∧ (bhf m).events ≠ [] ∧
        PTree.findSub m p = some sub ∧ i ∈ sub.ids ∧ SpineStrict bhf i sub)) →
    Good (upd bhf i b) mo A D p := by
  intro p
  induction p with
  | tip j =>
      intro bhf mo A D i b hG _ hb hdisj
      simp only [Good] at hG ⊢
      by_cases hj : j = i
      · subst hj
        rcases hdisj with ⟨hmo, _⟩ | ⟨m, sub, _, hmi, _, hfind, _, _⟩
        · subst hmo
          rw [upd_same]
          refine ⟨by simp, ?_⟩
          rw [if_neg (by simp [hb])]
          rw [List.getLast?_eq_none_iff.mpr hb]
          simp
        · simp only [PTree.findSub] at hfind
          split at hfind
          · rename_i h
            exact absurd h.symm (by cases hfind; exact hmi)
          · exact absurd hfind (by simp)
      · rw [upd_other bhf i j b hj]
        exact hG
  | node j l r ihl ihr =>
      intro bhf mo A D i b hG hnd hb hdisj
      obtain ⟨hjl, hjr, hndl, hndr, hdisjlr⟩ := nodup_node hnd
      simp only [Good] at hG ⊢
      obtain ⟨h1, h2⟩ := hG
      by_cases hj : j = i
      · subst hj
        -- the witness case is impossible at the updated vertex itself
        have hmo : mo = false := by
          rcases hdisj with ⟨hmo, _⟩ | ⟨m, sub, _, hmi, _, hfind, hisub, _⟩
          · exact hmo
          · exfalso
            simp only [PTree.findSub] at hfind
            split at hfind
            · rename_i h
              exact hmi (by cases hfind; exact h.symm)
            · cases hfl : PTree.findSub m l with
              | some t =>
                  rw [hfl] at hfind
                  cases hfind
                  exact hjl (ids_subset_of_findSub hfl _ hisub)
              | none =>
                  rw [hfl] at hfind
                  exact hjr (ids_subset_of_findSub hfind _ hisub)
        subst hmo
        rw [upd_same]
        refine ⟨by simp, ?_⟩
        rw [if_neg (by simp [hb])]
        rw [List.getLast?_eq_none_iff.mpr hb]
        have hch : Good bhf false 0 D l ∧ Good bhf false 0 D r := by
          by_cases hC : j ∈ D ∧ (bhf j).events ≠ []
          · rw [if_pos hC] at h2
            exact h2
          · rw [if_neg hC] at h2
            cases hgl : (bhf j).events.getLast? with
            | none =>
                simp only [hgl] at h2
                exact ⟨good_weaken _ _ _ _ _ _ h2.2.1, good_weaken _ _ _ _ _ _ h2.2.2⟩
            | some L =>
                simp only [hgl] at h2
                exact ⟨good_weaken _ _ _ _ _ _ h2.2.1, good_weaken _ _ _ _ _ _ h2.2.2⟩
        refine ⟨by simp, ?_, ?_⟩
        · exact good_weaken l _ false 0 A D (good_congr l bhf _ false 0 D
            (fun q hq => upd_other bhf j q b (fun h => hjl (h ▸ hq))) hch.1)
        · exact good_weaken r _ false 0 A D (good_congr r bhf _ false 0 D
            (fun q hq => upd_other bhf j q b (fun h => hjr (h ▸ hq))) hch.2)
      · -- the vertex keeps its data; push the disjunct into the right child
        rw [upd_other bhf i j b hj]
        have hcl : ∀ mo2 A2, Good bhf mo2 A2 D l → (i ∉ l.ids) →
            Good (upd bhf i b) mo2 A2 D l :=
          fun mo2 A2 hGl hi => good_congr l bhf _ mo2 A2 D
            (fun q hq => upd_other bhf i q b (fun h => hi (h ▸ hq))) hGl
        have hcr : ∀ mo2 A2, Good bhf mo2 A2 D r → (i ∉ r.ids) →
            Good (upd bhf i b) mo2 A2 D r :=
          fun mo2 A2 hGr hi => good_congr r bhf _ mo2 A2 D
            (fun q hq => upd_other bhf i q b (fun h => hi (h ▸ hq))) hGr
        -- determine where the modified vertex lies and with which support
        rcases hdisj with ⟨hmo, hsp⟩ | ⟨m, sub, hmD, hmi, hmne, hfind, hisub, hss⟩
        · subst hmo
          -- the settled case: the path is an empty spine
          rcases hsp with hji | ⟨hjev, hsp⟩
          · exact absurd hji hj
          · -- this vertex is an empty spine, hence not exempt and not a frontier
            refine ⟨h1, ?_⟩
            have hC : ¬(j ∈ D ∧ (bhf j).events ≠ []) := by simp [hjev]
            rw [if_neg hC] at h2 ⊢
            rw [List.getLast?_eq_none_iff.mpr hjev] at h2 ⊢
            by_cases hil : i ∈ l.ids
            · rw [if_pos hil] at hsp
              exact ⟨h2.1, ihl bhf false A D i b h2.2.1 hndl hb (Or.inl ⟨rfl, hsp⟩),
                hcr false A h2.2.2 (fun h => hdisjlr i hil h)⟩
            · rw [if_neg hil] at hsp
              exact ⟨h2.1, hcl false A h2.2.1 hil,
                ihr bhf false A D i b h2.2.2 hndr hb (Or.inl ⟨rfl, hsp⟩)⟩
        · -- the shielded case: find `m` along the way
          by_cases hjm : j = m
          · -- met the shield: it is exempt, so its children are settled
            subst hjm
            refine ⟨h1, ?_⟩
            rw [if_pos ⟨hmD, hmne⟩] at h2 ⊢
            -- the found subtree is this vertex's subtree
            have hsub : sub = PTree.node j l r := by
              simp only [PTree.findSub] at hfind
              simp at hfind
              exact hfind.symm
            subst hsub
            rcases hss with hji | hss
            · exact absurd hji hj
            · by_cases hil : i ∈ l.ids
              · rw [if_pos hil] at hss
                exact ⟨ihl bhf false 0 D i b h2.1 hndl hb (Or.inl ⟨rfl, hss⟩),
                  hcr false 0 h2.2 (fun h => hdisjlr i hil h)⟩
              · rw [if_neg hil] at hss
                exact ⟨hcl false 0 h2.1 hil,
                  ihr bhf false 0 D i b h2.2 hndr hb (Or.inl ⟨rfl, hss⟩)⟩
          · -- the shield lies deeper: dispatch the witness into a child
            have hfind2 : (match PTree.findSub m l with
                | some t => some t
                | none => PTree.findSub m r) = some sub := by
              simp only [PTree.findSub] at hfind
              rw [if_neg (fun h => hjm h)] at hfind
              exact hfind
            have hwit : (PTree.findSub m l = some sub ∧ i ∈ l.ids) ∨
                (PTree.findSub m r = some sub ∧ i ∈ r.ids) := by
              cases hfl : PTree.findSub m l with
              | some t =>
                  rw [hfl] at hfind2
                  have ht : t = sub := by injection hfind2
                  refine Or.inl ⟨hfind2, ?_⟩
                  rw [ht] at hfl
                  exact ids_subset_of_findSub hfl _ hisub
              | none =>
                  rw [hfl] at hfind2
                  exact Or.inr ⟨hfind2, ids_subset_of_findSub hfind2 _ hisub⟩
            refine ⟨h1, ?_⟩
            by_cases hC : j ∈ D ∧ (bhf j).events ≠ []
            · rw [if_pos hC] at h2 ⊢
              rcases hwit with ⟨hfl, hil⟩ | ⟨hfr, hir⟩
              · exact ⟨ihl bhf false 0 D i b h2.1 hndl hb
                    (Or.inr ⟨m, sub, hmD, hmi, hmne, hfl, hisub, hss⟩),
                  hcr false 0 h2.2 (fun h => hdisjlr i hil h)⟩
              · exact ⟨hcl false 0 h2.1 (fun h => hdisjlr i h hir),
                  ihr bhf false 0 D i b h2.2 hndr hb
                    (Or.inr ⟨m, sub, hmD, hmi, hmne, hfr, hisub, hss⟩)⟩
            · rw [if_neg hC] at h2 ⊢
              cases hgl : (bhf j).events.getLast? with
              | none =>
                  simp only [hgl] at h2 ⊢
                  rcases hwit with ⟨hfl, hil⟩ | ⟨hfr, hir⟩
                  · exact ⟨h2.1, ihl bhf mo A D i b h2.2.1 hndl hb
                        (Or.inr ⟨m, sub, hmD, hmi, hmne, hfl, hisub, hss⟩),
                      hcr mo A h2.2.2 (fun h => hdisjlr i hil h)⟩
                  · exact ⟨h2.1, hcl mo A h2.2.1 (fun h => hdisjlr i h hir),
                      ihr bhf mo A D i b h2.2.2 hndr hb
                        (Or.inr ⟨m, sub, hmD, hmi, hmne, hfr, hisub, hss⟩)⟩
              | some L =>
                  simp only [hgl] at h2 ⊢
                  rcases hwit with ⟨hfl, hil⟩ | ⟨hfr, hir⟩
                  · exact ⟨h2.1, ihl bhf true L D i b h2.2.1 hndl hb
                        (Or.inr ⟨m, sub, hmD, hmi, hmne, hfl, hisub, hss⟩),
                      hcr true L h2.2.2 (fun h => hdisjlr i hil h)⟩
                  · exact ⟨h2.1, hcl true L h2.2.1 (fun h => hdisjlr i h hir),
                      ihr bhf true L D i b h2.2.2 hndr hb
                        (Or.inr ⟨m, sub, hmD, hmi, hmne, hfr, hisub, hss⟩)⟩

/-- The governing-event characterization: under the strict invariant with no
dirt, every vertex's `ancestralNodeEvent` is either the subtree's boundary
event, reached along an empty spine, or the last event of the branch of some
vertex `m` strictly above it, with an empty spine strictly between `m` and
the vertex. -/
theorem good_gov : ∀ (p : PTree) (bhf : Nat → BranchHist) (A : Nat),
    Good bhf true A [] p → p.ids.Nodup → ∀ q ∈ p.ids,
    ((bhf q).ancestralNodeEvent = A ∧ SpinePathTo bhf q p) ∨
    (∃ m sub, m ≠ q ∧ (bhf m).events.getLast? = some ((bhf q).ancestralNodeEvent) ∧
      PTree.findSub m p = some sub ∧ q ∈ sub.ids ∧ SpineStrict bhf q sub) := by
  intro p
  induction p with
  | tip i =>
      intro bhf A hG _ q hq
      have hqi : q = i := by simpa [PTree.ids] using hq
      subst hqi
      exact Or.inl ⟨hG.1 rfl, trivial⟩
  | node i l r ihl ihr =>
      intro bhf A hG hnd q hq
      obtain ⟨hil, hir, hndl, hndr, hdisj⟩ := nodup_node hnd
      simp only [Good] at hG
      obtain ⟨h1, h2⟩ := hG
      rw [if_neg (by simp)] at h2
      by_cases hqi : q = i
      · subst hqi
        exact Or.inl ⟨h1 (by trivial), Or.inl rfl⟩
      · have hqlr : q ∈ l.ids ∨ q ∈ r.ids := by
          simp only [PTree.ids, List.mem_cons, List.mem_append] at hq
          rcases hq with h | h | h
          · exact absurd h.symm (fun h2 => hqi h2.symm)
          · exact Or.inl h
          · exact Or.inr h
        -- helper to lift a witness from a child
        cases hgl : (bhf i).events.getLast? with
        | none =>
            simp only [hgl] at h2
            have hiev : (bhf i).events = [] := List.getLast?_eq_none_iff.mp hgl
            rcases hqlr with hql | hqr
            · rcases ihl bhf A h2.2.1 hndl q hql with ⟨hanc, hsp⟩ | ⟨m, sub, hm1, hm2, hm3, hm4, hm5⟩
              · exact Or.inl ⟨hanc, Or.inr ⟨hiev, by rw [if_pos hql]; exact hsp⟩⟩
              · have hmnei : i ≠ m := fun h => hil (h ▸ mem_of_findSub hm3)
                exact Or.inr ⟨m, sub, hm1, hm2,
                  by rw [findSub_node_left (fun h => hmnei h) (mem_of_findSub hm3)]; exact hm3,
                  hm4, hm5⟩
            · rcases ihr bhf A h2.2.2 hndr q hqr with ⟨hanc, hsp⟩ | ⟨m, sub, hm1, hm2, hm3, hm4, hm5⟩
              · refine Or.inl ⟨hanc, Or.inr ⟨hiev, ?_⟩⟩
                rw [if_neg (fun h => hdisj q h hqr)]
                exact hsp
              · have hmmem := mem_of_findSub hm3
                have hmnei : i ≠ m := fun h => hir (h ▸ hmmem)
                exact Or.inr ⟨m, sub, hm1, hm2,
                  by rw [findSub_node_right (fun h => hmnei h) (fun h => hdisj m h hmmem)]
                     exact hm3,
                  hm4, hm5⟩
        | some L =>
            simp only [hgl] at h2
            rcases hqlr with hql | hqr
            · rcases ihl bhf L h2.2.1 hndl q hql with ⟨hanc, hsp⟩ | ⟨m, sub, hm1, hm2, hm3, hm4, hm5⟩
              · refine Or.inr ⟨i, PTree.node i l r, fun h => hqi h.symm, by rw [hanc]; exact hgl,
                  by simp [PTree.findSub], hq, ?_⟩
                exact Or.inr (by rw [if_pos hql]; exact hsp)
              · have hmnei : i ≠ m := fun h => hil (h ▸ mem_of_findSub hm3)
                exact Or.inr ⟨m, sub, hm1, hm2,
                  by rw [findSub_node_left (fun h => hmnei h) (mem_of_findSub hm3)]; exact hm3,
                  hm4, hm5⟩
            · rcases ihr bhf L h2.2.2 hndr q hqr with ⟨hanc, hsp⟩ | ⟨m, sub, hm1, hm2, hm3, hm4, hm5⟩
              · refine Or.inr ⟨i, PTree.node i l r, fun h => hqi h.symm, by rw [hanc]; exact hgl,
                  by simp [PTree.findSub], hq, ?_⟩
                refine Or.inr ?_
                rw [if_neg (fun h => hdisj q h hqr)]
                exact hsp
              · have hmmem := mem_of_findSub hm3
                have hmnei : i ≠ m := fun h => hir (h ▸ hmmem)
                exact Or.inr ⟨m, sub, hm1, hm2,
                  by rw [findSub_node_right (fun h => hmnei h) (fun h => hdisj m h hmmem)]
                     exact hm3,
                  hm4, hm5⟩

/-! ## Lemmas about ordered branch insertion and removal -/

theorem insertByMapTime_ne_nil (m : Nat → ℚ) (e : Nat) (l : List Nat) :
    insertByMapTime m e l ≠ [] := by
  cases l with
  | nil => simp [insertByMapTime]
  | cons f rest =>
      unfold insertByMapTime
      split <;> simp

theorem insertByMapTime_mem (m : Nat → ℚ) (e f : Nat) :
    ∀ (l : List Nat), f ∈ insertByMapTime m e l ↔ f = e ∨ f ∈ l := by
  intro l
  induction l with
  | nil => simp [insertByMapTime]
  | cons g rest ih =>
      unfold insertByMapTime
      split
      · simp [or_left_comm, or_assoc]
      · simp only [List.mem_cons, ih]
        tauto

theorem insertByMapTime_getLast_cases (m : Nat → ℚ) (e : Nat) :
    ∀ (l : List Nat), (insertByMapTime m e l).getLast? = some e ∨
      (insertByMapTime m e l).getLast? = l.getLast? := by
  intro l
  induction l with
  | nil => simp [insertByMapTime]
  | cons g rest ih =>
      unfold insertByMapTime
      split
      · right
        rw [List.getLast?_cons_cons]
      · rcases ih with h | h
        · left
          cases hins : insertByMapTime m e rest with
          | nil => exact absurd hins (insertByMapTime_ne_nil m e rest)
          | cons a b =>
              rw [hins] at h
              rw [List.getLast?_cons_cons]
              exact h
        · cases rest with
          | nil =>
              left
              simp [insertByMapTime]
          | cons a b =>
              right
              cases hins : insertByMapTime m e (a :: b) with
              | nil => exact absurd hins (insertByMapTime_ne_nil m e (a :: b))
              | cons c d =>
                  rw [hins] at h
                  rw [List.getLast?_cons_cons, List.getLast?_cons_cons]
                  exact h

theorem insertByMapTime_sorted (m : Nat → ℚ) (e : Nat) :
    ∀ (l : List Nat), l.Pairwise (fun a b => m a ≤ m b) →
      (insertByMapTime m e l).Pairwise (fun a b => m a ≤ m b) := by
  intro l
  induction l with
  | nil => simp [insertByMapTime]
  | cons g rest ih =>
      intro hp
      rcases List.pairwise_cons.mp hp with ⟨hg, hrest⟩
      unfold insertByMapTime
      split
      · rename_i hlt
        refine List.pairwise_cons.mpr ⟨?_, hp⟩
        intro f hf
        rcases List.mem_cons.mp hf with rfl | hf2
        · exact le_of_lt hlt
        · exact le_trans (le_of_lt hlt) (hg f hf2)
      · rename_i hnlt
        refine List.pairwise_cons.mpr ⟨?_, ih hrest⟩
        intro f hf
        rcases (insertByMapTime_mem m e f rest).mp hf with rfl | hf2
        · exact not_lt.mp hnlt
        · exact hg f hf2

theorem insertByMapTime_nodup (m : Nat → ℚ) (e : Nat) :
    ∀ (l : List Nat), l.Nodup → e ∉ l → (insertByMapTime m e l).Nodup := by
  intro l
  induction l with
  | nil => simp [insertByMapTime]
  | cons g rest ih =>
      intro hnd hem
      rcases List.nodup_cons.mp hnd with ⟨hg, hrest⟩
      unfold insertByMapTime
      split
      · refine List.nodup_cons.mpr ⟨?_, hnd⟩
        intro hc
        rcases List.mem_cons.mp hc with rfl | hc2
        · exact hem (by simp)
        · exact hem (by simp [hc2])
      · refine List.nodup_cons.mpr ⟨?_, ih hrest (fun h => hem (by simp [h]))⟩
        intro hc
        rcases (insertByMapTime_mem m e g rest).mp hc with rfl | hc2
        · exact hem (by simp)
        · exact hg hc2

theorem insertByMapTime_congr (m1 m2 : Nat → ℚ) (e : Nat) :
    ∀ (l : List Nat), m1 e = m2 e → (∀ f ∈ l, m1 f = m2 f) →
      insertByMapTime m1 e l = insertByMapTime m2 e l := by
  intro l
  induction l with
  | nil => intro _ _; rfl
  | cons g rest ih =>
      intro he hl
      unfold insertByMapTime
      rw [he, hl g (by simp)]
      split
      · rfl
      · rw [ih he (fun f hf => hl f (by simp [hf]))]

theorem erase_insertByMapTime (m : Nat → ℚ) (e : Nat) :
    ∀ (l : List Nat), e ∉ l → (insertByMapTime m e l).erase e = l := by
  intro l
  induction l with
  | nil => simp [insertByMapTime]
  | cons g rest ih =>
      intro hem
      have hge : g ≠ e := fun h => hem (by simp [h])
      unfold insertByMapTime
      split
      · rw [List.erase_cons_head]
      · rw [List.erase_cons_tail, ih (fun h => hem (by simp [h]))]
        simp [hge]

theorem insertByMapTime_erase_roundtrip (m : Nat → ℚ) (e : Nat) :
    ∀ (l : List Nat), l.Pairwise (fun a b => m a ≤ m b) → l.Nodup → e ∈ l →
      (∀ f ∈ l, f ≠ e → m f ≠ m e) →
      insertByMapTime m e (l.erase e) = l := by
  intro l
  induction l with
  | nil => simp
  | cons g rest ih =>
      intro hp hnd hmem hinj
      rcases List.pairwise_cons.mp hp with ⟨hg, hrest⟩
      rcases List.nodup_cons.mp hnd with ⟨hgrest, hndrest⟩
      by_cases hge : g = e
      · subst hge
        rw [List.erase_cons_head]
        cases rest with
        | nil => rfl
        | cons a b =>
            have ha : m g < m a := by
              have h1 : m g ≤ m a := hg a (by simp)
              have h2 : m a ≠ m g := hinj a (by simp) (fun h => hgrest (h ▸ (by simp)))
              exact lt_of_le_of_ne h1 (fun h => h2 h.symm)
            unfold insertByMapTime
            rw [if_pos ha]
      · have hemem : e ∈ rest := by
          rcases List.mem_cons.mp hmem with h | h
          · exact absurd h.symm hge
          · exact h
        rw [List.erase_cons_tail (by simp [hge])]
        have hgel : m g < m e := by
          have h1 : m g ≤ m e := hg e hemem
          have h2 : m g ≠ m e := hinj g (by simp) hge
          exact lt_of_le_of_ne h1 h2
        unfold insertByMapTime
        rw [if_neg (not_lt.mpr (le_of_lt hgel))]
        rw [ih hrest hndrest hemem (fun f hf hfe => hinj f (by simp [hf]) hfe)]

/-- The scan of `lastEventBefore` on a branch containing `e` returns the
element just before `e`, or the accumulator when `e` is first. -/
theorem lastBeforeAux_spec (e : Nat) :
    ∀ (lhd : List Nat) (ltl : List Nat) (acc : Nat), e ∉ lhd →
      lastBeforeAux e (lhd ++ e :: ltl) acc = lhd.getLastD acc := by
  intro lhd
  induction lhd with
  | nil =>
      intro ltl acc _
      simp [lastBeforeAux]
  | cons f rest ih =>
      intro ltl acc hem
      have hfe : f ≠ e := fun h => hem (by simp [h])
      rw [List.cons_append]
      unfold lastBeforeAux
      rw [if_neg hfe]
      rw [ih ltl f (fun h => hem (by simp [h]))]
      rw [List.getLastD_cons]

/-- Splitting a duplicate-free list at a member. -/
theorem mem_split_nodup {e : Nat} {l : List Nat} (hmem : e ∈ l) (hnd : l.Nodup) :
    ∃ lhd ltl, l = lhd ++ e :: ltl ∧ e ∉ lhd ∧ e ∉ ltl := by
  obtain ⟨s, t, rfl⟩ := List.append_of_mem hmem
  have h1 := List.Nodup.of_append_right hnd
  have h2 : e ∉ t := (List.nodup_cons.mp h1).1
  have h3 : e ∉ s := by
    intro hs
    rw [List.nodup_append] at hnd
    exact hnd.2.2 hs (by simp)
  exact ⟨s, t, rfl, h3, h2⟩

/-! ## Characterization of relocateEvent -/

theorem findSub_not_root {w : Nat} {t : PTree} {sub : PTree}
    (hnd : t.ids.Nodup) (hw : w ≠ t.rootId) (hf : PTree.findSub w t = some sub) :
    t.rootId ∉ sub.ids := by
  cases t with
  | tip i =>
      simp only [PTree.findSub] at hf
      split at hf
      · rename_i h
        exact absurd h.symm (by simpa [PTree.rootId] using hw)
      · exact absurd hf (by simp)
  | node i l r =>
      obtain ⟨hil, hir, _, _, _⟩ := nodup_node hnd
      simp only [PTree.findSub] at hf
      split at hf
      · rename_i h
        exact absurd h.symm (by simpa [PTree.rootId] using hw)
      · cases hfl : PTree.findSub w l with
        | some u =>
            rw [hfl] at hf
            cases hf
            exact fun hm => hil (ids_subset_of_findSub hfl _ hm)
        | none =>
            rw [hfl] at hf
            exact fun hm => hir (ids_subset_of_findSub hf _ hm)

/-- `forwardSetBranchHistories` never changes the root vertex's branch data
when the event's owning node is a valid non-root node (or the root event is
owned by the root). -/
theorem fsbh_bh_root_frame (env : ModelEnv) (st : MState) (x : Nat)
    (hnd : env.tree.ids.Nodup)
    (hcase : (x = env.rootEvent ∧ st.evNode x = env.tree.rootId) ∨
      (st.evNode x ≠ env.tree.rootId)) :
    (forwardSetBranchHistories env st x).bh env.tree.rootId = st.bh env.tree.rootId := by
  have hnodefr : ∀ (s : MState) (a i2 : Nat) (l r : PTree),
      env.tree.rootId ∉ (PTree.node i2 l r).ids →
      (forwardSetHistoriesRecursive (forwardSetHistoriesRecursive s i2 l) i2 r).bh
        env.tree.rootId = s.bh env.tree.rootId := by
    intro s a i2 l r hout
    have h3 : env.tree.rootId ∉ l.ids ∧ env.tree.rootId ∉ r.ids := by
      simp only [PTree.ids, List.mem_cons, List.mem_append] at hout
      tauto
    rw [fshr_bh_frame r _ i2 _ h3.2, fshr_bh_frame l _ i2 _ h3.1]
  unfold forwardSetBranchHistories
  dsimp only
  by_cases hx : x = env.rootEvent
  · rw [if_pos hx]
    rcases hcase with ⟨_, hn⟩ | hn
    · rw [hn, findSub_rootId]
      cases htree : env.tree with
      | tip i => rfl
      | node i l r =>
          rw [htree] at hnd
          obtain ⟨hil, hir, _, _, _⟩ := nodup_node hnd
          show (forwardSetHistoriesRecursive (forwardSetHistoriesRecursive st i l) i r).bh
              (PTree.node i l r).rootId = st.bh (PTree.node i l r).rootId
          have : (PTree.node i l r).rootId = i := rfl
          rw [this, fshr_bh_frame r _ i i hir, fshr_bh_frame l _ i i hil]
    · cases hfs : PTree.findSub (st.evNode x) env.tree with
      | none => rfl
      | some sub =>
          have hout := findSub_not_root hnd hn hfs
          cases sub with
          | tip j => rfl
          | node i2 l r => exact hnodefr st (st.evNode x) i2 l r hout
  · rw [if_neg hx]
    have hn : st.evNode x ≠ env.tree.rootId := by
      rcases hcase with ⟨h, _⟩ | h
      · exact absurd h hx
      · exact h
    by_cases hfire : (st.bh (st.evNode x)).events.getLast? = some x
    · rw [if_pos hfire]
      cases hfs : PTree.findSub (st.evNode x) env.tree with
      | none =>
          exact setNe_bh_other st _ _ x (fun h => hn h.symm)
      | some sub =>
          have hout := findSub_not_root hnd hn hfs
          cases sub with
          | tip j => exact setNe_bh_other st _ _ x (fun h => hn h.symm)
          | node i2 l r =>
              rw [hnodefr (setNodeEvent st (st.evNode x) x) (st.evNode x) i2 l r hout]
              exact setNe_bh_other st _ _ x (fun h => hn h.symm)
    · rw [if_neg hfire]

/-- The event lists after a relocation: the popped lists with the event
re-inserted at its new owning node. -/
theorem relocate_events (env : ModelEnv) (st : MState) (e : Nat) (repos : MState → MState)
    (hbh : (repos (popEvent st e)).bh = (popEvent st e).bh) :
    ∀ q, ((relocateEvent env st e repos).bh q).events =
      if q = (repos (popEvent st e)).evNode e then
        insertByMapTime (repos (popEvent st e)).evMap e (((popEvent st e).bh q).events)
      else ((popEvent st e).bh q).events := by
  intro q
  unfold relocateEvent
  dsimp only
  rw [fsbh_events, fsbh_events, setBH_bh]
  by_cases hq : q = (repos (popEvent st e)).evNode e
  · rw [if_pos hq, if_pos hq]
    dsimp only
    rw [hbh, ← hq]
  · rw [if_neg hq, if_neg hq, hbh]

/-- All event attributes and registry data after a relocation are those set
by the repositioning step. -/
theorem relocate_nonbh (env : ModelEnv) (st : MState) (e : Nat) (repos : MState → MState) :
    (relocateEvent env st e repos).evNode = (repos (popEvent st e)).evNode ∧
    (relocateEvent env st e repos).evMap = (repos (popEvent st e)).evMap ∧
    (relocateEvent env st e repos).evPrevNode = (repos (popEvent st e)).evPrevNode ∧
    (relocateEvent env st e repos).evPrevMap = (repos (popEvent st e)).evPrevMap ∧
    (relocateEvent env st e repos).registry = (repos (popEvent st e)).registry ∧
    (relocateEvent env st e repos).nextId = (repos (popEvent st e)).nextId ∧
    (relocateEvent env st e repos).lastEventModified = (repos (popEvent st e)).lastEventModified := by
  unfold relocateEvent
  dsimp only
  refine ⟨?_, ?_, ?_, ?_, ?_, ?_, ?_⟩
  · rw [(fsbh_nonbh env _ e).1, (fsbh_nonbh env _ _).1]; rfl
  · rw [(fsbh_nonbh env _ e).2.1, (fsbh_nonbh env _ _).2.1]; rfl
  · rw [(fsbh_nonbh env _ e).2.2.1, (fsbh_nonbh env _ _).2.2.1]; rfl
  · rw [(fsbh_nonbh env _ e).2.2.2.1, (fsbh_nonbh env _ _).2.2.2.1]; rfl
  · rw [(fsbh_nonbh env _ e).2.2.2.2.2.1, (fsbh_nonbh env _ _).2.2.2.2.2.1]; rfl
  · rw [(fsbh_nonbh env _ e).2.2.2.2.2.2.1, (fsbh_nonbh env _ _).2.2.2.2.2.2.1]; rfl
  · rw [(fsbh_nonbh env _ e).2.2.2.2.2.2.2.1, (fsbh_nonbh env _ _).2.2.2.2.2.2.2.1]; rfl

/-! ## Whole-tree preservation wrappers for single-branch modifications -/

/-- Sortedness by map time only depends on the map's values on the list. -/
theorem pairwise_map_congr (m1 m2 : Nat → ℚ) :
    ∀ (l : List Nat), (∀ f ∈ l, m1 f = m2 f) →
      l.Pairwise (fun a b => m1 a ≤ m1 b) → l.Pairwise (fun a b => m2 a ≤ m2 b) := by
  intro l
  induction l with
  | nil => intro _ _; exact List.Pairwise.nil
  | cons f rest ih =>
      intro hcong hp
      rcases List.pairwise_cons.mp hp with ⟨hf, hrest⟩
      refine List.pairwise_cons.mpr ⟨?_, ih (fun g hg => hcong g (by simp [hg])) hrest⟩
      intro g hg
      rw [← hcong f (by simp), ← hcong g (by simp [hg])]
      exact hf g hg

/-- The root vertex of a strict dirt-free `Good` subtree carries its last
event, or the boundary event when its branch is empty. -/
theorem good_root_cases (p : PTree) (bhf : Nat → BranchHist) (A : Nat)
    (hG : Good bhf true A [] p) :
    match (bhf p.rootId).events.getLast? with
    | none => (bhf p.rootId).nodeEvent = A
    | some L => (bhf p.rootId).nodeEvent = L := by
  cases p with
  | tip i =>
      have h2 := hG.2
      rw [if_neg (by simp)] at h2
      dsimp only [PTree.rootId]
      cases hgl : (bhf i).events.getLast? with
      | none => simp only [hgl] at h2 ⊢; exact h2 (by trivial)
      | some L => simp only [hgl] at h2 ⊢; exact h2
  | node i l r =>
      have h2 := hG.2
      rw [if_neg (by simp)] at h2
      dsimp only [PTree.rootId]
      cases hgl : (bhf i).events.getLast? with
      | none => simp only [hgl] at h2 ⊢; exact h2.1 (by trivial)
      | some L => simp only [hgl] at h2 ⊢; exact h2.1

/-- Replacing a non-root vertex's branch data without changing its last
event, `nodeEvent` or `ancestralNodeEvent` preserves the whole-tree
invariant. -/
theorem goodTree_upd_safe {bhf : Nat → BranchHist} {D : List Nat} {t : PTree}
    (hG : GoodTree bhf D t) (hnd : t.ids.Nodup) (i : Nat) (b : BranchHist)
    (hir : i ≠ t.rootId)
    (hgl : b.events.getLast? = (bhf i).events.getLast?)
    (hne : b.nodeEvent = (bhf i).nodeEvent)
    (hanc : b.ancestralNodeEvent = (bhf i).ancestralNodeEvent) :
    GoodTree (upd bhf i b) D t := by
  cases t with
  | tip j => trivial
  | node j l r =>
      obtain ⟨_, _, hndl, hndr, _⟩ := nodup_node hnd
      have hji : j ≠ i := fun h => hir (h ▸ rfl)
      have hroot : upd bhf i b j = bhf j := upd_other bhf i j b hji
      refine ⟨?_, ?_⟩
      · rw [hroot]
        exact good_upd_safe l bhf true ((bhf j).nodeEvent) D i b hG.1 hndl hgl hne hanc
      · rw [hroot]
        exact good_upd_safe r bhf true ((bhf j).nodeEvent) D i b hG.2 hndr hgl hne hanc

/-- Replacing a dirty non-root vertex's branch data with non-empty data that
keeps the `ancestralNodeEvent` preserves the whole-tree invariant. -/
theorem goodTree_upd_dirty {bhf : Nat → BranchHist} {D : List Nat} {t : PTree}
    (hG : GoodTree bhf D t) (hnd : t.ids.Nodup) (i : Nat) (b : BranchHist)
    (hir : i ≠ t.rootId) (hiD : i ∈ D) (hbne : b.events ≠ [])
    (hanc : b.ancestralNodeEvent = (bhf i).ancestralNodeEvent) :
    GoodTree (upd bhf i b) D t := by
  cases t with
  | tip j => trivial
  | node j l r =>
      obtain ⟨_, _, hndl, hndr, _⟩ := nodup_node hnd
      have hji : j ≠ i := fun h => hir (h ▸ rfl)
      have hroot : upd bhf i b j = bhf j := upd_other bhf i j b hji
      refine ⟨?_, ?_⟩
      · rw [hroot]
        exact good_upd_dirty l bhf true ((bhf j).nodeEvent) D i b hG.1 hndl hiD hbne hanc
      · rw [hroot]
        exact good_upd_dirty r bhf true ((bhf j).nodeEvent) D i b hG.2 hndr hiD hbne hanc

/-- The settled variant of `goodTree_upd_safe`. -/
theorem goodTreeW_upd_safe {bhf : Nat → BranchHist} {D : List Nat} {t : PTree}
    (hG : GoodTreeW bhf D t) (hnd : t.ids.Nodup) (i : Nat) (b : BranchHist)
    (hgl : b.events.getLast? = (bhf i).events.getLast?)
    (hne : b.nodeEvent = (bhf i).nodeEvent)
    (hanc : b.ancestralNodeEvent = (bhf i).ancestralNodeEvent) :
    GoodTreeW (upd bhf i b) D t := by
  cases t with
  | tip j => trivial
  | node j l r =>
      obtain ⟨_, _, hndl, hndr, _⟩ := nodup_node hnd
      exact ⟨good_upd_safe l bhf false 0 D i b hG.1 hndl hgl hne hanc,
        good_upd_safe r bhf false 0 D i b hG.2 hndr hgl hne hanc⟩

/-- The settled variant of `goodTree_upd_dirty`. -/
theorem goodTreeW_upd_dirty {bhf : Nat → BranchHist} {D : List Nat} {t : PTree}
    (hG : GoodTreeW bhf D t) (hnd : t.ids.Nodup) (i : Nat) (b : BranchHist)
    (hiD : i ∈ D) (hbne : b.events ≠ [])
    (hanc : b.ancestralNodeEvent = (bhf i).ancestralNodeEvent) :
    GoodTreeW (upd bhf i b) D t := by
  cases t with
  | tip j => trivial
  | node j l r =>
      obtain ⟨_, _, hndl, hndr, _⟩ := nodup_node hnd
      exact ⟨good_upd_dirty l bhf false 0 D i b hG.1 hndl hiD hbne hanc,
        good_upd_dirty r bhf false 0 D i b hG.2 hndr hiD hbne hanc⟩

/-- Forward setting from any non-root event owned by a tree node preserves
the whole-tree invariant with its dirt list. -/
theorem goodTree_fsbh_any (env : ModelEnv) (st : MState) (x : Nat) (D : List Nat)
    (hnd : env.tree.ids.Nodup) (hxr : x ≠ env.rootEvent)
    (hw : st.evNode x ∈ env.tree.ids) (hwr : st.evNode x ≠ env.tree.rootId)
    (hG : GoodTree st.bh D env.tree) :
    GoodTree (forwardSetBranchHistories env st x).bh D env.tree := by
  by_cases hfire : (st.bh (st.evNode x)).events.getLast? = some x
  · exact goodTree_mono_dirt (fun z hz => (mem_dremove.mp hz).1)
      (goodTree_fsbh_fire env st x D hnd hxr hw hwr hfire hG)
  · rw [fsbh_noop env st x hxr hfire]
    exact hG

/-- The whole-tree governing-event characterization: a non-root vertex's
`ancestralNodeEvent` is the root's `nodeEvent` or the last event of some
other non-root vertex's branch. -/
theorem goodTree_anc_char {bhf : Nat → BranchHist} {t : PTree}
    (hG : GoodTree bhf [] t) (hnd : t.ids.Nodup) (q : Nat) (hq : q ∈ t.ids)
    (hqr : q ≠ t.rootId) :
    (bhf q).ancestralNodeEvent = (bhf t.rootId).nodeEvent ∨
    (∃ m, m ∈ t.ids ∧ m ≠ t.rootId ∧ m ≠ q ∧
      (bhf m).events.getLast? = some ((bhf q).ancestralNodeEvent)) := by
  cases t with
  | tip j => exact absurd (by simpa [PTree.ids] using hq) hqr
  | node j l r =>
      obtain ⟨hjl, hjr, hndl, hndr, hdisj⟩ := nodup_node hnd
      have hqlr : q ∈ l.ids ∨ q ∈ r.ids := by
        simp only [PTree.ids, List.mem_cons, List.mem_append] at hq
        rcases hq with h | h | h
        · exact absurd h hqr
        · exact Or.inl h
        · exact Or.inr h
      rcases hqlr with hql | hqr2
      · rcases good_gov l bhf ((bhf j).nodeEvent) hG.1 hndl q hql with
          ⟨hanc, _⟩ | ⟨m, sub, hm1, hm2, hm3, _, _⟩
        · exact Or.inl hanc
        · have hmmem : m ∈ l.ids := mem_of_findSub hm3
          refine Or.inr ⟨m, ?_, ?_, hm1, hm2⟩
          · simp only [PTree.ids, List.mem_cons, List.mem_append]
            exact Or.inr (Or.inl hmmem)
          · exact fun h => hjl ((show m = j from h) ▸ hmmem)
      · rcases good_gov r bhf ((bhf j).nodeEvent) hG.2 hndr q hqr2 with
          ⟨hanc, _⟩ | ⟨m, sub, hm1, hm2, hm3, _, _⟩
        · exact Or.inl hanc
        · have hmmem : m ∈ r.ids := mem_of_findSub hm3
          refine Or.inr ⟨m, ?_, ?_, hm1, hm2⟩
          · simp only [PTree.ids, List.mem_cons, List.mem_append]
            exact Or.inr (Or.inr hmmem)
          · exact fun h => hjr ((show m = j from h) ▸ hmmem)

/-- Emptying the branch of a non-root vertex: either the vertex was governed
from the root and the tree stays settled, or a nearest shielding vertex `m`
above it keeps the strict invariant with `m` as the only dirt. -/
theorem goodTree_upd_empty {bhf : Nat → BranchHist} {t : PTree}
    (hG : GoodTree bhf [] t) (hnd : t.ids.Nodup) (q : Nat) (b : BranchHist)
    (hq : q ∈ t.ids) (hqr : q ≠ t.rootId) (hb : b.events = []) :
    ((bhf q).ancestralNodeEvent = (bhf t.rootId).nodeEvent ∧
      GoodTreeW (upd bhf q b) [] t) ∨
    (∃ m, m ∈ t.ids ∧ m ≠ t.rootId ∧ m ≠ q ∧
      (bhf m).events.getLast? = some ((bhf q).ancestralNodeEvent) ∧
      GoodTree (upd bhf q b) [m] t) := by
  cases t with
  | tip j => exact absurd (by simpa [PTree.ids] using hq) hqr
  | node j l r =>
      obtain ⟨hjl, hjr, hndl, hndr, hdisj⟩ := nodup_node hnd
      have hjq : j ≠ q := fun h => hqr h.symm
      have hroot : upd bhf q b j = bhf j := upd_other bhf q j b hjq
      have hqlr : q ∈ l.ids ∨ q ∈ r.ids := by
        simp only [PTree.ids, List.mem_cons, List.mem_append] at hq
        rcases hq with h | h | h
        · exact absurd h hqr
        · exact Or.inl h
        · exact Or.inr h
      have hcl : ∀ mo2 A2 D2, q ∉ l.ids → Good bhf mo2 A2 D2 l →
          Good (upd bhf q b) mo2 A2 D2 l :=
        fun mo2 A2 D2 hql hGl => good_congr l bhf _ mo2 A2 D2
          (fun z hz => upd_other bhf q z b (fun h => hql (h ▸ hz))) hGl
      have hcr : ∀ mo2 A2 D2, q ∉ r.ids → Good bhf mo2 A2 D2 r →
          Good (upd bhf q b) mo2 A2 D2 r :=
        fun mo2 A2 D2 hqr3 hGr => good_congr r bhf _ mo2 A2 D2
          (fun z hz => upd_other bhf q z b (fun h => hqr3 (h ▸ hz))) hGr
      rcases hqlr with hql | hqr2
      · have hqnr : q ∉ r.ids := fun h => hdisj q hql h
        rcases good_gov l bhf ((bhf j).nodeEvent) hG.1 hndl q hql with
          ⟨hanc, hsp⟩ | ⟨m, sub, hm1, hm2, hm3, hm4, hm5⟩
        · refine Or.inl ⟨hanc, ?_, ?_⟩
          · exact good_upd_empty l bhf false 0 [] q b
              (good_weaken l bhf true ((bhf j).nodeEvent) 0 [] hG.1) hndl hb
              (Or.inl ⟨rfl, hsp⟩)
          · exact hcr false 0 [] hqnr (good_weaken r bhf true ((bhf j).nodeEvent) 0 [] hG.2)
        · have hmmem : m ∈ l.ids := mem_of_findSub hm3
          have hmne : (bhf m).events ≠ [] := by
            intro h
            rw [List.getLast?_eq_none_iff.mpr h] at hm2
            cases hm2
          refine Or.inr ⟨m, ?_, ?_, hm1, hm2, ?_, ?_⟩
          · simp only [PTree.ids, List.mem_cons, List.mem_append]
            exact Or.inr (Or.inl hmmem)
          · exact fun h => hjl ((show m = j from h) ▸ hmmem)
          · rw [hroot]
            exact good_upd_empty l bhf true ((bhf j).nodeEvent) [m] q b
              (good_mono_dirt l bhf true ((bhf j).nodeEvent) [] [m] (by simp) hG.1) hndl hb
              (Or.inr ⟨m, sub, by simp, hm1, hmne, hm3, hm4, hm5⟩)
          · rw [hroot]
            exact hcr true ((bhf j).nodeEvent) [m] hqnr
              (good_mono_dirt r bhf true ((bhf j).nodeEvent) [] [m] (by simp) hG.2)
      · have hqnl : q ∉ l.ids := fun h => hdisj q h hqr2
        rcases good_gov r bhf ((bhf j).nodeEvent) hG.2 hndr q hqr2 with
          ⟨hanc, hsp⟩ | ⟨m, sub, hm1, hm2, hm3, hm4, hm5⟩
        · refine Or.inl ⟨hanc, ?_, ?_⟩
          · exact hcl false 0 [] hqnl (good_weaken l bhf true ((bhf j).nodeEvent) 0 [] hG.1)
          · exact good_upd_empty r bhf false 0 [] q b
              (good_weaken r bhf true ((bhf j).nodeEvent) 0 [] hG.2) hndr hb
              (Or.inl ⟨rfl, hsp⟩)
        · have hmmem : m ∈ r.ids := mem_of_findSub hm3
          have hmne : (bhf m).events ≠ [] := by
            intro h
            rw [List.getLast?_eq_none_iff.mpr h] at hm2
            cases hm2
          refine Or.inr ⟨m, ?_, ?_, hm1, hm2, ?_, ?_⟩
          · simp only [PTree.ids, List.mem_cons, List.mem_append]
            exact Or.inr (Or.inr hmmem)
          · exact fun h => hjr ((show m = j from h) ▸ hmmem)
          · rw [hroot]
            exact hcl true ((bhf j).nodeEvent) [m] hqnl
              (good_mono_dirt l bhf true ((bhf j).nodeEvent) [] [m] (by simp) hG.1)
          · rw [hroot]
            exact good_upd_empty r bhf true ((bhf j).nodeEvent) [m] q b
              (good_mono_dirt r bhf true ((bhf j).nodeEvent) [] [m] (by simp) hG.2) hndr hb
              (Or.inr ⟨m, sub, by simp, hm1, hmne, hm3, hm4, hm5⟩)

/-- The last element of a non-empty list, with a default. -/
theorem getLastD_mem : ∀ (l : List Nat), l ≠ [] → ∀ (a : Nat), l.getLastD a ∈ l := by
  intro l
  induction l with
  | nil => intro h; exact absurd rfl h
  | cons x xs ih =>
      intro _ a
      rw [List.getLastD_cons]
      cases hxs : xs with
      | nil => subst hxs; simp [List.getLastD]
      | cons y ys =>
          subst hxs
          exact List.mem_cons_of_mem x (ih (by simp) x)

theorem dremove_single (w : Nat) : dremove [w] w = [] := by
  simp [dremove]

theorem dremove_pair (w a : Nat) (h : a ≠ w) : dremove [w, a] w = [a] := by
  simp [dremove, h]

/-- `relocateEvent` never touches the root vertex's branch data when the
event's old and new owning nodes are non-root and the recorded rootward
event is the root event (owned by the root) or an event owned by a non-root
node. -/
theorem relocate_bh_root (env : ModelEnv) (st : MState) (e : Nat) (repos : MState → MState)
    (hnd : env.tree.ids.Nodup)
    (hbh : (repos (popEvent st e)).bh = (popEvent st e).bh)
    (hnodeO : ∀ f, f ≠ e → (repos (popEvent st e)).evNode f = st.evNode f)
    (hn0 : st.evNode e ≠ env.tree.rootId)
    (hn1 : (repos (popEvent st e)).evNode e ≠ env.tree.rootId)
    (hprev : (lastEventBefore (st.bh (st.evNode e)) e = env.rootEvent ∧
        st.evNode env.rootEvent = env.tree.rootId ∧ env.rootEvent ≠ e) ∨
      (lastEventBefore (st.bh (st.evNode e)) e ≠ e ∧
        st.evNode (lastEventBefore (st.bh (st.evNode e)) e) ≠ env.tree.rootId)) :
    (relocateEvent env st e repos).bh env.tree.rootId = st.bh env.tree.rootId := by
  have hpop : (popEvent st e).bh env.tree.rootId = st.bh env.tree.rootId := by
    show (setBH st _ _).bh env.tree.rootId = st.bh env.tree.rootId
    rw [setBH_bh, if_neg (fun h => hn0 h.symm)]
  set st2 := repos (popEvent st e) with hst2def
  set b3 : BranchHist :=
    { st2.bh (st2.evNode e) with
      events := insertByMapTime st2.evMap e ((st2.bh (st2.evNode e)).events) } with hb3def
  set st3 := setBH st2 (st2.evNode e) b3 with hst3def
  set st4 := forwardSetBranchHistories env st3 (lastEventBefore (st.bh (st.evNode e)) e)
    with hst4def
  have hrel : relocateEvent env st e repos = forwardSetBranchHistories env st4 e := rfl
  rw [hrel]
  have h4evNode : st4.evNode = st2.evNode := by
    rw [hst4def]
    exact (fsbh_nonbh env st3 _).1
  have hc5 : st4.evNode e ≠ env.tree.rootId := by rw [h4evNode]; exact hn1
  rw [fsbh_bh_root_frame env st4 e hnd (Or.inr hc5)]
  have hc4 : (lastEventBefore (st.bh (st.evNode e)) e = env.rootEvent ∧
      st3.evNode (lastEventBefore (st.bh (st.evNode e)) e) = env.tree.rootId) ∨
      st3.evNode (lastEventBefore (st.bh (st.evNode e)) e) ≠ env.tree.rootId := by
    rcases hprev with ⟨h1, h2, h3⟩ | ⟨h1, h2⟩
    · left
      refine ⟨h1, ?_⟩
      show st2.evNode _ = _
      rw [h1, hnodeO env.rootEvent h3]
      exact h2
    · right
      show st2.evNode _ ≠ _
      rw [hnodeO _ h1]
      exact h2
  rw [hst4def, fsbh_bh_root_frame env st3 _ hnd hc4]
  rw [hst3def]
  rw [setBH_bh, if_neg (fun h => hn1 h.symm), hbh, hpop]

/-- Relocating a registry event (popping it, repositioning it onto a valid
non-root node, re-inserting it and forward setting from the recorded
rootward event and the event itself) restores the dirt-free whole-tree
propagation invariant. -/
theorem relocate_good (env : ModelEnv) (st : MState) (e : Nat) (repos : MState → MState)
    (henv : EnvWF env) (hwf : WF env st) (he : e ∈ st.registry)
    (hbh : (repos (popEvent st e)).bh = (popEvent st e).bh)
    (hnodeO : ∀ f, f ≠ e → (repos (popEvent st e)).evNode f = st.evNode f)
    (hn1mem : (repos (popEvent st e)).evNode e ∈ env.tree.ids)
    (hn1root : (repos (popEvent st e)).evNode e ≠ env.tree.rootId) :
    GoodTree (relocateEvent env st e repos).bh [] env.tree := by
  obtain ⟨hn0mem, hn0root⟩ := hwf.regNode e he
  have hxr : e ≠ env.rootEvent := fun h => hwf.rootNotReg (h ▸ he)
  have hnd := henv.idsNodup
  have hgood0 := hwf.good
  have hEl : e ∈ (st.bh (st.evNode e)).events := hwf.regMem e he
  have hnd0 : (st.bh (st.evNode e)).events.Nodup := hwf.histNodup (st.evNode e)
  set n0 := st.evNode e with hn0def
  set st2 := repos (popEvent st e) with hst2def
  set n1 := st2.evNode e with hn1def
  set prev := lastEventBefore (st.bh n0) e with hprevdef
  set b1 : BranchHist := { st.bh n0 with events := (st.bh n0).events.erase e } with hb1def
  set b3 : BranchHist :=
    { st2.bh n1 with events := insertByMapTime st2.evMap e ((st2.bh n1).events) } with hb3def
  set st3 := setBH st2 n1 b3 with hst3def
  set st4 := forwardSetBranchHistories env st3 prev with hst4def
  have hrel : relocateEvent env st e repos = forwardSetBranchHistories env st4 e := rfl
  rw [hrel]
  -- basic equations between the staged states
  have hst2bh : st2.bh = upd st.bh n0 b1 := by rw [hbh]; rfl
  have hst3bh2 : st3.bh = upd (upd st.bh n0 b1) n1 b3 := by
    rw [show st3.bh = upd st2.bh n1 b3 from rfl, hst2bh]
  have hb3eq : b3 = { (upd st.bh n0 b1) n1 with
      events := insertByMapTime st2.evMap e (((upd st.bh n0 b1) n1).events) } := by
    rw [hb3def, hst2bh]
  have hb3ev : b3.events = insertByMapTime st2.evMap e (((upd st.bh n0 b1) n1).events) := by
    rw [hb3eq]
  have hb3ne : b3.nodeEvent = ((upd st.bh n0 b1) n1).nodeEvent := by rw [hb3eq]
  have hb3anc : b3.ancestralNodeEvent = ((upd st.bh n0 b1) n1).ancestralNodeEvent := by
    rw [hb3eq]
  have hb3nil : b3.events ≠ [] := by rw [hb3ev]; exact insertByMapTime_ne_nil _ _ _
  have hb1ev : b1.events = (st.bh n0).events.erase e := rfl
  have hb3n1 : st3.bh n1 = b3 := by
    show (setBH st2 n1 b3).bh n1 = b3
    rw [setBH_bh, if_pos rfl]
  have hbh3q : ∀ q, q ≠ n1 → st3.bh q = (upd st.bh n0 b1) q := by
    intro q hq
    show (setBH st2 n1 b3).bh q = _
    rw [setBH_bh, if_neg hq, hst2bh]
  have hev3 : st3.evNode = st2.evNode := rfl
  have hev4 : st4.evNode e = n1 := by
    rw [hst4def, (fsbh_nonbh env st3 prev).1]
    rfl
  have hlists4 : ∀ q, (st4.bh q).events = (st3.bh q).events := by
    intro q
    rw [hst4def]
    exact fsbh_events env st3 prev q
  -- the popped branch
  obtain ⟨lhd, ltl, hsplit, helhd, heltl⟩ := mem_split_nodup hEl hnd0
  have herase : (st.bh n0).events.erase e = lhd ++ ltl := by
    rw [hsplit, List.erase_append_right _ helhd, List.erase_cons_head]
  have hprev_eval : prev = lhd.getLastD ((st.bh n0).ancestralNodeEvent) := by
    rw [hprevdef]
    show lastBeforeAux e (st.bh n0).events _ = _
    rw [hsplit]
    exact lastBeforeAux_spec e lhd ltl _ helhd
  -- no branch of the popped state carries the moved event
  have hmem1 : ∀ q, e ∉ ((upd st.bh n0 b1) q).events := by
    intro q
    by_cases hq : q = n0
    · rw [hq, upd_same]
      intro hc
      exact ((List.Nodup.mem_erase_iff hnd0).mp hc).1 rfl
    · rw [upd_other _ _ _ _ hq]
      intro hc
      exact hq ((hwf.histMem q e hc).1).symm
  have hbasene : (((upd st.bh n0 b1) n1)).events.getLast? ≠ some e := by
    intro hc
    exact hmem1 n1 (List.mem_of_getLast?_eq_some hc)
  -- shared stage-4 and stage-5 steps
  have hstage4root : ∀ D, prev = env.rootEvent → GoodTreeW st3.bh D env.tree →
      GoodTree st4.bh D env.tree := by
    intro D hpr hW
    rw [hst4def, hpr]
    refine goodTree_fsbh_root env st3 D hnd ?_ hW
    show st2.evNode env.rootEvent = env.tree.rootId
    rw [hnodeO _ (fun h => hxr h.symm)]
    exact hwf.rootEvNode
  have hstage4any : ∀ D, prev ∈ st.registry → prev ≠ e → GoodTree st3.bh D env.tree →
      GoodTree st4.bh D env.tree := by
    intro D hpr hpe hG
    rw [hst4def]
    refine goodTree_fsbh_any env st3 prev D hnd (fun h => hwf.rootNotReg (h ▸ hpr)) ?_ ?_ hG
    · show st2.evNode prev ∈ _
      rw [hnodeO _ hpe]
      exact (hwf.regNode prev hpr).1
    · show st2.evNode prev ≠ _
      rw [hnodeO _ hpe]
      exact (hwf.regNode prev hpr).2
  have hstage4fireN : ∀ D w, st3.evNode prev = w → w ∈ env.tree.ids →
      w ≠ env.tree.rootId → prev ≠ env.rootEvent →
      (st3.bh w).events.getLast? = some prev → GoodTree st3.bh D env.tree →
      GoodTree st4.bh (dremove D w) env.tree := by
    intro D w hw hmem hroot hpr hf hG
    rw [hst4def]
    have h := goodTree_fsbh_fire env st3 prev D hnd hpr (by rw [hw]; exact hmem)
      (by rw [hw]; exact hroot) (by rw [hw]; exact hf) hG
    rw [hw] at h
    exact h
  have hfinfire : ∀ D : List Nat,
      (insertByMapTime st2.evMap e (((upd st.bh n0 b1) n1)).events).getLast? = some e →
      GoodTree st4.bh D env.tree →
      GoodTree (forwardSetBranchHistories env st4 e).bh (dremove D n1) env.tree := by
    intro D hgl hG4
    have hfire : (st4.bh (st4.evNode e)).events.getLast? = some e := by
      rw [hev4, hlists4 n1, hb3n1, hb3ev]
      exact hgl
    have h := goodTree_fsbh_fire env st4 e D hnd hxr (by rw [hev4]; exact hn1mem)
      (by rw [hev4]; exact hn1root) hfire hG4
    rw [hev4] at h
    exact h
  have hfinnoop :
      (insertByMapTime st2.evMap e (((upd st.bh n0 b1) n1)).events).getLast? ≠ some e →
      forwardSetBranchHistories env st4 e = st4 := by
    intro hgl
    refine fsbh_noop env st4 e hxr ?_
    rw [hev4, hlists4 n1, hb3n1, hb3ev]
    exact hgl
  by_cases hltl : ltl = []
  · by_cases hlhd : lhd = []
    · -- the popped branch becomes empty
      have hb1nil : b1.events = [] := by
        show (st.bh n0).events.erase e = []
        rw [herase, hltl, hlhd]
        rfl
      have hprevanc : prev = (st.bh n0).ancestralNodeEvent := by
        rw [hprev_eval, hlhd]
        rfl
      rcases goodTree_upd_empty hgood0 hnd n0 b1 hn0mem hn0root hb1nil with
        ⟨hancroot, hW1⟩ | ⟨m, hmmem, hmroot, hmn0, hmlast, hG1⟩
      · -- governed from the root: the propagation from the root event repairs
        have hprevroot : prev = env.rootEvent := by
          rw [hprevanc, hancroot, hwf.rootNe]
        rcases insertByMapTime_getLast_cases st2.evMap e (((upd st.bh n0 b1) n1)).events
          with hglI | hglI
        · have hW3 : GoodTreeW st3.bh [n1] env.tree := by
            rw [hst3bh2]
            exact goodTreeW_upd_dirty (goodTreeW_mono_dirt (by simp) hW1) hnd n1 b3
              (by simp) hb3nil hb3anc
          have hG4 : GoodTree st4.bh [n1] env.tree := hstage4root [n1] hprevroot hW3
          have h := hfinfire [n1] hglI hG4
          rw [dremove_single] at h
          exact h
        · have hW3 : GoodTreeW st3.bh [] env.tree := by
            rw [hst3bh2]
            exact goodTreeW_upd_safe hW1 hnd n1 b3 (by rw [hb3ev]; exact hglI) hb3ne hb3anc
          have hG4 : GoodTree st4.bh [] env.tree := hstage4root [] hprevroot hW3
          rw [hfinnoop (by rw [hglI]; exact hbasene)]
          exact hG4
      · -- shielded by a frontier vertex `m`
        have hprevmem : prev ∈ (st.bh m).events := by
          rw [hprevanc]
          exact List.mem_of_getLast?_eq_some hmlast
        have hprevreg : prev ∈ st.registry := (hwf.histMem m prev hprevmem).2
        have hprevnode : st.evNode prev = m := (hwf.histMem m prev hprevmem).1
        have hprevne : prev ≠ e := by
          intro h
          refine hmn0 ?_
          rw [← hprevnode, h]
        have hprevroot' : prev ≠ env.rootEvent := fun h => hwf.rootNotReg (h ▸ hprevreg)
        have hnode3prev : st3.evNode prev = m := by
          show st2.evNode prev = m
          rw [hnodeO _ hprevne]
          exact hprevnode
        have hmlast' : some ((st.bh n0).ancestralNodeEvent) = some prev := by
          rw [hprevanc]
        by_cases hn1m : n1 = m
        · rcases insertByMapTime_getLast_cases st2.evMap e (((upd st.bh n0 b1) n1)).events
            with hglI | hglI
          · -- the moved event is now the last on `m`'s branch
            have hG3 : GoodTree st3.bh [m] env.tree := by
              rw [hst3bh2]
              exact goodTree_upd_dirty hG1 hnd n1 b3 hn1root (by rw [hn1m]; simp)
                hb3nil hb3anc
            have h4noop : st4 = st3 := by
              rw [hst4def]
              refine fsbh_noop env st3 prev hprevroot' ?_
              rw [hnode3prev, ← hn1m, hb3n1, hb3ev, hglI]
              intro hc
              exact hprevne (Option.some.inj hc).symm
            have hG4 : GoodTree st4.bh [m] env.tree := by rw [h4noop]; exact hG3
            have h := hfinfire [m] hglI hG4
            rw [hn1m, dremove_single] at h
            exact h
          · -- `m`'s own last event is still in place: stage 4 repairs `m`
            have hG3 : GoodTree st3.bh [m] env.tree := by
              rw [hst3bh2]
              exact goodTree_upd_dirty hG1 hnd n1 b3 hn1root (by rw [hn1m]; simp)
                hb3nil hb3anc
            have hn1n0 : n1 ≠ n0 := by rw [hn1m]; exact hmn0
            have hfire4 : (st3.bh m).events.getLast? = some prev := by
              rw [← hn1m, hb3n1, hb3ev, hglI, hn1m,
                upd_other st.bh n0 m b1 (fun h => hmn0 h)]
              rw [hmlast, hprevanc]
            have hG4 : GoodTree st4.bh [] env.tree := by
              have h := hstage4fireN [m] m hnode3prev hmmem hmroot hprevroot' hfire4 hG3
              rw [dremove_single] at h
              exact h
            rw [hfinnoop (by rw [hglI]; exact hbasene)]
            exact hG4
        · have hmn1 : m ≠ n1 := fun h => hn1m h.symm
          have hbhm : (st3.bh m).events.getLast? = some prev := by
            rw [hbh3q m hmn1, upd_other st.bh n0 m b1 (fun h => hmn0 h)]
            rw [hmlast, hprevanc]
          rcases insertByMapTime_getLast_cases st2.evMap e (((upd st.bh n0 b1) n1)).events
            with hglI | hglI
          · have hG3 : GoodTree st3.bh [m, n1] env.tree := by
              rw [hst3bh2]
              exact goodTree_upd_dirty (goodTree_mono_dirt (by simp) hG1) hnd n1 b3
                hn1root (by simp) hb3nil hb3anc
            have hG4 : GoodTree st4.bh [n1] env.tree := by
              have h := hstage4fireN [m, n1] m hnode3prev hmmem hmroot hprevroot' hbhm hG3
              rw [dremove_pair m n1 (fun h => hn1m h)] at h
              exact h
            have h := hfinfire [n1] hglI hG4
            rw [dremove_single] at h
            exact h
          · have hG3 : GoodTree st3.bh [m] env.tree := by
              rw [hst3bh2]
              exact goodTree_upd_safe hG1 hnd n1 b3 hn1root (by rw [hb3ev]; exact hglI)
                hb3ne hb3anc
            have hG4 : GoodTree st4.bh [] env.tree := by
              have h := hstage4fireN [m] m hnode3prev hmmem hmroot hprevroot' hbhm hG3
              rw [dremove_single] at h
              exact h
            rw [hfinnoop (by rw [hglI]; exact hbasene)]
            exact hG4
    · -- the moved event was the last on its branch, others remain
      have hl0 : (st.bh n0).events = lhd ++ [e] := by rw [hsplit, hltl]
      have herase1 : (st.bh n0).events.erase e = lhd := by
        rw [herase, hltl, List.append_nil]
      have hpLmem : prev ∈ lhd := by
        rw [hprev_eval]
        exact getLastD_mem lhd hlhd _
      have hpLl0 : prev ∈ (st.bh n0).events := by
        rw [hl0]
        exact List.mem_append_left _ hpLmem
      have hpLreg : prev ∈ st.registry := (hwf.histMem n0 prev hpLl0).2
      have hpLnode : st.evNode prev = n0 := (hwf.histMem n0 prev hpLl0).1
      have hpLe : prev ≠ e := fun h => helhd (h ▸ hpLmem)
      have hpLroot : prev ≠ env.rootEvent := fun h => hwf.rootNotReg (h ▸ hpLreg)
      have hnode3p : st3.evNode prev = n0 := by
        show st2.evNode prev = n0
        rw [hnodeO _ hpLe]
        exact hpLnode
      have hlhdlast : lhd.getLast? = some prev := by
        rw [hprev_eval, List.getLastD_eq_getLast? _ lhd]
        cases hgl : lhd.getLast? with
        | none => exact absurd (List.getLast?_eq_none_iff.mp hgl) hlhd
        | some x => rfl
      have hb1lhd : b1.events = lhd := by
        show (st.bh n0).events.erase e = lhd
        exact herase1
      have hG1 : GoodTree (upd st.bh n0 b1) [n0] env.tree := by
        refine goodTree_upd_dirty (goodTree_mono_dirt (by simp) hgood0) hnd n0 b1
          hn0root (by simp) ?_ rfl
        rw [hb1lhd]
        exact hlhd
      by_cases hn1n0 : n1 = n0
      · have hbaseA : ((upd st.bh n0 b1) n1).events = lhd := by
          rw [hn1n0, upd_same]
          exact hb1lhd
        rcases insertByMapTime_getLast_cases st2.evMap e (((upd st.bh n0 b1) n1)).events
          with hglI | hglI
        · -- re-inserted as the last event on the same branch
          have hG3 : GoodTree st3.bh [n0] env.tree := by
            rw [hst3bh2]
            exact goodTree_upd_dirty hG1 hnd n1 b3 hn1root (by rw [hn1n0]; simp)
              hb3nil hb3anc
          have h4noop : st4 = st3 := by
            rw [hst4def]
            refine fsbh_noop env st3 prev hpLroot ?_
            rw [hnode3p, ← hn1n0, hb3n1, hb3ev, hglI]
            intro hc
            exact hpLe (Option.some.inj hc).symm
          have hG4 : GoodTree st4.bh [n0] env.tree := by rw [h4noop]; exact hG3
          have h := hfinfire [n0] hglI hG4
          rw [hn1n0, dremove_single] at h
          exact h
        · -- re-inserted rootward of the branch's previous last event
          have hG3 : GoodTree st3.bh [n0] env.tree := by
            rw [hst3bh2]
            exact goodTree_upd_dirty hG1 hnd n1 b3 hn1root (by rw [hn1n0]; simp)
              hb3nil hb3anc
          have hfire4 : (st3.bh n0).events.getLast? = some prev := by
            rw [← hn1n0, hb3n1, hb3ev, hglI, hbaseA]
            exact hlhdlast
          have hG4 : GoodTree st4.bh [] env.tree := by
            have h := hstage4fireN [n0] n0 hnode3p hn0mem hn0root hpLroot hfire4 hG3
            rw [dremove_single] at h
            exact h
          rw [hfinnoop (by rw [hglI]; exact hbasene)]
          exact hG4
      · have hbaseB : ((upd st.bh n0 b1) n1).events = (st.bh n1).events := by
          rw [upd_other _ _ _ _ hn1n0]
        have hfire4 : (st3.bh n0).events.getLast? = some prev := by
          rw [hbh3q n0 (fun h => hn1n0 h.symm), upd_same, hb1lhd]
          exact hlhdlast
        rcases insertByMapTime_getLast_cases st2.evMap e (((upd st.bh n0 b1) n1)).events
          with hglI | hglI
        · have hG3 : GoodTree st3.bh [n0, n1] env.tree := by
            rw [hst3bh2]
            exact goodTree_upd_dirty (goodTree_mono_dirt (by simp) hG1) hnd n1 b3
              hn1root (by simp) hb3nil hb3anc
          have hG4 : GoodTree st4.bh [n1] env.tree := by
            have h := hstage4fireN [n0, n1] n0 hnode3p hn0mem hn0root hpLroot hfire4 hG3
            rw [dremove_pair n0 n1 hn1n0] at h
            exact h
          have h := hfinfire [n1] hglI hG4
          rw [dremove_single] at h
          exact h
        · have hG3 : GoodTree st3.bh [n0] env.tree := by
            rw [hst3bh2]
            exact goodTree_upd_safe hG1 hnd n1 b3 hn1root (by rw [hb3ev]; exact hglI)
              hb3ne hb3anc
          have hG4 : GoodTree st4.bh [] env.tree := by
            have h := hstage4fireN [n0] n0 hnode3p hn0mem hn0root hpLroot hfire4 hG3
            rw [dremove_single] at h
            exact h
          rw [hfinnoop (by rw [hglI]; exact hbasene)]
          exact hG4
  · -- a more tipward event remains: the pop is invisible to the invariant
    have hglerase : ((st.bh n0).events.erase e).getLast? = (st.bh n0).events.getLast? := by
      rw [herase, hsplit, List.getLast?_append_of_ne_nil lhd hltl,
        List.getLast?_append_of_ne_nil lhd (by simp : (e :: ltl) ≠ []),
        show e :: ltl = [e] ++ ltl from rfl, List.getLast?_append_of_ne_nil [e] hltl]
    have hG1 : GoodTree (upd st.bh n0 b1) [] env.tree :=
      goodTree_upd_safe hgood0 hnd n0 b1 hn0root (by rw [hb1ev]; exact hglerase) rfl rfl
    have hprevcase : (prev = env.rootEvent) ∨ (prev ∈ st.registry ∧ prev ≠ e) := by
      cases hlhd2 : lhd with
      | nil =>
          have hpa : prev = (st.bh n0).ancestralNodeEvent := by
            rw [hprev_eval, hlhd2]
            rfl
          rcases goodTree_anc_char hgood0 hnd n0 hn0mem hn0root with
            hroot | ⟨m, _, _, hm3, hm4⟩
          · left
            rw [hpa, hroot, hwf.rootNe]
          · right
            have hmem : prev ∈ (st.bh m).events := by
              rw [hpa]
              exact List.mem_of_getLast?_eq_some hm4
            refine ⟨(hwf.histMem m prev hmem).2, ?_⟩
            intro h
            refine hm3 ?_
            rw [← (hwf.histMem m prev hmem).1, h]
      | cons a as =>
          right
          have hpl : prev ∈ lhd := by
            rw [hprev_eval]
            exact getLastD_mem lhd (by rw [hlhd2]; simp) _
          have hpl0 : prev ∈ (st.bh n0).events := by
            rw [hsplit]
            exact List.mem_append_left _ hpl
          exact ⟨(hwf.histMem n0 prev hpl0).2, fun h => helhd (h ▸ hpl)⟩
    rcases insertByMapTime_getLast_cases st2.evMap e (((upd st.bh n0 b1) n1)).events
      with hglI | hglI
    · have hG3 : GoodTree st3.bh [n1] env.tree := by
        rw [hst3bh2]
        exact goodTree_upd_dirty (goodTree_mono_dirt (by simp) hG1) hnd n1 b3 hn1root
          (by simp) hb3nil hb3anc
      have hG4 : GoodTree st4.bh [n1] env.tree := by
        rcases hprevcase with hpr | ⟨hpr, hpe⟩
        · exact hstage4root [n1] hpr (goodTreeW_of_goodTree hG3)
        · exact hstage4any [n1] hpr hpe hG3
      have h := hfinfire [n1] hglI hG4
      rw [dremove_single] at h
      exact h
    · have hG3 : GoodTree st3.bh [] env.tree := by
        rw [hst3bh2]
        exact goodTree_upd_safe hG1 hnd n1 b3 hn1root (by rw [hb3ev]; exact hglI)
          hb3ne hb3anc
      have hG4 : GoodTree st4.bh [] env.tree := by
        rcases hprevcase with hpr | ⟨hpr, hpe⟩
        · exact hstage4root [] hpr (goodTreeW_of_goodTree hG3)
        · exact hstage4any [] hpr hpe hG3
      rw [hfinnoop (by rw [hglI]; exact hbasene)]
      exact hG4

/-- The event immediately rootward of a registry event is the root event
(owned by the root) or a registry event owned by a non-root node. -/
theorem previous_char (env : ModelEnv) (st : MState) (e : Nat)
    (henv : EnvWF env) (hwf : WF env st) (he : e ∈ st.registry) :
    (lastEventBefore (st.bh (st.evNode e)) e = env.rootEvent ∧
       st.evNode env.rootEvent = env.tree.rootId ∧ env.rootEvent ≠ e) ∨
    (lastEventBefore (st.bh (st.evNode e)) e ≠ e ∧
       st.evNode (lastEventBefore (st.bh (st.evNode e)) e) ≠ env.tree.rootId ∧
       lastEventBefore (st.bh (st.evNode e)) e ∈ st.registry) := by
  obtain ⟨hn0mem, hn0root⟩ := hwf.regNode e he
  have hEl : e ∈ (st.bh (st.evNode e)).events := hwf.regMem e he
  have hnd0 : (st.bh (st.evNode e)).events.Nodup := hwf.histNodup (st.evNode e)
  obtain ⟨lhd, ltl, hsplit, helhd, _⟩ := mem_split_nodup hEl hnd0
  have hprev_eval : lastEventBefore (st.bh (st.evNode e)) e =
      lhd.getLastD ((st.bh (st.evNode e)).ancestralNodeEvent) := by
    show lastBeforeAux e (st.bh (st.evNode e)).events _ = _
    rw [hsplit]
    exact lastBeforeAux_spec e lhd ltl _ helhd
  cases hlhd2 : lhd with
  | nil =>
      have hpa : lastEventBefore (st.bh (st.evNode e)) e =
          (st.bh (st.evNode e)).ancestralNodeEvent := by
        rw [hprev_eval, hlhd2]
        rfl
      rcases goodTree_anc_char hwf.good henv.idsNodup (st.evNode e) hn0mem hn0root with
        hroot | ⟨m, _, hm2, hm3, hm4⟩
      · left
        refine ⟨?_, hwf.rootEvNode, fun h => hwf.rootNotReg (h.symm ▸ he)⟩
        rw [hpa, hroot, hwf.rootNe]
      · right
        have hmem : lastEventBefore (st.bh (st.evNode e)) e ∈ (st.bh m).events := by
          rw [hpa]
          exact List.mem_of_getLast?_eq_some hm4
        have hnodem := (hwf.histMem m _ hmem).1
        refine ⟨?_, ?_, (hwf.histMem m _ hmem).2⟩
        · intro h
          refine hm3 ?_
          rw [← hnodem, h]
        · rw [hnodem]
          exact hm2
  | cons a as =>
      right
      have hpl : lastEventBefore (st.bh (st.evNode e)) e ∈ lhd := by
        rw [hprev_eval]
        exact getLastD_mem lhd (by rw [hlhd2]; simp) _
      have hpl0 : lastEventBefore (st.bh (st.evNode e)) e ∈ (st.bh (st.evNode e)).events := by
        rw [hsplit]
        exact List.mem_append_left _ hpl
      refine ⟨fun h => helhd (h ▸ hpl), ?_, (hwf.histMem _ _ hpl0).2⟩
      rw [(hwf.histMem _ _ hpl0).1]
      exact hn0root

/-- Relocating a registry event onto a valid non-root node preserves the
full model-state invariant. -/
theorem wf_relocate (env : ModelEnv) (st : MState) (e : Nat) (repos : MState → MState)
    (henv : EnvWF env) (hwf : WF env st) (he : e ∈ st.registry)
    (hbh : (repos (popEvent st e)).bh = (popEvent st e).bh)
    (hnodeO : ∀ f, f ≠ e → (repos (popEvent st e)).evNode f = st.evNode f)
    (hmapO : ∀ f, f ≠ e → (repos (popEvent st e)).evMap f = st.evMap f)
    (hn1mem : (repos (popEvent st e)).evNode e ∈ env.tree.ids)
    (hn1root : (repos (popEvent st e)).evNode e ≠ env.tree.rootId)
    (hprevP : ∀ f ∈ st.registry, (repos (popEvent st e)).evPrevNode f ∈ env.tree.ids ∧
      (repos (popEvent st e)).evPrevNode f ≠ env.tree.rootId)
    (hregP : (repos (popEvent st e)).registry = st.registry)
    (hnextP : (repos (popEvent st e)).nextId = st.nextId)
    (hlemP : (repos (popEvent st e)).lastEventModified = st.lastEventModified) :
    WF env (relocateEvent env st e repos) := by
  obtain ⟨hn0mem, hn0root⟩ := hwf.regNode e he
  have hxr : e ≠ env.rootEvent := fun h => hwf.rootNotReg (h ▸ he)
  have hnd := henv.idsNodup
  have hnb := relocate_nonbh env st e repos
  have hlists := relocate_events env st e repos hbh
  have hprevchar := previous_char env st e henv hwf he
  have hroot5 : (relocateEvent env st e repos).bh env.tree.rootId = st.bh env.tree.rootId := by
    refine relocate_bh_root env st e repos hnd hbh hnodeO hn0root hn1root ?_
    rcases hprevchar with ⟨h1, h2, h3⟩ | ⟨h1, h2, _⟩
    · exact Or.inl ⟨h1, h2, h3⟩
    · exact Or.inr ⟨h1, h2⟩
  have hpopq : ∀ q, ((popEvent st e).bh q).events =
      if q = st.evNode e then (st.bh (st.evNode e)).events.erase e else (st.bh q).events := by
    intro q
    show ((setBH st (st.evNode e) _).bh q).events = _
    rw [setBH_bh]
    by_cases hq : q = st.evNode e
    · rw [if_pos hq, if_pos hq]
    · rw [if_neg hq, if_neg hq]
  have hmem1 : ∀ q, e ∉ ((popEvent st e).bh q).events := by
    intro q
    rw [hpopq q]
    by_cases hq : q = st.evNode e
    · rw [if_pos hq]
      intro hc
      exact ((List.Nodup.mem_erase_iff (hwf.histNodup (st.evNode e))).mp hc).1 rfl
    · rw [if_neg hq]
      intro hc
      exact hq ((hwf.histMem q e hc).1).symm
  have hpopmem : ∀ f q, f ≠ e →
      (f ∈ ((popEvent st e).bh q).events ↔ f ∈ (st.bh q).events) := by
    intro f q hf
    rw [hpopq q]
    by_cases hq : q = st.evNode e
    · rw [if_pos hq, hq]
      exact List.mem_erase_of_ne hf
    · rw [if_neg hq]
  have hpopsorted : ∀ q, ((popEvent st e).bh q).events.Pairwise
      (fun a b => (repos (popEvent st e)).evMap a ≤ (repos (popEvent st e)).evMap b) := by
    intro q
    have hsub : ((popEvent st e).bh q).events.Pairwise
        (fun a b => st.evMap a ≤ st.evMap b) := by
      rw [hpopq q]
      by_cases hq : q = st.evNode e
      · rw [if_pos hq]
        exact (hwf.histSorted (st.evNode e)).sublist (List.erase_sublist _ _)
      · rw [if_neg hq]
        exact hwf.histSorted q
    exact pairwise_map_congr _ _ _
      (fun f hf => (hmapO f (fun h => hmem1 q (h ▸ hf))).symm) hsub
  have hpopnodup : ∀ q, ((popEvent st e).bh q).events.Nodup := by
    intro q
    rw [hpopq q]
    by_cases hq : q = st.evNode e
    · rw [if_pos hq]
      exact (hwf.histNodup (st.evNode e)).erase e
    · rw [if_neg hq]
      exact hwf.histNodup q
  refine ⟨?_, ?_, ?_, ?_, ?_, ?_, ?_, ?_, ?_, ?_, ?_, ?_, ?_, ?_, ?_⟩
  · rw [hroot5]
    exact hwf.rootEmpty
  · rw [hroot5]
    exact hwf.rootNe
  · rw [hnb.1, hnodeO env.rootEvent (fun h => hxr h.symm)]
    exact hwf.rootEvNode
  · rw [hnb.2.2.2.2.2.1, hnextP]
    exact hwf.rootLt
  · rw [hnb.2.2.2.2.1, hregP]
    exact hwf.rootNotReg
  · rw [hnb.2.2.2.2.1, hregP]
    exact hwf.regNodup
  · rw [hnb.2.2.2.2.1, hregP, hnb.2.2.2.2.2.1, hnextP]
    exact hwf.regLt
  · rw [hnb.2.2.2.2.1, hregP]
    intro f hf
    rw [hnb.1]
    by_cases hfe : f = e
    · rw [hfe]
      exact ⟨hn1mem, hn1root⟩
    · rw [hnodeO f hfe]
      exact hwf.regNode f hf
  · rw [hnb.2.2.2.2.1, hregP]
    intro f hf
    rw [hnb.2.2.1]
    exact hprevP f hf
  · rw [hnb.2.2.2.2.1, hregP]
    intro f hf
    rw [hnb.1, hlists]
    by_cases hfe : f = e
    · rw [hfe, if_pos rfl]
      exact (insertByMapTime_mem _ _ _ _).mpr (Or.inl rfl)
    · rw [hnodeO f hfe]
      by_cases hq : st.evNode f = (repos (popEvent st e)).evNode e
      · rw [if_pos hq]
        refine (insertByMapTime_mem _ _ _ _).mpr (Or.inr ?_)
        rw [hpopmem f _ hfe]
        exact hwf.regMem f hf
      · rw [if_neg hq, hpopmem f _ hfe]
        exact hwf.regMem f hf
  · intro q f hf
    rw [hlists q] at hf
    rw [hnb.1, hnb.2.2.2.2.1, hregP]
    by_cases hq : q = (repos (popEvent st e)).evNode e
    · rw [if_pos hq] at hf
      rcases (insertByMapTime_mem _ _ _ _).mp hf with rfl | hf2
      · exact ⟨hq.symm, he⟩
      · have hfe : f ≠ e := fun h => hmem1 q (h ▸ hf2)
        have hst : f ∈ (st.bh q).events := (hpopmem f q hfe).mp hf2
        rw [hnodeO f hfe]
        exact hwf.histMem q f hst
    · rw [if_neg hq] at hf
      have hfe : f ≠ e := fun h => hmem1 q (h ▸ hf)
      have hst : f ∈ (st.bh q).events := (hpopmem f q hfe).mp hf
      rw [hnodeO f hfe]
      exact hwf.histMem q f hst
  · intro q
    rw [hnb.2.1, hlists q]
    by_cases hq : q = (repos (popEvent st e)).evNode e
    · rw [if_pos hq]
      exact insertByMapTime_sorted _ _ _ (hpopsorted q)
    · rw [if_neg hq]
      exact hpopsorted q
  · intro q
    rw [hlists q]
    by_cases hq : q = (repos (popEvent st e)).evNode e
    · rw [if_pos hq]
      exact insertByMapTime_nodup _ _ _ (hpopnodup q) (hmem1 q)
    · rw [if_neg hq]
      exact hpopnodup q
  · intro le hle
    rw [hnb.2.2.2.2.2.2, hlemP] at hle
    rw [hnb.2.2.2.2.1, hregP]
    exact hwf.lemReg le hle
  · exact relocate_good env st e repos henv hwf he hbh hnodeO hn1mem hn1root

/-- The model-state invariant only reads the branch histories, the owning
nodes, the map times, the saved previous nodes, the registry, the id
allocator and the last-modified event. -/
theorem wf_congr (env : ModelEnv) {st st2 : MState} (h : WF env st)
    (hbh : st2.bh = st.bh) (hevN : st2.evNode = st.evNode) (hevM : st2.evMap = st.evMap)
    (hevPN : st2.evPrevNode = st.evPrevNode) (hreg : st2.registry = st.registry)
    (hnext : st2.nextId = st.nextId)
    (hlem : ∀ x, st2.lastEventModified = some x → x ∈ st.registry) :
    WF env st2 := by
  refine ⟨?_, ?_, ?_, ?_, ?_, ?_, ?_, ?_, ?_, ?_, ?_, ?_, ?_, ?_, ?_⟩
  · rw [hbh]; exact h.rootEmpty
  · rw [hbh]; exact h.rootNe
  · rw [hevN]; exact h.rootEvNode
  · rw [hnext]; exact h.rootLt
  · rw [hreg]; exact h.rootNotReg
  · rw [hreg]; exact h.regNodup
  · rw [hreg, hnext]; exact h.regLt
  · rw [hreg, hevN]; exact h.regNode
  · rw [hreg, hevPN]; exact h.regPrevNode
  · rw [hreg, hevN, hbh]; exact h.regMem
  · rw [hbh, hevN, hreg]; exact h.histMem
  · rw [hbh, hevM]; exact h.histSorted
  · rw [hbh]; exact h.histNodup
  · intro le hle
    rw [hreg]
    exact hlem le hle
  · rw [hbh]; exact h.good

/-- A successful event choice returns a registry element. -/
theorem chooseEvent_mem {st : MState} {u : ℚ} {f : Nat}
    (h : chooseEventAtRandom st u = some f) : f ∈ st.registry := by
  unfold chooseEventAtRandom at h
  dsimp only at h
  split at h
  · cases h
  · exact List.get?_mem h

/-- The empty-forest branch data satisfies the strict invariant with its own
event as the boundary. -/
theorem good_const (A : Nat) : ∀ p : PTree,
    Good (fun _ => ⟨[], A, A⟩ : Nat → BranchHist) true A [] p := by
  intro p
  induction p with
  | tip i =>
      refine ⟨fun _ => rfl, ?_⟩
      rw [if_neg (by simp)]
      exact fun _ => rfl
  | node i l r ihl ihr =>
      refine ⟨fun _ => rfl, ?_⟩
      rw [if_neg (by simp)]
      exact ⟨fun _ => rfl, ihl, ihr⟩

/-- The freshly constructed model state satisfies the invariant. -/
theorem wf_initial (env : ModelEnv) : WF env (initialModelState env) := by
  refine ⟨rfl, rfl, rfl, Nat.lt_succ_self _, ?_, List.nodup_nil, ?_, ?_, ?_, ?_, ?_, ?_, ?_,
    ?_, ?_⟩
  · intro h
    simp [initialModelState] at h
  · intro f hf
    simp [initialModelState] at hf
  · intro f hf
    simp [initialModelState] at hf
  · intro f hf
    simp [initialModelState] at hf
  · intro f hf
    simp [initialModelState] at hf
  · intro q f hf
    simp [initialModelState] at hf
  · intro q
    exact List.Pairwise.nil
  · intro q
    exact List.nodup_nil
  · intro le hle
    cases hle
  · show GoodTree (fun _ => ⟨[], env.rootEvent, env.rootEvent⟩) [] env.tree
    cases env.tree with
    | tip i => trivial
    | node i l r => exact ⟨good_const env.rootEvent l, good_const env.rootEvent r⟩

/-- The registry after inserting a fresh event. -/
theorem insertNew_registry (env : ModelEnv) (st : MState) (n : Nat) (t : ℚ) (params : Nat) :
    (insertNewEvent env st n t params).registry = st.registry ++ [st.nextId] := by
  unfold insertNewEvent
  dsimp only
  rw [(fsbh_nonbh _ _ _).2.2.2.2.2.1]
  rfl

/-- Inserting a fresh event on a valid non-root node preserves the model
invariant. -/
theorem wf_insertNew (env : ModelEnv) (st : MState) (n : Nat) (t : ℚ) (params : Nat)
    (henv : EnvWF env) (hwf : WF env st)
    (hn : n ∈ env.tree.ids) (hnr : n ≠ env.tree.rootId) :
    WF env (insertNewEvent env st n t params) := by
  have hnd := henv.idsNodup
  have hfrootne : st.nextId ≠ env.rootEvent := by
    have := hwf.rootLt
    omega
  have hfreg : st.nextId ∉ st.registry := fun h => lt_irrefl _ (hwf.regLt _ h)
  have hfhist : ∀ q, st.nextId ∉ (st.bh q).events := fun q h => hfreg (hwf.histMem q _ h).2
  set st1 : MState := { st with
    evNode := upd st.evNode st.nextId n, evMap := upd st.evMap st.nextId t,
    evPrevNode := upd st.evPrevNode st.nextId n, evPrevMap := upd st.evPrevMap st.nextId t,
    evParams := upd st.evParams st.nextId params, nextId := st.nextId + 1 } with hst1def
  set bIns : BranchHist := { st.bh n with
    events := insertByMapTime (upd st.evMap st.nextId t) st.nextId (st.bh n).events }
    with hbInsdef
  set st2 := setBH st1 n bIns with hst2def
  set st3 : MState := { st2 with registry := st2.registry ++ [st.nextId] } with hst3def
  have hrel : insertNewEvent env st n t params =
      forwardSetBranchHistories env st3 st.nextId := rfl
  rw [hrel]
  have hbh3 : ∀ q, st3.bh q = if q = n then bIns else st.bh q := by
    intro q
    show (setBH st1 n bIns).bh q = _
    rw [setBH_bh]
  have hbh3f : st3.bh = upd st.bh n bIns := by
    funext q
    rw [hbh3 q]
    rfl
  have hev3N : st3.evNode = upd st.evNode st.nextId n := rfl
  have hev3M : st3.evMap = upd st.evMap st.nextId t := rfl
  have hev3PN : st3.evPrevNode = upd st.evPrevNode st.nextId n := rfl
  have hreg3 : st3.registry = st.registry ++ [st.nextId] := rfl
  have hnid3 : st3.evNode st.nextId = n := by rw [hev3N]; exact upd_same _ _ _
  have hc : st3.evNode st.nextId ≠ env.tree.rootId := by rw [hnid3]; exact hnr
  have hresnb := fsbh_nonbh env st3 st.nextId
  have hresbh : ∀ q, ((forwardSetBranchHistories env st3 st.nextId).bh q).events =
      (st3.bh q).events := fun q => fsbh_events env st3 st.nextId q
  have hrootbh : (forwardSetBranchHistories env st3 st.nextId).bh env.tree.rootId =
      st.bh env.tree.rootId := by
    rw [fsbh_bh_root_frame env st3 st.nextId hnd (Or.inr hc)]
    rw [hbh3, if_neg (fun h => hnr h.symm)]
  have hbInsev : bIns.events =
      insertByMapTime (upd st.evMap st.nextId t) st.nextId (st.bh n).events := rfl
  have hmemIns : ∀ f, f ∈ bIns.events ↔ f = st.nextId ∨ f ∈ (st.bh n).events := by
    intro f
    rw [hbInsev]
    exact insertByMapTime_mem _ _ _ _
  have hgood : GoodTree (forwardSetBranchHistories env st3 st.nextId).bh [] env.tree := by
    by_cases hfire : bIns.events.getLast? = some st.nextId
    · have hG3 : GoodTree st3.bh [n] env.tree := by
        rw [hbh3f]
        refine goodTree_upd_dirty (goodTree_mono_dirt (by simp) hwf.good) hnd n bIns hnr
          (by simp) ?_ rfl
        rw [hbInsev]
        exact insertByMapTime_ne_nil _ _ _
      have hfirecond : (st3.bh (st3.evNode st.nextId)).events.getLast? = some st.nextId := by
        rw [hnid3, hbh3 n, if_pos rfl]
        exact hfire
      have h := goodTree_fsbh_fire env st3 st.nextId [n] hnd hfrootne
        (by rw [hnid3]; exact hn) hc hfirecond hG3
      rw [hnid3, dremove_single] at h
      exact h
    · rcases insertByMapTime_getLast_cases (upd st.evMap st.nextId t) st.nextId
        (st.bh n).events with hgl | hgl
      · exact absurd (hbInsev ▸ hgl : bIns.events.getLast? = some st.nextId) hfire
      · have hG3 : GoodTree st3.bh [] env.tree := by
          rw [hbh3f]
          refine goodTree_upd_safe hwf.good hnd n bIns hnr ?_ rfl rfl
          rw [hbInsev]
          exact hgl
        have hnl : (st3.bh (st3.evNode st.nextId)).events.getLast? ≠ some st.nextId := by
          rw [hnid3, hbh3 n, if_pos rfl]
          exact hfire
        rw [fsbh_noop env st3 st.nextId hfrootne hnl]
        exact hG3
  refine ⟨?_, ?_, ?_, ?_, ?_, ?_, ?_, ?_, ?_, ?_, ?_, ?_, ?_, ?_, hgood⟩
  · rw [hrootbh]
    exact hwf.rootEmpty
  · rw [hrootbh]
    exact hwf.rootNe
  · rw [hresnb.1, hev3N, upd_other _ _ _ _ (fun h => hfrootne h.symm)]
    exact hwf.rootEvNode
  · rw [hresnb.2.2.2.2.2.2.1]
    show env.rootEvent < st.nextId + 1
    have := hwf.rootLt
    omega
  · rw [hresnb.2.2.2.2.2.1, hreg3]
    intro hcon
    rcases List.mem_append.mp hcon with h | h
    · exact hwf.rootNotReg h
    · simp at h
      exact hfrootne h.symm
  · rw [hresnb.2.2.2.2.2.1, hreg3]
    refine hwf.regNodup.append (List.nodup_singleton _) ?_
    intro a ha hb
    simp at hb
    rw [hb] at ha
    exact hfreg ha
  · rw [hresnb.2.2.2.2.2.1, hreg3, hresnb.2.2.2.2.2.2.1]
    intro f hf
    show f < st.nextId + 1
    rcases List.mem_append.mp hf with h | h
    · have := hwf.regLt f h
      omega
    · simp at h
      omega
  · rw [hresnb.2.2.2.2.2.1, hreg3, hresnb.1, hev3N]
    intro f hf
    by_cases hfe : f = st.nextId
    · rw [hfe, upd_same]
      exact ⟨hn, hnr⟩
    · rw [upd_other _ _ _ _ hfe]
      rcases List.mem_append.mp hf with h | h
      · exact hwf.regNode f h
      · simp at h
        exact absurd h hfe
  · rw [hresnb.2.2.2.2.2.1, hreg3, hresnb.2.2.1, hev3PN]
    intro f hf
    by_cases hfe : f = st.nextId
    · rw [hfe, upd_same]
      exact ⟨hn, hnr⟩
    · rw [upd_other _ _ _ _ hfe]
      rcases List.mem_append.mp hf with h | h
      · exact hwf.regPrevNode f h
      · simp at h
        exact absurd h hfe
  · rw [hresnb.2.2.2.2.2.1, hreg3, hresnb.1, hev3N]
    intro f hf
    rw [hresbh]
    by_cases hfe : f = st.nextId
    · rw [hfe, upd_same, hbh3 n, if_pos rfl]
      exact (hmemIns _).mpr (Or.inl rfl)
    · rw [upd_other _ _ _ _ hfe]
      have hold : f ∈ st.registry := by
        rcases List.mem_append.mp hf with h | h
        · exact h
        · simp at h
          exact absurd h hfe
      rw [hbh3]
      by_cases hq : st.evNode f = n
      · rw [if_pos hq]
        refine (hmemIns _).mpr (Or.inr ?_)
        rw [← hq]
        exact hwf.regMem f hold
      · rw [if_neg hq]
        exact hwf.regMem f hold
  · intro q f hf
    rw [hresbh, hbh3] at hf
    rw [hresnb.1, hev3N, hresnb.2.2.2.2.2.1, hreg3]
    by_cases hq : q = n
    · rw [if_pos hq] at hf
      rcases (hmemIns _).mp hf with rfl | hf2
      · rw [upd_same]
        exact ⟨hq.symm, List.mem_append_right _ (by simp)⟩
      · have hfe : f ≠ st.nextId := fun h => hfhist n (h ▸ hf2)
        rw [upd_other _ _ _ _ hfe]
        obtain ⟨h1, h2⟩ := hwf.histMem n f hf2
        exact ⟨by rw [h1, hq], List.mem_append_left _ h2⟩
    · rw [if_neg hq] at hf
      have hfe : f ≠ st.nextId := fun h => hfhist q (h ▸ hf)
      rw [upd_other _ _ _ _ hfe]
      obtain ⟨h1, h2⟩ := hwf.histMem q f hf
      exact ⟨h1, List.mem_append_left _ h2⟩
  · intro q
    rw [hresnb.2.1, hev3M, hresbh, hbh3]
    by_cases hq : q = n
    · rw [if_pos hq, hbInsev]
      refine insertByMapTime_sorted _ _ _ ?_
      refine pairwise_map_congr st.evMap _ _ ?_ (hwf.histSorted n)
      intro f hf
      rw [upd_other _ _ _ _ (fun h => hfhist n (by rw [← h]; exact hf))]
    · rw [if_neg hq]
      refine pairwise_map_congr st.evMap _ _ ?_ (hwf.histSorted q)
      intro f hf
      rw [upd_other _ _ _ _ (fun h => hfhist q (by rw [← h]; exact hf))]
  · intro q
    rw [hresbh, hbh3]
    by_cases hq : q = n
    · rw [if_pos hq, hbInsev]
      exact insertByMapTime_nodup _ _ _ (hwf.histNodup n) (hfhist n)
    · rw [if_neg hq]
      exact hwf.histNodup q
  · intro le hle
    rw [hresnb.2.2.2.2.2.2.2.1] at hle
    rw [hresnb.2.2.2.2.2.1, hreg3]
    exact List.mem_append_left _ (hwf.lemReg le hle)

/-- Model::addEventToTree(double x) preserves the invariant. -/
theorem wf_addEventToTreeAt (env : ModelEnv) (st : MState) (x : ℚ) (params : Nat)
    (henv : EnvWF env) (hwf : WF env st) :
    WF env (addEventToTreeAt env st x params) := by
  have hwfI := wf_insertNew env st (env.locate x) x params henv hwf
    (henv.locateMem x) (henv.locateNonRoot x)
  unfold addEventToTreeAt
  dsimp only
  refine wf_congr env hwfI rfl rfl rfl rfl rfl rfl ?_
  intro y hy
  have hyv : some st.nextId = some y := hy
  rw [insertNew_registry, ← Option.some.inj hyv]
  exact List.mem_append_right _ (by simp)

/-- Model::addEventToTree() preserves the invariant. -/
theorem wf_addEventToTree (env : ModelEnv) (st : MState) (r : RngS)
    (henv : EnvWF env) (hwf : WF env st) :
    WF env (addEventToTree env st r).1 := by
  unfold addEventToTree
  dsimp only [rngDrawRange, rngDraw]
  exact wf_addEventToTreeAt env st _ _ henv hwf

/-- An initializer record resolving to a tree node preserves the
invariant. -/
theorem wf_processEventRecord (env : ModelEnv) (st : MState) (x : Nat) (eTime : ℚ)
    (params : Nat) (henv : EnvWF env) (hwf : WF env st) (hx : x ∈ env.tree.ids) :
    WF env (processEventRecord env st x eTime params) := by
  unfold processEventRecord
  by_cases hroot : x = env.tree.rootId
  · rw [if_pos hroot]
    exact wf_congr env hwf rfl rfl rfl rfl rfl rfl (fun y hy => hwf.lemReg y hy)
  · rw [if_neg hroot]
    dsimp only
    have W := wf_insertNew env st x (env.nodeMapStart x + (env.nodeTime x - eTime)) params
      henv hwf hx hroot
    exact wf_congr env W rfl rfl rfl rfl rfl rfl (fun y hy => W.lemReg y hy)

/-- The relocation performed by `eventMove` (reposition via
`eventSetPosition`) preserves the invariant. -/
theorem wf_moveRelocate (env : ModelEnv) (st : MState) (f : Nat) (newMap : ℚ)
    (henv : EnvWF env) (hwf : WF env st) (hf : f ∈ st.registry) :
    WF env (relocateEvent env st f (fun s => eventSetPosition env s f newMap)) := by
  refine wf_relocate env st f _ henv hwf hf rfl ?_ ?_ ?_ ?_ ?_ rfl rfl rfl
  · intro g hg
    exact upd_other _ f g _ hg
  · intro g hg
    exact upd_other _ f g _ hg
  · show upd (popEvent st f).evNode f (env.locate newMap) f ∈ _
    rw [upd_same]
    exact henv.locateMem newMap
  · show upd (popEvent st f).evNode f (env.locate newMap) f ≠ _
    rw [upd_same]
    exact henv.locateNonRoot newMap
  · intro g hg
    show upd (popEvent st f).evPrevNode f ((popEvent st f).evNode f) g ∈ _ ∧
      upd (popEvent st f).evPrevNode f ((popEvent st f).evNode f) g ≠ _
    by_cases hgf : g = f
    · rw [hgf, upd_same]
      exact hwf.regNode f hf
    · rw [upd_other _ _ _ _ hgf]
      exact hwf.regPrevNode g hg

/-- Model::eventMove preserves the invariant. -/
theorem wf_eventMove (env : ModelEnv) (st : MState) (isLocalMove : Bool) (r : RngS)
    (henv : EnvWF env) (hwf : WF env st) :
    WF env (eventMove env st isLocalMove r).1 := by
  unfold eventMove
  by_cases hreg : st.registry.length > 0
  · rw [if_pos hreg]
    dsimp only [rngDraw]
    cases hch : chooseEventAtRandom st (r.1 r.2) with
    | none => exact hwf
    | some f =>
        dsimp only
        have hf : f ∈ st.registry := chooseEvent_mem hch
        have hwf1 : WF env { st with lastEventModified := some f } :=
          wf_congr env hwf rfl rfl rfl rfl rfl rfl
            (fun y hy => (Option.some.inj hy) ▸ hf)
        cases isLocalMove with
        | true =>
            dsimp only [rngDrawRange, rngDraw]
            have W := wf_moveRelocate env { st with lastEventModified := some f } f
              (({ st with lastEventModified := some f }).evMap f +
                (0 + (env.scale - 0) * r.1 (r.2 + 1) - env.scale / 2)) henv hwf1 hf
            exact wf_congr env W rfl rfl rfl rfl rfl rfl (fun y hy => W.lemReg y hy)
        | false =>
            have W := wf_moveRelocate env { st with lastEventModified := some f } f
              (env.totalMapLength * r.1 (r.2 + 1)) henv hwf1 hf
            exact wf_congr env W rfl rfl rfl rfl rfl rfl (fun y hy => W.lemReg y hy)
  · rw [if_neg hreg]
    exact wf_congr env hwf rfl rfl rfl rfl rfl rfl (fun y hy => hwf.lemReg y hy)

/-- Model::revertMovedEventToPrevious preserves the invariant. -/
theorem wf_revert (env : ModelEnv) (st : MState)
    (henv : EnvWF env) (hwf : WF env st) :
    WF env (revertMovedEventToPrevious env st) := by
  unfold revertMovedEventToPrevious
  cases hlem : st.lastEventModified with
  | none => exact hwf
  | some le =>
      dsimp only
      have hle : le ∈ st.registry := hwf.lemReg le hlem
      have W : WF env (relocateEvent env st le (fun s => revertOldMapPosition s le)) := by
        refine wf_relocate env st le _ henv hwf hle rfl ?_ ?_ ?_ ?_ ?_ rfl rfl rfl
        · intro g hg
          exact upd_other _ le g _ hg
        · intro g hg
          exact upd_other _ le g _ hg
        · show upd (popEvent st le).evNode le ((popEvent st le).evPrevNode le) le ∈ _
          rw [upd_same]
          exact (hwf.regPrevNode le hle).1
        · show upd (popEvent st le).evNode le ((popEvent st le).evPrevNode le) le ≠ _
          rw [upd_same]
          exact (hwf.regPrevNode le hle).2
        · intro g hg
          exact hwf.regPrevNode g hg
      exact wf_congr env W rfl rfl rfl rfl rfl rfl (fun y hy => nomatch hy)

/-- Every reachable model state satisfies the invariant. -/
theorem wf_reachable (env : ModelEnv) (st : MState) (henv : EnvWF env)
    (h : Reachable env st) : WF env st := by
  induction h with
  | init => exact wf_initial env
  | add st0 r _ ih => exact wf_addEventToTree env st0 r henv ih
  | move st0 isL r _ ih => exact wf_eventMove env st0 isL r henv ih
  | revert st0 _ ih => exact wf_revert env st0 henv ih
  | record st0 x eT p hx _ ih => exact wf_processEventRecord env st0 x eT p henv ih hx

/-- Under the strict dirt-free invariant, every child vertex of a subtree
carries its branch's last event, or its parent's `nodeEvent` when its branch
is empty. -/
theorem good_pairs : ∀ (p : PTree) (bhf : Nat → BranchHist) (A : Nat),
    Good bhf true A [] p →
    ∀ pc ∈ childPairs p,
      (match (bhf pc.2).events.getLast? with
      | some L => (bhf pc.2).nodeEvent = L
      | none => (bhf pc.2).nodeEvent = (bhf pc.1).nodeEvent) := by
  intro p
  induction p with
  | tip i =>
      intro bhf A _ pc hpc
      simp [childPairs] at hpc
  | node i l r ihl ihr =>
      intro bhf A hG pc hpc
      obtain ⟨_, h2⟩ := hG
      rw [if_neg (by simp)] at h2
      have hA2 : ∃ A2, (bhf i).nodeEvent = A2 ∧
          Good bhf true A2 [] l ∧ Good bhf true A2 [] r := by
        cases hgl : (bhf i).events.getLast? with
        | none =>
            simp only [hgl] at h2
            exact ⟨A, h2.1 (by trivial), h2.2.1, h2.2.2⟩
        | some L =>
            simp only [hgl] at h2
            exact ⟨L, h2.1, h2.2.1, h2.2.2⟩
      obtain ⟨A2, hne, hGl, hGr⟩ := hA2
      simp only [childPairs, List.mem_cons, List.mem_append] at hpc
      rcases hpc with rfl | rfl | hpc | hpc
      · have hrc := good_root_cases l bhf A2 hGl
        dsimp only
        cases hgl : (bhf l.rootId).events.getLast? with
        | none =>
            simp only [hgl] at hrc ⊢
            rw [hne]
            exact hrc
        | some L =>
            simp only [hgl] at hrc ⊢
            exact hrc
      · have hrc := good_root_cases r bhf A2 hGr
        dsimp only
        cases hgl : (bhf r.rootId).events.getLast? with
        | none =>
            simp only [hgl] at hrc ⊢
            rw [hne]
            exact hrc
        | some L =>
            simp only [hgl] at hrc ⊢
            exact hrc
      · exact ihl bhf A2 hGl pc hpc
      · exact ihr bhf A2 hGr pc hpc

/-- The whole-tree version of `good_pairs`. -/
theorem goodTree_pairs (bhf : Nat → BranchHist) (t : PTree) (hG : GoodTree bhf [] t) :
    ∀ pc ∈ childPairs t,
      (match (bhf pc.2).events.getLast? with
      | some L => (bhf pc.2).nodeEvent = L
      | none => (bhf pc.2).nodeEvent = (bhf pc.1).nodeEvent) := by
  cases t with
  | tip i =>
      intro pc hpc
      simp [childPairs] at hpc
  | node i l r =>
      intro pc hpc
      simp only [childPairs, List.mem_cons, List.mem_append] at hpc
      rcases hpc with rfl | rfl | hpc | hpc
      · have hrc := good_root_cases l bhf ((bhf i).nodeEvent) hG.1
        dsimp only
        cases hgl : (bhf l.rootId).events.getLast? with
        | none => simp only [hgl] at hrc ⊢; exact hrc
        | some L => simp only [hgl] at hrc ⊢; exact hrc
      · have hrc := good_root_cases r bhf ((bhf i).nodeEvent) hG.2
        dsimp only
        cases hgl : (bhf r.rootId).events.getLast? with
        | none => simp only [hgl] at hrc ⊢; exact hrc
        | some L => simp only [hgl] at hrc ⊢; exact hrc
      · exact good_pairs l bhf _ hG.1 pc hpc
      · exact good_pairs r bhf _ hG.2 pc hpc

/-- A consistent state satisfies the claimed per-node effective-event
invariant. -/
theorem wf_nodeEventInvariant (env : ModelEnv) (st : MState) (hwf : WF env st) :
    NodeEventInvariant st env.tree := by
  intro pc hpc
  have h := goodTree_pairs st.bh env.tree hwf.good pc hpc
  show (match mostTipward st.evMap (st.bh pc.2).events with
    | some L => (st.bh pc.2).nodeEvent = L
    | none => (st.bh pc.2).nodeEvent = (st.bh pc.1).nodeEvent)
  rw [mostTipward_eq_getLast _ (hwf.histSorted pc.2)]
  exact h

/-- C1: starting from the freshly constructed model, any sequence of random
event insertions, local or global event moves, move rollbacks and
initializer insertions keeps every non-root node's `nodeEvent` equal to the
most tipward event of its own branch history when that history is
non-empty, and to its ancestor's `nodeEvent` otherwise. -/
theorem C1_reachable_nodeEvent_invariant (env : ModelEnv) (st : MState)
    (henv : EnvWF env) (h : Reachable env st) :
    NodeEventInvariant st env.tree :=
  wf_nodeEventInvariant env st (wf_reachable env st henv h)

/-- C1 witness: the test environment is well-formed and the freshly
constructed model on the four-leaf tree satisfies the invariant. -/
theorem C1_witness : EnvWF cEnv ∧ NodeEventInvariant (initialModelState cEnv) cEnv.tree := by
  have henv : EnvWF cEnv := by
    refine ⟨?_, ?_, by decide⟩
    · intro q
      show (if q < 10 then 1 else 2) ∈ cEnv.tree.ids
      by_cases h : q < (10 : ℚ)
      · rw [if_pos h]
        decide
      · rw [if_neg h]
        decide
    · intro q
      show (if q < 10 then 1 else 2) ≠ cEnv.tree.rootId
      by_cases h : q < (10 : ℚ)
      · rw [if_pos h]
        decide
      · rw [if_neg h]
        decide
  exact ⟨henv, C1_reachable_nodeEvent_invariant cEnv (initialModelState cEnv) henv
    Reachable.init⟩

/-- The strict dirt-free invariant determines every cached `nodeEvent` and
`ancestralNodeEvent` from the event lists and the boundary event. -/
theorem good_unique : ∀ (p : PTree) (bhf1 bhf2 : Nat → BranchHist) (A : Nat),
    Good bhf1 true A [] p → Good bhf2 true A [] p →
    (∀ z ∈ p.ids, (bhf1 z).events = (bhf2 z).events) →
    ∀ z ∈ p.ids, (bhf1 z).nodeEvent = (bhf2 z).nodeEvent ∧
      (bhf1 z).ancestralNodeEvent = (bhf2 z).ancestralNodeEvent := by
  intro p
  induction p with
  | tip i =>
      intro bhf1 bhf2 A hG1 hG2 hl z hz
      have hzi : z = i := by simpa [PTree.ids] using hz
      subst hzi
      obtain ⟨ha1, hb1⟩ := hG1
      obtain ⟨ha2, hb2⟩ := hG2
      rw [if_neg (by simp)] at hb1 hb2
      refine ⟨?_, (ha1 (by trivial)).trans (ha2 (by trivial)).symm⟩
      have hevz : (bhf1 z).events = (bhf2 z).events := hl z (by simp [PTree.ids])
      cases hgl : (bhf1 z).events.getLast? with
      | none =>
          simp only [hgl] at hb1
          rw [hevz] at hgl
          simp only [hgl] at hb2
          exact (hb1 (by trivial)).trans (hb2 (by trivial)).symm
      | some L =>
          simp only [hgl] at hb1
          rw [hevz] at hgl
          simp only [hgl] at hb2
          exact hb1.trans hb2.symm
  | node i l r ihl ihr =>
      intro bhf1 bhf2 A hG1 hG2 hl z hz
      obtain ⟨ha1, hb1⟩ := hG1
      obtain ⟨ha2, hb2⟩ := hG2
      rw [if_neg (by simp)] at hb1 hb2
      have hll : ∀ z2 ∈ l.ids, (bhf1 z2).events = (bhf2 z2).events := fun z2 hz2 =>
        hl z2 (by simp only [PTree.ids, List.mem_cons, List.mem_append]; tauto)
      have hlr : ∀ z2 ∈ r.ids, (bhf1 z2).events = (bhf2 z2).events := fun z2 hz2 =>
        hl z2 (by simp only [PTree.ids, List.mem_cons, List.mem_append]; tauto)
      have hevi : (bhf1 i).events = (bhf2 i).events := hl i (by simp [PTree.ids])
      have hchildren : (bhf1 i).nodeEvent = (bhf2 i).nodeEvent ∧
          (∃ A2, Good bhf1 true A2 [] l ∧ Good bhf2 true A2 [] l ∧
            Good bhf1 true A2 [] r ∧ Good bhf2 true A2 [] r) := by
        cases hgl : (bhf1 i).events.getLast? with
        | none =>
            simp only [hgl] at hb1
            rw [hevi] at hgl
            simp only [hgl] at hb2
            exact ⟨(hb1.1 (by trivial)).trans (hb2.1 (by trivial)).symm,
              A, hb1.2.1, hb2.2.1, hb1.2.2, hb2.2.2⟩
        | some L =>
            simp only [hgl] at hb1
            rw [hevi] at hgl
            simp only [hgl] at hb2
            exact ⟨hb1.1.trans hb2.1.symm, L, hb1.2.1, hb2.2.1, hb1.2.2, hb2.2.2⟩
      obtain ⟨hnei, A2, hl1, hl2, hr1, hr2⟩ := hchildren
      simp only [PTree.ids, List.mem_cons, List.mem_append] at hz
      rcases hz with rfl | hz | hz
      · exact ⟨hnei, (ha1 (by trivial)).trans (ha2 (by trivial)).symm⟩
      · exact ihl bhf1 bhf2 A2 hl1 hl2 hll z hz
      · exact ihr bhf1 bhf2 A2 hr1 hr2 hlr z hz

/-- The whole-tree version of `good_unique`: equal event lists and equal
root branch data force equal cached events everywhere. -/
theorem goodTree_unique (bhf1 bhf2 : Nat → BranchHist) (t : PTree)
    (hG1 : GoodTree bhf1 [] t) (hG2 : GoodTree bhf2 [] t)
    (hroot : bhf1 t.rootId = bhf2 t.rootId)
    (hl : ∀ z ∈ t.ids, (bhf1 z).events = (bhf2 z).events) :
    ∀ z ∈ t.ids, (bhf1 z).nodeEvent = (bhf2 z).nodeEvent ∧
      (bhf1 z).ancestralNodeEvent = (bhf2 z).ancestralNodeEvent := by
  cases t with
  | tip i =>
      intro z hz
      have hzi : z = i := by simpa [PTree.ids] using hz
      subst hzi
      have hroot2 : bhf1 z = bhf2 z := hroot
      rw [hroot2]
      exact ⟨rfl, rfl⟩
  | node i l r =>
      intro z hz
      have hroot2 : bhf1 i = bhf2 i := hroot
      have hll : ∀ z2 ∈ l.ids, (bhf1 z2).events = (bhf2 z2).events := fun z2 hz2 =>
        hl z2 (by simp only [PTree.ids, List.mem_cons, List.mem_append]; tauto)
      have hlr : ∀ z2 ∈ r.ids, (bhf1 z2).events = (bhf2 z2).events := fun z2 hz2 =>
        hl z2 (by simp only [PTree.ids, List.mem_cons, List.mem_append]; tauto)
      have hb : (bhf1 i).nodeEvent = (bhf2 i).nodeEvent := by rw [hroot2]
      have hG2l : Good bhf2 true ((bhf1 i).nodeEvent) [] l := by rw [hb]; exact hG2.1
      have hG2r : Good bhf2 true ((bhf1 i).nodeEvent) [] r := by rw [hb]; exact hG2.2
      simp only [PTree.ids, List.mem_cons, List.mem_append] at hz
      rcases hz with rfl | hz | hz
      · rw [hroot2]
        exact ⟨rfl, rfl⟩
      · exact good_unique l bhf1 bhf2 _ hG1.1 hG2l hll z hz
      · exact good_unique r bhf1 bhf2 _ hG1.2 hG2r hlr z hz

/-- The branch lists of the popped state. -/
theorem popEvent_bh_events (st : MState) (e : Nat) : ∀ q,
    ((popEvent st e).bh q).events =
      if q = st.evNode e then (st.bh (st.evNode e)).events.erase e
      else (st.bh q).events := by
  intro q
  show ((setBH st (st.evNode e) _).bh q).events = _
  rw [setBH_bh]
  by_cases hq : q = st.evNode e
  · rw [if_pos hq, if_pos hq]
  · rw [if_neg hq, if_neg hq]

/-- A popped event is on no branch of the popped state. -/
theorem popEvent_not_mem (st : MState) (e : Nat)
    (hnodup : ∀ q, (st.bh q).events.Nodup)
    (hmem : ∀ q, ∀ f ∈ (st.bh q).events, st.evNode f = q) :
    ∀ q, e ∉ ((popEvent st e).bh q).events := by
  intro q
  rw [popEvent_bh_events]
  by_cases hq : q = st.evNode e
  · rw [if_pos hq]
    intro hc
    exact ((List.Nodup.mem_erase_iff (hnodup (st.evNode e))).mp hc).1 rfl
  · rw [if_neg hq]
    intro hc
    exact hq ((hmem q e hc)).symm

/-- `relocate_events` with the repositioned node and map packaged as
equations. -/
theorem relocate_events_if (env : ModelEnv) (st : MState) (e : Nat)
    (repos : MState → MState) (n1v : Nat) (mv : Nat → ℚ)
    (hbh : (repos (popEvent st e)).bh = (popEvent st e).bh)
    (hn1v : (repos (popEvent st e)).evNode e = n1v)
    (hmv : (repos (popEvent st e)).evMap = mv) :
    ∀ q, ((relocateEvent env st e repos).bh q).events =
      if q = n1v then insertByMapTime mv e (((popEvent st e).bh q).events)
      else ((popEvent st e).bh q).events := by
  intro q
  rw [relocate_events env st e repos hbh q, hn1v, hmv]

/-- The relocation performed by `revertMovedEventToPrevious` preserves the
invariant. -/
theorem wf_revertRelocate (env : ModelEnv) (st : MState) (le : Nat)
    (henv : EnvWF env) (hwf : WF env st) (hle : le ∈ st.registry) :
    WF env (relocateEvent env st le (fun s => revertOldMapPosition s le)) := by
  refine wf_relocate env st le _ henv hwf hle rfl ?_ ?_ ?_ ?_ ?_ rfl rfl rfl
  · intro g hg
    exact upd_other _ le g _ hg
  · intro g hg
    exact upd_other _ le g _ hg
  · show upd (popEvent st le).evNode le ((popEvent st le).evPrevNode le) le ∈ _
    rw [upd_same]
    exact (hwf.regPrevNode le hle).1
  · show upd (popEvent st le).evNode le ((popEvent st le).evPrevNode le) le ≠ _
    rw [upd_same]
    exact (hwf.regPrevNode le hle).2
  · intro g hg
    exact hwf.regPrevNode g hg

/-- The core rollback property: if a consistent state `stM` was obtained
from a consistent state `st` by relocating the registry event `e` (its event
lists are `st`'s popped lists with `e` re-inserted at its new node, its
saved previous position is `e`'s old position, all other map times are
unchanged and the root branch is untouched), and no two registry events of
`st` share a map position, then relocating `e` back to its saved position
restores `e`'s owning node and map time, every branch's event list, and
every node's cached `nodeEvent` and `ancestralNodeEvent`. -/
theorem C2core (env : ModelEnv) (st stM : MState) (e : Nat)
    (henv : EnvWF env) (hwf : WF env st) (he : e ∈ st.registry)
    (hdist : ∀ f ∈ st.registry, ∀ g ∈ st.registry, f ≠ g → st.evMap f ≠ st.evMap g)
    (hwfM : WF env stM) (heM : e ∈ stM.registry)
    (h3 : stM.evPrevNode e = st.evNode e)
    (h4 : stM.evPrevMap e = st.evMap e)
    (h5 : ∀ q, (stM.bh q).events = if q = stM.evNode e then
      insertByMapTime stM.evMap e (((popEvent st e).bh q).events)
      else ((popEvent st e).bh q).events)
    (h6 : stM.bh env.tree.rootId = st.bh env.tree.rootId)
    (h7 : ∀ f, f ≠ e → stM.evMap f = st.evMap f) :
    (relocateEvent env stM e (fun s => revertOldMapPosition s e)).evNode e = st.evNode e ∧
    (relocateEvent env stM e (fun s => revertOldMapPosition s e)).evMap e = st.evMap e ∧
    (∀ q, ((relocateEvent env stM e (fun s => revertOldMapPosition s e)).bh q).events =
      (st.bh q).events) ∧
    (∀ q ∈ env.tree.ids,
      ((relocateEvent env stM e (fun s => revertOldMapPosition s e)).bh q).nodeEvent =
        (st.bh q).nodeEvent ∧
      ((relocateEvent env stM e (fun s => revertOldMapPosition s e)).bh q).ancestralNodeEvent =
        (st.bh q).ancestralNodeEvent) := by
  have hnotmem : ∀ q, e ∉ ((popEvent st e).bh q).events :=
    popEvent_not_mem st e hwf.histNodup (fun q f hf => (hwf.histMem q f hf).1)
  have hpopMS : ∀ q, ((popEvent stM e).bh q).events = ((popEvent st e).bh q).events := by
    intro q
    rw [popEvent_bh_events stM e q]
    by_cases hq : q = stM.evNode e
    · rw [if_pos hq, hq, h5 (stM.evNode e), if_pos rfl]
      exact erase_insertByMapTime _ _ _ (hnotmem (stM.evNode e))
    · rw [if_neg hq, h5 q, if_neg hq]
  have hnbR := relocate_nonbh env stM e (fun s => revertOldMapPosition s e)
  have hRa : (relocateEvent env stM e (fun s => revertOldMapPosition s e)).evNode e =
      st.evNode e := by
    rw [hnbR.1]
    show upd (popEvent stM e).evNode e ((popEvent stM e).evPrevNode e) e = _
    rw [upd_same]
    exact h3
  have hRb : (relocateEvent env stM e (fun s => revertOldMapPosition s e)).evMap e =
      st.evMap e := by
    rw [hnbR.2.1]
    show upd (popEvent stM e).evMap e ((popEvent stM e).evPrevMap e) e = _
    rw [upd_same]
    exact h4
  have hlistsR := relocate_events_if env stM e (fun s => revertOldMapPosition s e)
    (st.evNode e) (upd stM.evMap e (st.evMap e)) rfl
    (by show upd (popEvent stM e).evNode e ((popEvent stM e).evPrevNode e) e = _
        rw [upd_same]
        exact h3)
    (by show upd (popEvent stM e).evMap e ((popEvent stM e).evPrevMap e) = _
        rw [show (popEvent stM e).evPrevMap e = st.evMap e from h4]
        rfl)
  have hfinal : ∀ q,
      ((relocateEvent env stM e (fun s => revertOldMapPosition s e)).bh q).events =
      (st.bh q).events := by
    intro q
    rw [hlistsR q]
    by_cases hq : q = st.evNode e
    · rw [if_pos hq, hpopMS q, popEvent_bh_events st e q, hq, if_pos rfl]
      have hE : upd stM.evMap e (st.evMap e) e = st.evMap e := upd_same _ _ _
      have hList : ∀ f ∈ (st.bh (st.evNode e)).events.erase e,
          upd stM.evMap e (st.evMap e) f = st.evMap f := by
        intro f hf
        have hfe : f ≠ e :=
          ((List.Nodup.mem_erase_iff (hwf.histNodup (st.evNode e))).mp hf).1
        rw [upd_other _ _ _ _ hfe]
        exact h7 f hfe
      rw [insertByMapTime_congr _ st.evMap e _ hE hList]
      refine insertByMapTime_erase_roundtrip st.evMap e _ (hwf.histSorted _)
        (hwf.histNodup _) (hwf.regMem e he) ?_
      intro f hf hfe
      exact hdist f ((hwf.histMem _ f hf).2) e he hfe
    · rw [if_neg hq, hpopMS q, popEvent_bh_events st e q, if_neg hq]
  have hRroot : (relocateEvent env stM e (fun s => revertOldMapPosition s e)).bh
      env.tree.rootId = st.bh env.tree.rootId := by
    refine (relocate_bh_root env stM e _ henv.idsNodup rfl ?_ ?_ ?_ ?_).trans h6
    · intro g hg
      exact upd_other _ e g _ hg
    · exact (hwfM.regNode e heM).2
    · show upd (popEvent stM e).evNode e ((popEvent stM e).evPrevNode e) e ≠ _
      rw [upd_same]
      show stM.evPrevNode e ≠ _
      rw [h3]
      exact (hwf.regNode e he).2
    · rcases previous_char env stM e henv hwfM heM with ⟨p1, p2, p3⟩ | ⟨p1, p2, _⟩
      · exact Or.inl ⟨p1, p2, p3⟩
      · exact Or.inr ⟨p1, p2⟩
  have hwfR : WF env (relocateEvent env stM e (fun s => revertOldMapPosition s e)) :=
    wf_revertRelocate env stM e henv hwfM heM
  have huniq := goodTree_unique
    (relocateEvent env stM e (fun s => revertOldMapPosition s e)).bh st.bh env.tree
    hwfR.good hwf.good (by rw [hRroot]) (fun z _ => hfinal z)
  exact ⟨hRa, hRb, hfinal, huniq⟩

/-- C2 (amended): in a consistent state with at least one registry event
and no two registry events sharing a map position, calling
`revertMovedEventToPrevious` immediately after `eventMove` (local or
global) restores the moved event's owning node and map position and every
node's `nodeEvent` and `ancestralNodeEvent`. -/
theorem C2_move_revert_roundtrip (env : ModelEnv) (st : MState) (isLocalMove : Bool)
    (r : RngS) (e : Nat)
    (henv : EnvWF env) (hwf : WF env st)
    (hreg : 0 < st.registry.length)
    (hchoose : chooseEventAtRandom st (r.1 r.2) = some e)
    (hdist : ∀ f ∈ st.registry, ∀ g ∈ st.registry, f ≠ g → st.evMap f ≠ st.evMap g) :
    (revertMovedEventToPrevious env (eventMove env st isLocalMove r).1).evNode e =
      st.evNode e ∧
    (revertMovedEventToPrevious env (eventMove env st isLocalMove r).1).evMap e =
      st.evMap e ∧
    ∀ q ∈ env.tree.ids,
      ((revertMovedEventToPrevious env (eventMove env st isLocalMove r).1).bh q).nodeEvent =
        (st.bh q).nodeEvent ∧
      ((revertMovedEventToPrevious env
        (eventMove env st isLocalMove r).1).bh q).ancestralNodeEvent =
        (st.bh q).ancestralNodeEvent := by
  have he : e ∈ st.registry := chooseEvent_mem hchoose
  have hwf1 : WF env { st with lastEventModified := some e } :=
    wf_congr env hwf rfl rfl rfl rfl rfl rfl (fun y hy => (Option.some.inj hy) ▸ he)
  obtain ⟨nm, hSTM⟩ : ∃ nm, (eventMove env st isLocalMove r).1 =
      { relocateEvent env { st with lastEventModified := some e } e
          (fun s => eventSetPosition env s e nm) with
        means := env.computeMeans (relocateEvent env { st with lastEventModified := some e }
          e (fun s => eventSetPosition env s e nm)).bh } := by
    cases isLocalMove with
    | true =>
        refine ⟨({ st with lastEventModified := some e }).evMap e +
          (0 + (env.scale - 0) * r.1 (r.2 + 1) - env.scale / 2), ?_⟩
        unfold eventMove
        rw [if_pos hreg]
        dsimp only [rngDraw]
        rw [hchoose]
        dsimp only [rngDrawRange, rngDraw]
        rfl
    | false =>
        refine ⟨env.totalMapLength * r.1 (r.2 + 1), ?_⟩
        unfold eventMove
        rw [if_pos hreg]
        dsimp only [rngDraw]
        rw [hchoose]
        rfl
  rw [hSTM]
  have hnbM := relocate_nonbh env { st with lastEventModified := some e } e
    (fun s => eventSetPosition env s e nm)
  have hwfM : WF env { relocateEvent env { st with lastEventModified := some e } e
      (fun s => eventSetPosition env s e nm) with
      means := env.computeMeans (relocateEvent env { st with lastEventModified := some e }
        e (fun s => eventSetPosition env s e nm)).bh } := by
    have W := wf_moveRelocate env { st with lastEventModified := some e } e nm henv hwf1 he
    exact wf_congr env W rfl rfl rfl rfl rfl rfl (fun y hy => W.lemReg y hy)
  have hregM : ({ relocateEvent env { st with lastEventModified := some e } e
      (fun s => eventSetPosition env s e nm) with
      means := env.computeMeans (relocateEvent env { st with lastEventModified := some e }
        e (fun s => eventSetPosition env s e nm)).bh }).registry = st.registry := by
    show (relocateEvent env { st with lastEventModified := some e } e
      (fun s => eventSetPosition env s e nm)).registry = st.registry
    rw [hnbM.2.2.2.2.1]
    rfl
  have heM : e ∈ ({ relocateEvent env { st with lastEventModified := some e } e
      (fun s => eventSetPosition env s e nm) with
      means := env.computeMeans (relocateEvent env { st with lastEventModified := some e }
        e (fun s => eventSetPosition env s e nm)).bh }).registry := by
    rw [hregM]
    exact he
  have hlemM : ({ relocateEvent env { st with lastEventModified := some e } e
      (fun s => eventSetPosition env s e nm) with
      means := env.computeMeans (relocateEvent env { st with lastEventModified := some e }
        e (fun s => eventSetPosition env s e nm)).bh }).lastEventModified = some e := by
    show (relocateEvent env { st with lastEventModified := some e } e
      (fun s => eventSetPosition env s e nm)).lastEventModified = some e
    rw [hnbM.2.2.2.2.2.2]
    rfl
  have hrev : revertMovedEventToPrevious env
      ({ relocateEvent env { st with lastEventModified := some e } e
        (fun s => eventSetPosition env s e nm) with
        means := env.computeMeans (relocateEvent env { st with lastEventModified := some e }
          e (fun s => eventSetPosition env s e nm)).bh }) =
      (fun stM => { { relocateEvent env stM e (fun s => revertOldMapPosition s e) with
          lastEventModified := none } with
        means := env.computeMeans ({ relocateEvent env stM e
          (fun s => revertOldMapPosition s e) with lastEventModified := none }).bh })
      ({ relocateEvent env { st with lastEventModified := some e } e
        (fun s => eventSetPosition env s e nm) with
        means := env.computeMeans (relocateEvent env { st with lastEventModified := some e }
          e (fun s => eventSetPosition env s e nm)).bh }) := by
    unfold revertMovedEventToPrevious
    rw [hlemM]
  rw [hrev]
  dsimp only
  -- characterize the moved state and apply the rollback core
  have hMevN : ({ relocateEvent env { st with lastEventModified := some e } e
      (fun s => eventSetPosition env s e nm) with
      means := env.computeMeans (relocateEvent env { st with lastEventModified := some e }
        e (fun s => eventSetPosition env s e nm)).bh }).evNode e = env.locate nm := by
    show (relocateEvent env { st with lastEventModified := some e } e
      (fun s => eventSetPosition env s e nm)).evNode e = _
    rw [hnbM.1]
    show upd (popEvent { st with lastEventModified := some e } e).evNode e
      (env.locate nm) e = _
    rw [upd_same]
  have hMevM : ({ relocateEvent env { st with lastEventModified := some e } e
      (fun s => eventSetPosition env s e nm) with
      means := env.computeMeans (relocateEvent env { st with lastEventModified := some e }
        e (fun s => eventSetPosition env s e nm)).bh }).evMap =
      upd st.evMap e nm := by
    show (relocateEvent env { st with lastEventModified := some e } e
      (fun s => eventSetPosition env s e nm)).evMap = _
    rw [hnbM.2.1]
    rfl
  have h5M := relocate_events_if env { st with lastEventModified := some e } e
    (fun s => eventSetPosition env s e nm) (env.locate nm) (upd st.evMap e nm) rfl
    (by show upd (popEvent { st with lastEventModified := some e } e).evNode e
          (env.locate nm) e = _
        rw [upd_same])
    rfl
  have hcore := C2core env { st with lastEventModified := some e }
    ({ relocateEvent env { st with lastEventModified := some e } e
      (fun s => eventSetPosition env s e nm) with
      means := env.computeMeans (relocateEvent env { st with lastEventModified := some e }
        e (fun s => eventSetPosition env s e nm)).bh }) e henv hwf1 he hdist hwfM heM
    (by show (relocateEvent env { st with lastEventModified := some e } e
          (fun s => eventSetPosition env s e nm)).evPrevNode e = _
        rw [hnbM.2.2.1]
        show upd (popEvent { st with lastEventModified := some e } e).evPrevNode e
          ((popEvent { st with lastEventModified := some e } e).evNode e) e = _
        rw [upd_same]
        rfl)
    (by show (relocateEvent env { st with lastEventModified := some e } e
          (fun s => eventSetPosition env s e nm)).evPrevMap e = _
        rw [hnbM.2.2.2.1]
        show upd (popEvent { st with lastEventModified := some e } e).evPrevMap e
          ((popEvent { st with lastEventModified := some e } e).evMap e) e = _
        rw [upd_same]
        rfl)
    (by intro q
        show ((relocateEvent env { st with lastEventModified := some e } e
          (fun s => eventSetPosition env s e nm)).bh q).events = _
        rw [h5M q, ← hMevN, ← hMevM])
    (by show (relocateEvent env { st with lastEventModified := some e } e
          (fun s => eventSetPosition env s e nm)).bh env.tree.rootId = _
        refine relocate_bh_root env { st with lastEventModified := some e } e _
          henv.idsNodup rfl ?_ ?_ ?_ ?_
        · intro g hg
          exact upd_other _ e g _ hg
        · exact (hwf.regNode e he).2
        · show upd (popEvent { st with lastEventModified := some e } e).evNode e
            (env.locate nm) e ≠ _
          rw [upd_same]
          exact henv.locateNonRoot nm
        · rcases previous_char env { st with lastEventModified := some e } e henv hwf1 he
            with ⟨p1, p2, p3⟩ | ⟨p1, p2, _⟩
          · exact Or.inl ⟨p1, p2, p3⟩
          · exact Or.inr ⟨p1, p2⟩)
    (by intro f hf
        rw [hMevM]
        exact upd_other _ _ _ _ hf)
  exact ⟨hcore.1, hcore.2.1, fun q hq => hcore.2.2.2 q hq⟩

/-- The test environment is well-formed. -/
theorem envWF_cEnv : EnvWF cEnv := by
  refine ⟨?_, ?_, by decide⟩
  · intro q
    show (if q < 10 then 1 else 2) ∈ cEnv.tree.ids
    by_cases h : q < (10 : ℚ)
    · rw [if_pos h]
      decide
    · rw [if_neg h]
      decide
  · intro q
    show (if q < 10 then 1 else 2) ≠ cEnv.tree.rootId
    by_cases h : q < (10 : ℚ)
    · rw [if_pos h]
      decide
    · rw [if_neg h]
      decide

/-- The two-event test state is consistent. -/
theorem wf_cSt2 : WF cEnv cSt2 :=
  wf_addEventToTreeAt cEnv _ 7 0 envWF_cEnv
    (wf_addEventToTreeAt cEnv _ 3 0 envWF_cEnv (wf_initial cEnv))

/-- The tied two-event test state is consistent. -/
theorem wf_cSt2tie : WF cEnv cSt2tie :=
  wf_addEventToTreeAt cEnv _ 5 0 envWF_cEnv
    (wf_addEventToTreeAt cEnv _ 5 0 envWF_cEnv (wf_initial cEnv))

/-- The zero draw picks the first registry event of the two-event state. -/
theorem choose_cSt2_zero :
    chooseEventAtRandom cSt2 ((constStream [0, 0]).1 (constStream [0, 0]).2) = some 101 := by
  show chooseEventAtRandom cSt2 0 = some 101
  unfold chooseEventAtRandom
  dsimp only
  rw [if_neg (by decide : ¬(cSt2.registry.length = 0))]
  rw [zero_mul, Int.floor_zero]
  decide

/-- C2 witness: on the two-event state with distinct positions, the local
move of event 101 by draws (0, 0) followed by an immediate rollback
restores its node, its position and every node's cached events. -/
theorem C2_witness :
    (revertMovedEventToPrevious cEnv (eventMove cEnv cSt2 true (constStream [0, 0])).1).evNode
      101 = cSt2.evNode 101 ∧
    (revertMovedEventToPrevious cEnv (eventMove cEnv cSt2 true (constStream [0, 0])).1).evMap
      101 = cSt2.evMap 101 ∧
    ∀ q ∈ cEnv.tree.ids,
      ((revertMovedEventToPrevious cEnv
        (eventMove cEnv cSt2 true (constStream [0, 0])).1).bh q).nodeEvent =
        (cSt2.bh q).nodeEvent ∧
      ((revertMovedEventToPrevious cEnv
        (eventMove cEnv cSt2 true (constStream [0, 0])).1).bh q).ancestralNodeEvent =
        (cSt2.bh q).ancestralNodeEvent :=
  C2_move_revert_roundtrip cEnv cSt2 true (constStream [0, 0]) 101 envWF_cEnv wf_cSt2
    (by decide) choose_cSt2_zero (by decide)

/-- C2 counterexample: on the consistent tied state (events 101 and 102
both at map position 5 on branch 1, `nodeEvent` 102), the local move of
event 101 by draws (0, 0) followed by an immediate rollback restores 101's
owning node and map position, yet node 1's `nodeEvent` ends up 101 instead
of 102: the re-inserted event lands after its tied partner, so the
effective-event assignment is not restored. -/
theorem C2_cex :
    WF cEnv cSt2tie ∧ 0 < cSt2tie.registry.length ∧
    (cSt2tie.bh 1).nodeEvent = 102 ∧
    (revertMovedEventToPrevious cEnv
      (eventMove cEnv cSt2tie true (constStream [0, 0])).1).evNode 101 =
      cSt2tie.evNode 101 ∧
    (revertMovedEventToPrevious cEnv
      (eventMove cEnv cSt2tie true (constStream [0, 0])).1).evMap 101 =
      cSt2tie.evMap 101 ∧
    ((revertMovedEventToPrevious cEnv
      (eventMove cEnv cSt2tie true (constStream [0, 0])).1).bh 1).nodeEvent = 101 := by
  have hch : chooseEventAtRandom cSt2tie
      ((constStream [0, 0]).1 (constStream [0, 0]).2) = some 101 := by
    show chooseEventAtRandom cSt2tie 0 = some 101
    unfold chooseEventAtRandom
    dsimp only
    rw [if_neg (by decide : ¬(cSt2tie.registry.length = 0))]
    rw [zero_mul, Int.floor_zero]
    decide
  have hSTM : (eventMove cEnv cSt2tie true (constStream [0, 0])).1 =
      { relocateEvent cEnv { cSt2tie with lastEventModified := some 101 } 101
          (fun s => eventSetPosition cEnv s 101
            (({ cSt2tie with lastEventModified := some 101 }).evMap 101 +
              (0 + (cEnv.scale - 0) * (constStream [0, 0]).1 ((constStream [0, 0]).2 + 1) -
                cEnv.scale / 2))) with
        means := cEnv.computeMeans (relocateEvent cEnv
          { cSt2tie with lastEventModified := some 101 } 101
          (fun s => eventSetPosition cEnv s 101
            (({ cSt2tie with lastEventModified := some 101 }).evMap 101 +
              (0 + (cEnv.scale - 0) * (constStream [0, 0]).1 ((constStream [0, 0]).2 + 1) -
                cEnv.scale / 2)))).bh } := by
    unfold eventMove
    rw [if_pos (by decide : cSt2tie.registry.length > 0)]
    dsimp only [rngDraw]
    rw [hch]
    dsimp only [rngDrawRange, rngDraw]
    rfl
  have hnm : ({ cSt2tie with lastEventModified := some 101 } : MState).evMap 101 +
      (0 + (cEnv.scale - 0) * (constStream [0, 0]).1 ((constStream [0, 0]).2 + 1) -
        cEnv.scale / 2) = 3 := by
    show (5 : ℚ) + (0 + ((4 : ℚ) - 0) * 0 - (4 : ℚ) / 2) = 3
    norm_num
  rw [hnm] at hSTM
  refine ⟨wf_cSt2tie, by decide, by decide, ?_, ?_, ?_⟩
  · rw [hSTM]
    decide
  · rw [hSTM]
    decide
  · rw [hSTM]
    decide

end BammModel
